import Mathlib

/-!
# Page replacement tables (FIFO, LRU, OPT)

A shallow embedding of `src/page_table.hpp`, `src/page_table.cpp` and of the
driver loops of `src/main.cpp`, followed by the properties proved about them.

Modelling conventions

* `page_id` (`int32_t`) is `Int`; no arithmetic is ever done on an id.
* `std::unordered_map<page_id, V>` is `UMap V`: the list of its entries in
  iteration order.  The standard leaves the position of a newly inserted entry
  (and the effect of a rehash) unspecified, so every operation that may insert
  is parameterised by a `Placement`, an arbitrary rule that returns some
  permutation of the old entries together with the new one.  `erase` keeps the
  relative order of the remaining entries, as the standard requires.
* `std::queue<page_id>` is a list with the front at the head.
* `std::list<Page>` is a list of nodes `(identity, page)`; a list iterator is
  the identity of the node it points to (`none` for a value-initialised
  iterator).  Using an iterator that points to no node of the list fails.
* A failing `assert` makes the operation return `none`.
* `std::size_t` counters (`faults_`, `request_`) are natural numbers: `request_`
  is guarded by `request_ < max_requests_` before each increment, and `faults_`
  is incremented at most once per call.  The subtraction in
  `next_request_distance` is done modulo `2 ^ 64`, and the maximum of the
  request type is `2 ^ 64 - 1`.
* `std::upper_bound` is the usual halving loop over the index range.
-/

namespace proj2

/-! ## Data model -/

/-- The C++ alias `page_id = int32_t`. -/
abbrev page_id := Int

/-- The C++ struct `Page`. -/
structure Page where
  id : page_id
deriving DecidableEq

/-- Value-initialisation `Page{}`, as done by `operator[]` of a map. -/
instance : Inhabited Page := ⟨⟨0⟩⟩

/-- The member `PageTable::fetch_page`. -/
def fetch_page (id : page_id) : Page := ⟨id⟩

/-- Entries of a `std::unordered_map<page_id, V>` in iteration order. -/
abbrev UMap (V : Type) := List (page_id × V)

/-- Where an unordered map puts a new entry: any permutation of the old
entries and the new one. -/
structure Placement where
  place : {V : Type} → UMap V → page_id × V → UMap V
  perm : ∀ {V : Type} (m : UMap V) (e : page_id × V), List.Perm (place m e) (e :: m)

/-- New entries go to the front of the iteration order. -/
def Placement.front : Placement where
  place := fun m e => e :: m
  perm := fun _ _ => List.Perm.refl _

/-- New entries go to the back of the iteration order. -/
def Placement.back : Placement where
  place := fun m e => m ++ [e]
  perm := fun m e => by
    exact (List.perm_append_comm : List.Perm (m ++ [e]) ([e] ++ m))

namespace UMap

variable {V : Type}

/-- The keys in iteration order. -/
def keys (m : UMap V) : List page_id := m.map Prod.fst

/-- The call `m.find(k)`: the mapped value, `none` for `m.end()`. -/
def find : UMap V → page_id → Option V
  | [], _ => none
  | (k', v) :: rest, k => if k' = k then some v else find rest k

/-- The call `m.erase(k)`. -/
def erase (m : UMap V) (k : page_id) : UMap V :=
  m.filter (fun e => decide (e.1 ≠ k))

/-- Writing `v` through a reference to the value mapped to `k`. -/
def set (m : UMap V) (k : page_id) (v : V) : UMap V :=
  m.map (fun e => if e.1 = k then (e.1, v) else e)

/-- The call `m[k]`: the mapped value, inserting a value-initialised one when
the key is absent. -/
def subscript [Inhabited V] (P : Placement) (m : UMap V) (k : page_id) : V × UMap V :=
  match find m k with
  | some v => (v, m)
  | none => (default, P.place m (k, default))

/-- The statement `m[k] = v`. -/
def assign [Inhabited V] (P : Placement) (m : UMap V) (k : page_id) (v : V) : UMap V :=
  set (subscript P m k).2 k v

/-- The call `m.size()`. -/
def size (m : UMap V) : Nat := m.length

end UMap

/-! ## FifoTable -/

/-- The class `FifoTable`. -/
structure FifoTable where
  capacity_ : Nat
  faults_ : Nat
  queue_ : List page_id
  frame_ : UMap Page
deriving DecidableEq

namespace FifoTable

/-- The constructor `FifoTable::FifoTable`. -/
def new (frame_size : Nat) : Option FifoTable :=
  if 0 < frame_size then some ⟨frame_size, 0, [], []⟩ else none

def size_impl (t : FifoTable) : Nat := UMap.size t.frame_

def full_impl (t : FifoTable) : Bool := decide (t.size_impl ≥ t.capacity_)

def faults_impl (t : FifoTable) : Nat := t.faults_

/-- The member `FifoTable::remove_page`. -/
def remove_page (t : FifoTable) : Option FifoTable :=
  match t.queue_ with
  | [] => none
  | id :: rest => some { t with queue_ := rest, frame_ := UMap.erase t.frame_ id }

/-- The member `FifoTable::add_page`. -/
def add_page (P : Placement) (t : FifoTable) (id : page_id) : Option FifoTable :=
  match (if t.full_impl then t.remove_page else some t) with
  | none => none
  | some t1 =>
    some { t1 with frame_ := UMap.assign P t1.frame_ id (fetch_page id),
                   queue_ := t1.queue_ ++ [id] }

/-- The member `FifoTable::get_impl`: the returned page and the new state. -/
def get_impl (P : Placement) (t : FifoTable) (id : page_id) : Option (Page × FifoTable) :=
  match UMap.find t.frame_ id with
  | some page => some (page, t)
  | none =>
    match add_page P { t with faults_ := t.faults_ + 1 } id with
    | none => none
    | some t2 =>
      let r := UMap.subscript P t2.frame_ id
      some (r.1, { t2 with frame_ := r.2 })

/-- A sequence of `get` calls, the returned references being dropped. -/
def run (P : Placement) : FifoTable → List page_id → Option FifoTable
  | t, [] => some t
  | t, id :: ids =>
    match get_impl P t id with
    | none => none
    | some r => run P r.2 ids

end FifoTable

/-! ## LruTable -/

/-- An iterator of `std::list<Page>`: the identity of a node. -/
abbrev iterator := Option Nat

/-- The nodes of a `std::list<Page>`, front first. -/
abbrev PageList := List (Nat × Page)

namespace PageList

/-- Dereferencing an iterator. -/
def deref (l : PageList) : iterator → Option Page
  | none => none
  | some n => (l.find? (fun e => decide (e.1 = n))).map Prod.snd

/-- The call `l.splice(l.end(), l, it)`: the node moves to the back. -/
def splice_end (l : PageList) : iterator → Option PageList
  | none => none
  | some n =>
    match l.find? (fun e => decide (e.1 = n)) with
    | none => none
    | some e => some (l.filter (fun e => decide (e.1 ≠ n)) ++ [e])

end PageList

/-- The class `LruTable`; `alloc_` is the identity the next list node gets. -/
structure LruTable where
  capacity_ : Nat
  faults_ : Nat
  list_ : PageList
  alloc_ : Nat
  frame_ : UMap iterator
deriving DecidableEq

namespace LruTable

/-- The constructor `LruTable::LruTable`. -/
def new (frame_size : Nat) : Option LruTable :=
  if 0 < frame_size then some ⟨frame_size, 0, [], 0, []⟩ else none

def size_impl (t : LruTable) : Nat := UMap.size t.frame_

def full_impl (t : LruTable) : Bool := decide (t.size_impl ≥ t.capacity_)

def faults_impl (t : LruTable) : Nat := t.faults_

/-- The member `LruTable::remove_page`. -/
def remove_page (t : LruTable) : Option LruTable :=
  match t.list_ with
  | [] => none
  | node :: rest => some { t with frame_ := UMap.erase t.frame_ node.2.id, list_ := rest }

/-- The member `LruTable::add_page`. -/
def add_page (P : Placement) (t : LruTable) (id : page_id) : Option LruTable :=
  match (if t.full_impl then t.remove_page else some t) with
  | none => none
  | some t1 =>
    some { t1 with list_ := t1.list_ ++ [(t1.alloc_, fetch_page id)],
                   alloc_ := t1.alloc_ + 1,
                   frame_ := UMap.assign P t1.frame_ id (some t1.alloc_) }

/-- The member `LruTable::get_impl`: the returned page and the new state. -/
def get_impl (P : Placement) (t : LruTable) (id : page_id) : Option (Page × LruTable) :=
  match UMap.find t.frame_ id with
  | some it =>
    match PageList.splice_end t.list_ it with
    | none => none
    | some l => (PageList.deref l it).map (fun page => (page, { t with list_ := l }))
  | none =>
    match add_page P { t with faults_ := t.faults_ + 1 } id with
    | none => none
    | some t2 =>
      let r := UMap.subscript P t2.frame_ id
      (PageList.deref t2.list_ r.1).map (fun page => (page, { t2 with frame_ := r.2 }))

/-- A sequence of `get` calls, the returned references being dropped. -/
def run (P : Placement) : LruTable → List page_id → Option LruTable
  | t, [] => some t
  | t, id :: ids =>
    match get_impl P t id with
    | none => none
    | some r => run P r.2 ids

end LruTable

/-! ## OptTable -/

/-- The value `numeric_limits<request>::max()` for a 64-bit `size_t`. -/
def request_max : Nat := 2 ^ 64 - 1

/-- Subtraction of two `request` values. -/
def request_sub (a b : Nat) : Nat := (a + 2 ^ 64 - b % 2 ^ 64) % 2 ^ 64

/-- The loop of `std::upper_bound` on the index range `[first, first + len)`;
the first argument bounds the number of iterations. -/
def upper_bound_loop (idxs : List Nat) (val : Nat) : Nat → Nat → Nat → Nat
  | 0, first, _ => first
  | fuel + 1, first, len =>
    if len = 0 then first
    else
      let half := len / 2
      let middle := first + half
      if val < idxs.getD middle 0 then upper_bound_loop idxs val fuel first half
      else upper_bound_loop idxs val fuel (middle + 1) (len - half - 1)

/-- The call `std::upper_bound(idxs.cbegin(), idxs.cend(), val)` as an index;
`idxs.length` stands for `idxs.cend()`. -/
def upper_bound (idxs : List Nat) (val : Nat) : Nat :=
  upper_bound_loop idxs val idxs.length 0 idxs.length

/-- The class `OptTable`. -/
structure OptTable where
  capacity_ : Nat
  faults_ : Nat
  max_requests_ : Nat
  request_ : Nat
  future_ : UMap (List Nat)
  frame_ : UMap Page
deriving DecidableEq

/-- The conversion `ch - '0'` used by the constructor and by Part 1b. -/
def char_id (ch : Char) : page_id := (ch.toNat : Int) - 48

namespace OptTable

/-- The loop of the constructor, from position `i` on. -/
def build_future (P : Placement) : List Char → Nat → UMap (List Nat) → UMap (List Nat)
  | [], _, m => m
  | ch :: rest, i, m =>
    let r := UMap.subscript P m (char_id ch)
    build_future P rest (i + 1) (UMap.set r.2 (char_id ch) (r.1 ++ [i]))

/-- The constructor `OptTable::OptTable`. -/
def new (P : Placement) (frame_size : Nat) (ref_str : List Char) : OptTable :=
  { capacity_ := frame_size, faults_ := 0, max_requests_ := ref_str.length, request_ := 0,
    future_ := build_future P ref_str 0 [], frame_ := [] }

def size_impl (t : OptTable) : Nat := UMap.size t.frame_

def full_impl (t : OptTable) : Bool := decide (t.size_impl ≥ t.capacity_)

def faults_impl (t : OptTable) : Nat := t.faults_

/-- The member `OptTable::next_request_distance`. -/
def next_request_distance (t : OptTable) (idxs : List Nat) : Nat :=
  let upper := upper_bound idxs t.request_
  if upper = idxs.length then request_max
  else request_sub (idxs.getD upper 0) t.request_

/-- The range-for loop of `OptTable::remove_page` over the remaining entries:
the final `farthest_page_id` and the table (its `future_` grows by the keys
looked up with `operator[]`). -/
def remove_scan (P : Placement) :
    OptTable → UMap Page → page_id → Nat → page_id × OptTable
  | t, [], farthest_page_id, _ => (farthest_page_id, t)
  | t, (id, _) :: rest, farthest_page_id, farthest_req =>
    let r := UMap.subscript P t.future_ id
    let t1 := { t with future_ := r.2 }
    let dist := t1.next_request_distance r.1
    if dist > farthest_req then
      if dist = request_max then (id, t1)
      else remove_scan P t1 rest id dist
    else remove_scan P t1 rest farthest_page_id farthest_req

/-- The member `OptTable::remove_page`. -/
def remove_page (P : Placement) (t : OptTable) : Option OptTable :=
  match t.frame_ with
  | [] => none
  | (first, _) :: _ =>
    let r := UMap.subscript P t.future_ first
    let t1 := { t with future_ := r.2 }
    let farthest_req := t1.next_request_distance r.1
    if farthest_req = request_max then
      some { t1 with frame_ := UMap.erase t1.frame_ first }
    else
      let s := remove_scan P t1 t1.frame_ first farthest_req
      some { s.2 with frame_ := UMap.erase s.2.frame_ s.1 }

/-- The member `OptTable::add_page`. -/
def add_page (P : Placement) (t : OptTable) (id : page_id) : Option OptTable :=
  match (if t.full_impl then t.remove_page P else some t) with
  | none => none
  | some t1 => some { t1 with frame_ := UMap.assign P t1.frame_ id (fetch_page id) }

/-- The member `OptTable::get_impl`: the returned page and the new state. -/
def get_impl (P : Placement) (t : OptTable) (id : page_id) : Option (Page × OptTable) :=
  if t.request_ < t.max_requests_ then
    match UMap.find t.frame_ id with
    | some page => some (page, { t with request_ := t.request_ + 1 })
    | none =>
      match add_page P { t with faults_ := t.faults_ + 1 } id with
      | none => none
      | some t2 =>
        let t3 := { t2 with request_ := t2.request_ + 1 }
        let r := UMap.subscript P t3.frame_ id
        some (r.1, { t3 with frame_ := r.2 })
  else none

/-- A sequence of `get` calls, the returned references being dropped. -/
def run (P : Placement) : OptTable → List page_id → Option OptTable
  | t, [] => some t
  | t, id :: ids =>
    match get_impl P t id with
    | none => none
    | some r => run P r.2 ids

end OptTable

/-! ## The driver loops of `main` -/

/-- The ids passed to `get` by the Part 1b loop: `page - '0'` per character. -/
def part1b_ids (ref_str : List Char) : List page_id := ref_str.map char_id

/-- Part 1b for `FifoTable`: the printed `faults()`. -/
def part1b_fifo (P : Placement) (frame_size : Nat) (ref_str : List Char) : Option Nat :=
  match FifoTable.new frame_size with
  | none => none
  | some t => (FifoTable.run P t (part1b_ids ref_str)).map FifoTable.faults_impl

/-- Part 1b for `LruTable`: the printed `faults()`. -/
def part1b_lru (P : Placement) (frame_size : Nat) (ref_str : List Char) : Option Nat :=
  match LruTable.new frame_size with
  | none => none
  | some t => (LruTable.run P t (part1b_ids ref_str)).map LruTable.faults_impl

/-- Part 1b for `OptTable`: the printed `faults()`. -/
def part1b_opt (P : Placement) (frame_size : Nat) (ref_str : List Char) : Option Nat :=
  (OptTable.run P (OptTable.new P frame_size ref_str) (part1b_ids ref_str)).map
    OptTable.faults_impl

/-- A `FifoTable` of the given capacity after the `get` calls `ids`. -/
def FifoTable.after (P : Placement) (frame_size : Nat) (ids : List page_id) :
    Option FifoTable :=
  match FifoTable.new frame_size with
  | none => none
  | some t => FifoTable.run P t ids

/-- An `LruTable` of the given capacity after the `get` calls `ids`. -/
def LruTable.after (P : Placement) (frame_size : Nat) (ids : List page_id) :
    Option LruTable :=
  match LruTable.new frame_size with
  | none => none
  | some t => LruTable.run P t ids

/-- An `OptTable` built from `ref_str` after the `get` calls `ids`. -/
def OptTable.after (P : Placement) (frame_size : Nat) (ref_str : List Char)
    (ids : List page_id) : Option OptTable :=
  OptTable.run P (OptTable.new P frame_size ref_str) ids

/-! ## Invariants and specification-level notions -/

/-- An id is resident when it is a key of the frame map. -/
def resident {V : Type} (frame : UMap V) (id : page_id) : Prop := id ∈ UMap.keys frame

instance {V : Type} (frame : UMap V) (id : page_id) : Decidable (resident frame id) :=
  inferInstanceAs (Decidable (id ∈ UMap.keys frame))

/-- Consistency of a `FifoTable`: positive capacity, unique keys, the queue
holds exactly the keys, the size is within the capacity, and every key maps
to the page of that id. -/
structure FifoTable.Inv (t : FifoTable) : Prop where
  cap_pos : 0 < t.capacity_
  nodup : (UMap.keys t.frame_).Nodup
  queue_perm : List.Perm t.queue_ (UMap.keys t.frame_)
  size_le : UMap.size t.frame_ ≤ t.capacity_
  page_id : ∀ e ∈ t.frame_, e.2.id = e.1

/-- The ids held by the recency list of an `LruTable`, front first. -/
def LruTable.ids (t : LruTable) : List page_id := t.list_.map (fun e => e.2.id)

/-- Structural consistency of an `LruTable`: unique keys, distinct node
identities below `alloc_`, distinct ids in the list, every key mapped to the
node that holds its page and every node mapped from its id. -/
structure LruTable.WF (t : LruTable) : Prop where
  nodup : (UMap.keys t.frame_).Nodup
  nodes_nodup : (t.list_.map Prod.fst).Nodup
  ids_nodup : t.ids.Nodup
  alloc_fresh : ∀ e ∈ t.list_, e.1 < t.alloc_
  frame_node : ∀ k it, (k, it) ∈ t.frame_ → ∃ n, it = some n ∧ (n, (⟨k⟩ : Page)) ∈ t.list_
  list_frame : ∀ e ∈ t.list_, (e.2.id, some e.1) ∈ t.frame_

/-- Consistency of an `LruTable`: structural consistency, positive capacity
and the size within the capacity. -/
structure LruTable.Inv (t : LruTable) : Prop where
  wf : LruTable.WF t
  cap_pos : 0 < t.capacity_
  size_le : UMap.size t.frame_ ≤ t.capacity_

/-- The value a map holds for a key, value-initialised when the key is absent:
what `m[k]` reads. -/
def UMap.read {V : Type} [Inhabited V] (m : UMap V) (k : page_id) : V :=
  (UMap.find m k).getD default

/-- The positions of the characters of `ref_str` that denote id `d`, counted
from `i`, in ascending order. -/
def occurrences : List Char → Nat → page_id → List Nat
  | [], _, _ => []
  | ch :: rest, i, d =>
    if char_id ch = d then i :: occurrences rest (i + 1) d else occurrences rest (i + 1) d

/-- The first position of id `d` in `ref_str` strictly greater than `p`. -/
def next_occurrence (ref_str : List Char) (p : Nat) (d : page_id) : Option Nat :=
  (List.range ref_str.length).find?
    (fun q => decide (p < q ∧ (ref_str[q]?).map char_id = some d))

/-- The next-occurrence distance of id `d` at position `p`: the first position
of `d` strictly greater than `p`, minus `p`; infinite when there is none. -/
def occurrence_distance (ref_str : List Char) (p : Nat) (d : page_id) : ℕ∞ :=
  match next_occurrence ref_str p d with
  | none => ⊤
  | some q => ((q - p : Nat) : ℕ∞)

/-- The distance `remove_page` computes for id `k`:
`next_request_distance(future_[k])`. -/
def OptTable.distance (t : OptTable) (k : page_id) : Nat :=
  t.next_request_distance (UMap.read t.future_ k)

/-- Consistency of an `OptTable` built from `ref_str`: positive capacity,
unique keys, the size within the capacity, every key mapped to the page of
that id, and a future index that records for each id its positions in
`ref_str`. -/
structure OptTable.Inv (ref_str : List Char) (t : OptTable) : Prop where
  cap_pos : 0 < t.capacity_
  nodup : (UMap.keys t.frame_).Nodup
  size_le : UMap.size t.frame_ ≤ t.capacity_
  page_id : ∀ e ∈ t.frame_, e.2.id = e.1
  future_nodup : (UMap.keys t.future_).Nodup
  future_read : ∀ d, UMap.read t.future_ d = occurrences ref_str 0 d
  max_eq : t.max_requests_ = ref_str.length

/-- Whether call number `k` (from 0) of the sequence `ids`, fed to a fresh
`FifoTable`, misses: its id is not resident when the call is made. -/
def FifoTable.is_miss (P : Placement) (frame_size : Nat) (ids : List page_id) (k : Nat) : Bool :=
  match FifoTable.after P frame_size (ids.take k), ids[k]? with
  | some t, some w => decide (¬ resident t.frame_ w)
  | _, _ => false

/-- The number of the last call of `ids` that inserted id `w` into a fresh
`FifoTable`, that is, the last call on `w` that missed. -/
def FifoTable.insert_time (P : Placement) (frame_size : Nat) (ids : List page_id)
    (w : page_id) : Option Nat :=
  ((List.range ids.length).filter
    (fun k => decide (ids[k]? = some w) && FifoTable.is_miss P frame_size ids k)).getLast?

/-- The FIFO rule on the queue: a resident id changes nothing, a new id goes
to the back after the front has left a full queue. -/
def fifo_touch (c : Nat) (q : List page_id) (id : page_id) : List page_id :=
  if id ∈ q then q else (if c ≤ q.length then q.tail else q) ++ [id]

/-- The number of the last call of `ids` on id `w`. -/
def last_access (ids : List page_id) (w : page_id) : Option Nat :=
  ((List.range ids.length).filter (fun k => decide (ids[k]? = some w))).getLast?

/-- The LRU rule on the recency order: the accessed id moves to the back, a
new id after the front has left a full list. -/
def lru_touch (c : Nat) (l : List page_id) (id : page_id) : List page_id :=
  if id ∈ l then l.filter (fun x => decide (x ≠ id)) ++ [id]
  else (if c ≤ l.length then l.tail else l) ++ [id]

/-- Id `a` was last inserted into a fresh `FifoTable` fed `ids` strictly
before id `b` was. -/
def FifoTable.inserted_before (P : Placement) (frame_size : Nat) (ids : List page_id)
    (a b : page_id) : Prop :=
  ∃ ka kb, FifoTable.insert_time P frame_size ids a = some ka ∧
    FifoTable.insert_time P frame_size ids b = some kb ∧ ka < kb

/-- The last call on id `a` in `ids` comes strictly before the last call on
id `b`. -/
def accessed_before (ids : List page_id) (a b : page_id) : Prop :=
  ∃ ka kb, last_access ids a = some ka ∧ last_access ids b = some kb ∧ ka < kb

/-- The least number of faults a demand-paging policy of capacity `c` can incur
on the requests `σ` from the resident set `S`: a resident id costs nothing, a
new id costs one fault and, when the set is full, the best choice of victim. -/
def min_faults (c : Nat) : Finset page_id → List page_id → Nat
  | _, [] => 0
  | S, x :: σ =>
    if x ∈ S then min_faults c S σ
    else if S.card < c then 1 + min_faults c (insert x S) σ
    else if h : S.Nonempty then 1 + S.inf' h (fun v => min_faults c (insert x (S.erase v)) σ)
    else 1

/-- The set of resident ids of a frame map. -/
def resident_set {V : Type} (frame : UMap V) : Finset page_id := (UMap.keys frame).toFinset

/-- The faults the FIFO rule incurs on `ids` from queue `q`. -/
def fifo_faults (c : Nat) : List page_id → List page_id → Nat
  | _, [] => 0
  | q, id :: ids => (if id ∈ q then 0 else 1) + fifo_faults c (fifo_touch c q id) ids

/-- The faults the LRU rule incurs on `ids` from recency order `l`. -/
def lru_faults (c : Nat) : List page_id → List page_id → Nat
  | _, [] => 0
  | l, id :: ids => (if id ∈ l then 0 else 1) + lru_faults c (lru_touch c l id) ids

/-- The state of an `OptTable` at the moment a call `get(id)` stops on a failed
assertion, `none` when the call returns: the assertion at the top of
`get_impl` fails before anything is written, the one at the top of
`remove_page` after `++faults_`. -/
def OptTable.get_impl_abort (t : OptTable) (id : page_id) : Option OptTable :=
  if t.request_ < t.max_requests_ then
    match UMap.find t.frame_ id with
    | some _ => none
    | none =>
      if OptTable.full_impl { t with faults_ := t.faults_ + 1 } then
        match t.frame_ with
        | [] => some { t with faults_ := t.faults_ + 1 }
        | _ :: _ => none
      else none
  else some t

/-- The positions `i` of `ref_str` with `ref_str[i] - '0' = d`, in ascending
order. -/
def positions (ref_str : List Char) (d : page_id) : List Nat :=
  (List.range ref_str.length).filter (fun i => decide ((ref_str[i]?).map char_id = some d))

/-- The ids passed to `get` by the Part 3a loops: `page` itself, the character
converted to `page_id`. -/
def part3a_ids (ref_str : List Char) : List page_id :=
  ref_str.map (fun ch => (ch.toNat : Int))

/-- Part 3a for `FifoTable` on one line of the dataset: the value added to
`avg_fifo_faults`. -/
def part3a_fifo (P : Placement) (frame_size : Nat) (ref_str : List Char) : Option Nat :=
  match FifoTable.new frame_size with
  | none => none
  | some t => (FifoTable.run P t (part3a_ids ref_str)).map FifoTable.faults_impl

/-- Part 3a for `LruTable` on one line of the dataset: the value added to
`avg_lru_faults`. -/
def part3a_lru (P : Placement) (frame_size : Nat) (ref_str : List Char) : Option Nat :=
  match LruTable.new frame_size with
  | none => none
  | some t => (LruTable.run P t (part3a_ids ref_str)).map LruTable.faults_impl

/-- Part 3a for `OptTable` on one line of the dataset: the value added to
`avg_opt_faults`. -/
def part3a_opt (P : Placement) (frame_size : Nat) (ref_str : List Char) : Option Nat :=
  (OptTable.run P (OptTable.new P frame_size ref_str) (part3a_ids ref_str)).map
    OptTable.faults_impl

/-- The recency order `A` of an LRU list of capacity `c` is nested in the
recency order `B` of one of capacity `c + 1`: `A` is the back part of `B`,
and the two are equal as long as `A` is not full. -/
def lru_nested (c : Nat) (A B : List page_id) : Prop :=
  A <:+ B ∧ B.Nodup ∧ A.length ≤ c ∧ B.length ≤ c + 1 ∧ (A.length < c → A = B)

/-- The OPT policy of the design with the tie left open: a run over `ref_str`
from position `p` with resident set `S` that incurs `n` faults, where a miss
on a full set may evict any resident id whose next-occurrence distance is
maximal among the resident ids. -/
inductive OptChoiceRun (c : Nat) (ref_str : List Char) : Nat → Finset page_id → Nat → Prop
  | done (p : Nat) (S : Finset page_id) :
      ref_str.length ≤ p → OptChoiceRun c ref_str p S 0
  | hit (p : Nat) (S : Finset page_id) (n : Nat) (x : page_id) :
      (part1b_ids ref_str)[p]? = some x → x ∈ S →
      OptChoiceRun c ref_str (p + 1) S n → OptChoiceRun c ref_str p S n
  | fill (p : Nat) (S : Finset page_id) (n : Nat) (x : page_id) :
      (part1b_ids ref_str)[p]? = some x → x ∉ S → S.card < c →
      OptChoiceRun c ref_str (p + 1) (insert x S) n → OptChoiceRun c ref_str p S (n + 1)
  | evict (p : Nat) (S : Finset page_id) (n : Nat) (x v : page_id) :
      (part1b_ids ref_str)[p]? = some x → x ∉ S → c ≤ S.card → v ∈ S →
      (∀ w ∈ S, occurrence_distance ref_str p w ≤ occurrence_distance ref_str p v) →
      OptChoiceRun c ref_str (p + 1) (insert x (S.erase v)) n →
      OptChoiceRun c ref_str p S (n + 1)

/-! ## Lemmas on unordered maps -/

namespace UMap

variable {V : Type}

theorem keys_nil : keys ([] : UMap V) = [] := rfl

theorem keys_cons (e : page_id × V) (m : UMap V) : keys (e :: m) = e.1 :: keys m := rfl

theorem size_eq_length_keys (m : UMap V) : size m = (keys m).length := by
  simp [size, keys]

theorem find_eq_none_iff (m : UMap V) (k : page_id) : find m k = none ↔ k ∉ keys m := by
  induction m with
  | nil => simp [find, keys]
  | cons e m ih =>
    obtain ⟨k', v⟩ := e
    by_cases h : k' = k
    · simp [find, keys, h]
    · have h' : ¬ k = k' := fun h'' => h h''.symm
      simp only [find, h, if_false, ih, keys_cons, List.mem_cons, h', false_or]

theorem find_some_mem (m : UMap V) (k : page_id) (v : V) (h : find m k = some v) :
    (k, v) ∈ m := by
  induction m with
  | nil => simp [find] at h
  | cons e m ih =>
    obtain ⟨k', w⟩ := e
    by_cases hk : k' = k
    · simp [find, hk] at h
      simp [hk, h]
    · simp only [find, hk, if_false] at h
      exact List.mem_cons_of_mem _ (ih h)

theorem find_isSome_iff (m : UMap V) (k : page_id) : (∃ v, find m k = some v) ↔ k ∈ keys m := by
  constructor
  · rintro ⟨v, hv⟩
    by_contra hk
    rw [← find_eq_none_iff] at hk
    simp [hk] at hv
  · intro hk
    cases h : find m k with
    | none => exact absurd hk ((find_eq_none_iff m k).1 h)
    | some v => exact ⟨v, rfl⟩

theorem keys_erase (m : UMap V) (k : page_id) :
    keys (erase m k) = (keys m).filter (fun x => decide (x ≠ k)) := by
  simp only [erase, keys, List.filter_map]
  rfl

theorem keys_set (m : UMap V) (k : page_id) (v : V) : keys (set m k v) = keys m := by
  induction m with
  | nil => rfl
  | cons e m ih =>
    simp only [set, keys] at ih ⊢
    by_cases h : e.1 = k <;> simp [h, ih]

theorem find_set_self (m : UMap V) (k : page_id) (v : V) (h : k ∈ keys m) :
    find (set m k v) k = some v := by
  induction m with
  | nil => simp [keys] at h
  | cons e m ih =>
    obtain ⟨k', w⟩ := e
    show find ((if k' = k then (k', v) else (k', w)) :: set m k v) k = some v
    by_cases hk : k' = k
    · rw [if_pos hk]
      simp only [find, if_pos hk]
    · have hm : k ∈ keys m := by
        simp only [keys_cons, List.mem_cons] at h
        rcases h with h | h
        · exact absurd h.symm hk
        · exact h
      rw [if_neg hk]
      simp only [find, if_neg hk]
      exact ih hm

theorem keys_place (P : Placement) (m : UMap V) (e : page_id × V) :
    List.Perm (keys (P.place m e)) (e.1 :: keys m) := by
  have := (P.perm m e).map Prod.fst
  simpa [keys] using this

theorem subscript_of_mem [Inhabited V] (P : Placement) (m : UMap V) (k : page_id)
    (h : k ∈ keys m) : (subscript P m k).2 = m ∧ find m k = some (subscript P m k).1 := by
  obtain ⟨v, hv⟩ := (find_isSome_iff m k).2 h
  simp [subscript, hv]

theorem subscript_of_not_mem [Inhabited V] (P : Placement) (m : UMap V) (k : page_id)
    (h : k ∉ keys m) : subscript P m k = (default, P.place m (k, default)) := by
  have := (find_eq_none_iff m k).2 h
  simp [subscript, this]

theorem keys_assign_of_mem [Inhabited V] (P : Placement) (m : UMap V) (k : page_id) (v : V)
    (h : k ∈ keys m) : keys (assign P m k v) = keys m := by
  simp [assign, keys_set, (subscript_of_mem P m k h).1]

theorem keys_assign_of_not_mem [Inhabited V] (P : Placement) (m : UMap V) (k : page_id) (v : V)
    (h : k ∉ keys m) : List.Perm (keys (assign P m k v)) (k :: keys m) := by
  simp only [assign, keys_set, subscript_of_not_mem P m k h]
  exact keys_place P m (k, default)

theorem mem_keys_assign [Inhabited V] (P : Placement) (m : UMap V) (k : page_id) (v : V) :
    k ∈ keys (assign P m k v) := by
  by_cases h : k ∈ keys m
  · rw [keys_assign_of_mem P m k v h]; exact h
  · exact (keys_assign_of_not_mem P m k v h).mem_iff.2 (List.mem_cons_self _ _)

theorem find_assign_self [Inhabited V] (P : Placement) (m : UMap V) (k : page_id) (v : V) :
    find (assign P m k v) k = some v := by
  unfold assign
  apply find_set_self
  by_cases h : k ∈ keys m
  · rw [(subscript_of_mem P m k h).1]; exact h
  · rw [subscript_of_not_mem P m k h]
    exact (keys_place P m (k, default)).mem_iff.2 (List.mem_cons_self _ _)

theorem mem_erase (m : UMap V) (k : page_id) (e : page_id × V) (h : e ∈ erase m k) :
    e ∈ m ∧ e.1 ≠ k := by
  simpa [erase] using h

theorem mem_set (m : UMap V) (k : page_id) (v : V) (e : page_id × V) (h : e ∈ set m k v) :
    e = (k, v) ∨ (e ∈ m ∧ e.1 ≠ k) := by
  simp only [set, List.mem_map] at h
  obtain ⟨a, ha, rfl⟩ := h
  by_cases hk : a.1 = k
  · left; rw [if_pos hk, hk]
  · right; rw [if_neg hk]; exact ⟨ha, hk⟩

theorem mem_assign [Inhabited V] (P : Placement) (m : UMap V) (k : page_id) (v : V)
    (e : page_id × V) (h : e ∈ assign P m k v) : e = (k, v) ∨ (e ∈ m ∧ e.1 ≠ k) := by
  rcases mem_set _ k v e h with h | ⟨h, hk⟩
  · exact Or.inl h
  · right
    refine ⟨?_, hk⟩
    by_cases hm : k ∈ keys m
    · rwa [(subscript_of_mem P m k hm).1] at h
    · rw [subscript_of_not_mem P m k hm] at h
      rcases List.mem_cons.1 ((P.perm m (k, default)).mem_iff.1 h) with h | h
      · exact absurd (by rw [h]) hk
      · exact h

theorem nodup_keys_erase (m : UMap V) (k : page_id) (h : (keys m).Nodup) :
    (keys (erase m k)).Nodup := by
  rw [keys_erase]; exact h.filter _

theorem not_mem_keys_erase (m : UMap V) (k : page_id) : k ∉ keys (erase m k) := by
  rw [keys_erase]; simp

theorem mem_keys_erase (m : UMap V) (k x : page_id) :
    x ∈ keys (erase m k) ↔ x ∈ keys m ∧ x ≠ k := by
  rw [keys_erase]; simp

theorem length_filter_ne (l : List page_id) (k : page_id) (h : l.Nodup) (hk : k ∈ l) :
    (l.filter (fun x => decide (x ≠ k))).length + 1 = l.length := by
  induction l with
  | nil => simp at hk
  | cons a l ih =>
    have hnd := List.nodup_cons.1 h
    by_cases ha : a = k
    · subst ha
      have : l.filter (fun x => decide (x ≠ a)) = l := by
        apply List.filter_eq_self.2
        intro x hx
        have : x ≠ a := fun hxa => hnd.1 (hxa ▸ hx)
        simpa using this
      rw [List.filter_cons_of_neg (by simp), this, List.length_cons]
    · have hk' : k ∈ l := by
        rcases List.mem_cons.1 hk with h' | h'
        · exact absurd h'.symm ha
        · exact h'
      have := ih hnd.2 hk'
      rw [List.filter_cons_of_pos (by simpa using ha), List.length_cons, List.length_cons]
      omega

theorem size_erase_of_mem (m : UMap V) (k : page_id) (h : (keys m).Nodup) (hk : k ∈ keys m) :
    size (erase m k) + 1 = size m := by
  rw [size_eq_length_keys, size_eq_length_keys, keys_erase]
  exact length_filter_ne _ k h hk

end UMap

/-! ## FifoTable: one call of `get` -/

namespace UMap

variable {V : Type}

theorem subscript_assign [Inhabited V] (P : Placement) (m : UMap V) (k : page_id) (v : V) :
    subscript P (assign P m k v) k = (v, assign P m k v) := by
  have := find_assign_self P m k v
  simp [subscript, this]

end UMap

namespace FifoTable

theorem fifo_inv_new (c : Nat) (hc : 0 < c) :
    new c = some ⟨c, 0, [], []⟩ ∧ Inv ⟨c, 0, [], []⟩ := by
  refine ⟨by simp [new, hc], ?_⟩
  exact ⟨hc, by simp [UMap.keys], by simp [UMap.keys], by simp [UMap.size], by simp⟩

theorem fifo_get_impl_hit (P : Placement) (t : FifoTable) (id : page_id) (hinv : Inv t)
    (h : resident t.frame_ id) : get_impl P t id = some (fetch_page id, t) := by
  obtain ⟨page, hp⟩ := (UMap.find_isSome_iff t.frame_ id).2 h
  have hid := hinv.page_id _ (UMap.find_some_mem _ _ _ hp)
  have : page = fetch_page id := by
    cases page
    simp only [fetch_page] at hid ⊢
    simpa using hid
  simp [get_impl, hp, this]

theorem fifo_add_page_frame (P : Placement) (t t2 : FifoTable) (id : page_id)
    (h : add_page P t id = some t2) :
    ∃ t1, (if t.full_impl then t.remove_page else some t) = some t1 ∧
      t2 = { t1 with frame_ := UMap.assign P t1.frame_ id (fetch_page id),
                     queue_ := t1.queue_ ++ [id] } := by
  unfold add_page at h
  cases h1 : (if t.full_impl then t.remove_page else some t) with
  | none => rw [h1] at h; simp at h
  | some t1 =>
    rw [h1] at h
    simp only [Option.some.injEq] at h
    exact ⟨t1, rfl, h.symm⟩

theorem fifo_add_page_eq (P : Placement) (t t1 : FifoTable) (id : page_id)
    (h : (if t.full_impl then t.remove_page else some t) = some t1) :
    add_page P t id =
      some { t1 with frame_ := UMap.assign P t1.frame_ id (fetch_page id),
                     queue_ := t1.queue_ ++ [id] } := by
  unfold add_page
  rw [h]

theorem fifo_get_impl_miss_eq (P : Placement) (t : FifoTable) (id : page_id)
    (h : ¬ resident t.frame_ id) :
    get_impl P t id =
      (add_page P { t with faults_ := t.faults_ + 1 } id).map (fun t2 => (fetch_page id, t2)) := by
  have hf := (UMap.find_eq_none_iff t.frame_ id).2 h
  unfold get_impl
  rw [hf]
  cases hadd : add_page P { t with faults_ := t.faults_ + 1 } id with
  | none => rfl
  | some t2 =>
    obtain ⟨t1, -, rfl⟩ := fifo_add_page_frame P _ _ _ hadd
    simp [UMap.subscript_assign]

theorem fifo_get_impl_miss (P : Placement) (t : FifoTable) (id : page_id) (hinv : Inv t)
    (h : ¬ resident t.frame_ id) :
    ∃ t2, get_impl P t id = some (fetch_page id, t2) ∧ Inv t2 ∧ t2.capacity_ = t.capacity_ ∧
      t2.faults_ = t.faults_ + 1 ∧
      ((t.full_impl = false ∧ t2.queue_ = t.queue_ ++ [id] ∧
          List.Perm (UMap.keys t2.frame_) (id :: UMap.keys t.frame_)) ∨
       (t.full_impl = true ∧ ∃ v rest, t.queue_ = v :: rest ∧ t2.queue_ = rest ++ [id] ∧
          List.Perm (UMap.keys t2.frame_)
            (id :: (UMap.keys t.frame_).filter (fun x => decide (x ≠ v))))) := by
  rw [fifo_get_impl_miss_eq P t id h]
  unfold resident at h
  cases hfull : t.full_impl with
  | false =>
    have hlt : UMap.size t.frame_ < t.capacity_ := by
      simpa [full_impl, size_impl] using hfull
    have hperm := UMap.keys_assign_of_not_mem P t.frame_ id (fetch_page id) h
    refine ⟨{ t with faults_ := t.faults_ + 1,
                     frame_ := UMap.assign P t.frame_ id (fetch_page id),
                     queue_ := t.queue_ ++ [id] }, ?_, ?_, rfl, rfl, Or.inl ⟨rfl, rfl, hperm⟩⟩
    · have hf2 : full_impl { t with faults_ := t.faults_ + 1 } = false := hfull
      rw [fifo_add_page_eq P _ { t with faults_ := t.faults_ + 1 } id (by rw [hf2]; rfl)]
      rfl
    · refine ⟨hinv.cap_pos, ?_, ?_, ?_, ?_⟩
      · exact hperm.nodup_iff.2 (List.nodup_cons.2 ⟨h, hinv.nodup⟩)
      · refine List.Perm.trans ?_ hperm.symm
        exact List.perm_append_comm.trans (List.Perm.cons _ hinv.queue_perm)
      · show UMap.size (UMap.assign P t.frame_ id (fetch_page id)) ≤ t.capacity_
        rw [UMap.size_eq_length_keys, hperm.length_eq, List.length_cons,
          ← UMap.size_eq_length_keys]
        omega
      · intro e he
        rcases UMap.mem_assign P _ _ _ e he with rfl | ⟨he, -⟩
        · rfl
        · exact hinv.page_id e he
  | true =>
    have hge : t.capacity_ ≤ UMap.size t.frame_ := by
      simpa [full_impl, size_impl] using hfull
    have hlen : t.queue_.length = UMap.size t.frame_ := by
      rw [UMap.size_eq_length_keys]; exact hinv.queue_perm.length_eq
    cases hq : t.queue_ with
    | nil =>
      rw [hq] at hlen
      have := hinv.cap_pos
      simp at hlen
      omega
    | cons v rest =>
      have hqp := hinv.queue_perm
      rw [hq] at hqp
      have hv : v ∈ UMap.keys t.frame_ := hqp.mem_iff.1 (List.mem_cons_self _ _)
      have hvid : v ≠ id := fun hvid => h (hvid ▸ hv)
      have hnot : id ∉ UMap.keys (UMap.erase t.frame_ v) := by
        rw [UMap.mem_keys_erase]; exact fun hh => h hh.1
      have hperm := UMap.keys_assign_of_not_mem P (UMap.erase t.frame_ v) id (fetch_page id) hnot
      have hperm2 : List.Perm (UMap.keys (UMap.assign P (UMap.erase t.frame_ v) id (fetch_page id)))
          (id :: (UMap.keys t.frame_).filter (fun x => decide (x ≠ v))) := by
        rw [← UMap.keys_erase]; exact hperm
      refine ⟨{ t with faults_ := t.faults_ + 1,
                       frame_ := UMap.assign P (UMap.erase t.frame_ v) id (fetch_page id),
                       queue_ := rest ++ [id] }, ?_, ?_, rfl, rfl,
              Or.inr ⟨rfl, v, rest, rfl, rfl, hperm2⟩⟩
      · rw [fifo_add_page_eq P _ ⟨t.capacity_, t.faults_ + 1, rest, UMap.erase t.frame_ v⟩ id
          (by rw [if_pos (by exact hfull)]; simp [remove_page])]
        rfl
      · have hnd1 := UMap.nodup_keys_erase t.frame_ v hinv.nodup
        refine ⟨hinv.cap_pos, ?_, ?_, ?_, ?_⟩
        · exact hperm.nodup_iff.2 (List.nodup_cons.2 ⟨hnot, hnd1⟩)
        · refine List.Perm.trans ?_ hperm.symm
          refine List.perm_append_comm.trans (List.Perm.cons _ ?_)
          have hvr : v ∉ rest := (List.nodup_cons.1 (hqp.nodup_iff.2 hinv.nodup)).1
          have h1 := hqp.filter (fun x => decide (x ≠ v))
          rw [List.filter_cons_of_neg (by simp)] at h1
          rw [List.filter_eq_self.2 (fun x hx => by
            have : x ≠ v := fun hxv => hvr (hxv ▸ hx)
            simpa using this)] at h1
          rw [UMap.keys_erase]; exact h1
        · show UMap.size (UMap.assign P (UMap.erase t.frame_ v) id (fetch_page id)) ≤ t.capacity_
          have h2 := UMap.size_erase_of_mem t.frame_ v hinv.nodup hv
          have h3 := hinv.size_le
          rw [UMap.size_eq_length_keys, hperm.length_eq, List.length_cons,
            ← UMap.size_eq_length_keys]
          omega
        · intro e he
          rcases UMap.mem_assign P _ _ _ e he with rfl | ⟨he, -⟩
          · rfl
          · exact hinv.page_id e (UMap.mem_erase _ _ _ he).1

end FifoTable

/-! ## LruTable: one call of `get` -/

namespace UMap

variable {V : Type}

theorem mem_keys_of_mem (m : UMap V) (e : page_id × V) (h : e ∈ m) : e.1 ∈ keys m :=
  List.mem_map_of_mem Prod.fst h

theorem mem_erase_iff (m : UMap V) (k : page_id) (e : page_id × V) :
    e ∈ erase m k ↔ e ∈ m ∧ e.1 ≠ k := by
  simp [erase]

theorem find_eq_some_iff (m : UMap V) (k : page_id) (v : V) (hnd : (keys m).Nodup) :
    find m k = some v ↔ (k, v) ∈ m := by
  constructor
  · exact find_some_mem m k v
  · intro h
    induction m with
    | nil => simp at h
    | cons e m ih =>
      obtain ⟨k', w⟩ := e
      have hnd' := List.nodup_cons.1 hnd
      rcases List.mem_cons.1 h with h | h
      · have h1 : k' = k := (congrArg Prod.fst h).symm
        have h2 : w = v := (congrArg Prod.snd h).symm
        simp [find, h1, h2]
      · have hk : k ∈ keys m := mem_keys_of_mem m _ h
        have hne : k' ≠ k := fun hkk => hnd'.1 (hkk ▸ hk)
        simp only [find, if_neg hne]
        exact ih hnd'.2 h

theorem mem_set_iff (m : UMap V) (k : page_id) (v : V) (e : page_id × V) (hk : k ∈ keys m) :
    e ∈ set m k v ↔ e = (k, v) ∨ (e ∈ m ∧ e.1 ≠ k) := by
  constructor
  · exact mem_set m k v e
  · rintro (rfl | ⟨he, hne⟩)
    · obtain ⟨a, ha, hak⟩ := List.mem_map.1 hk
      exact List.mem_map.2 ⟨a, ha, by rw [if_pos hak, hak]⟩
    · exact List.mem_map.2 ⟨e, he, by rw [if_neg hne]⟩

theorem mem_assign_iff [Inhabited V] (P : Placement) (m : UMap V) (k : page_id) (v : V)
    (e : page_id × V) : e ∈ assign P m k v ↔ e = (k, v) ∨ (e ∈ m ∧ e.1 ≠ k) := by
  constructor
  · exact mem_assign P m k v e
  · intro h
    unfold assign
    by_cases hm : k ∈ keys m
    · rw [(subscript_of_mem P m k hm).1]
      exact (mem_set_iff m k v e hm).2 h
    · rw [subscript_of_not_mem P m k hm]
      have hk : k ∈ keys (P.place m (k, default)) :=
        (keys_place P m (k, default)).mem_iff.2 (List.mem_cons_self _ _)
      refine (mem_set_iff _ k v e hk).2 ?_
      rcases h with h | ⟨he, hne⟩
      · exact Or.inl h
      · exact Or.inr ⟨(P.perm m (k, default)).mem_iff.2 (List.mem_cons_of_mem _ he), hne⟩

end UMap

namespace PageList

theorem find_node (l : PageList) (n : Nat) (p : Page) (hnd : (l.map Prod.fst).Nodup)
    (h : (n, p) ∈ l) : l.find? (fun e => decide (e.1 = n)) = some (n, p) := by
  induction l with
  | nil => simp at h
  | cons e l ih =>
    have hnd' : e.1 ∉ l.map Prod.fst ∧ (l.map Prod.fst).Nodup := by
      rw [List.map_cons] at hnd
      exact List.nodup_cons.1 hnd
    rcases List.mem_cons.1 h with h | h
    · subst h
      simp
    · have hne : e.1 ≠ n := by
        intro hen
        apply hnd'.1
        rw [hen]
        exact List.mem_map_of_mem Prod.fst h
      rw [List.find?_cons_of_neg _ (by simpa using hne)]
      exact ih hnd'.2 h

theorem deref_of_mem (l : PageList) (n : Nat) (p : Page) (hnd : (l.map Prod.fst).Nodup)
    (h : (n, p) ∈ l) : deref l (some n) = some p := by
  simp [deref, find_node l n p hnd h]

theorem splice_end_of_mem (l : PageList) (n : Nat) (p : Page) (hnd : (l.map Prod.fst).Nodup)
    (h : (n, p) ∈ l) :
    splice_end l (some n) = some (l.filter (fun e => decide (e.1 ≠ n)) ++ [(n, p)]) := by
  simp [splice_end, find_node l n p hnd h]

theorem splice_perm (l : PageList) (n : Nat) (p : Page) (hnd : (l.map Prod.fst).Nodup)
    (h : (n, p) ∈ l) : List.Perm (l.filter (fun e => decide (e.1 ≠ n)) ++ [(n, p)]) l := by
  have hnd0 : l.Nodup := List.Nodup.of_map _ hnd
  refine (List.perm_ext_iff_of_nodup ?_ hnd0).2 ?_
  · refine List.Nodup.append (hnd0.filter _) (List.nodup_singleton _) ?_
    intro a ha hb
    rw [List.mem_singleton] at hb
    subst hb
    simp at ha
  · intro a
    simp only [List.mem_append, List.mem_filter, List.mem_singleton]
    constructor
    · rintro (⟨ha, -⟩ | rfl)
      · exact ha
      · exact h
    · intro ha
      by_cases hn : a.1 = n
      · right
        exact List.inj_on_of_nodup_map hnd ha h hn
      · left
        exact ⟨ha, by simpa using hn⟩

end PageList

namespace LruTable

theorem ids_perm (t : LruTable) (h : WF t) : List.Perm t.ids (UMap.keys t.frame_) := by
  refine (List.perm_ext_iff_of_nodup h.ids_nodup h.nodup).2 ?_
  intro k
  constructor
  · intro hk
    obtain ⟨e, he, rfl⟩ := List.mem_map.1 hk
    exact UMap.mem_keys_of_mem _ _ (h.list_frame e he)
  · intro hk
    obtain ⟨e, he, rfl⟩ := List.mem_map.1 hk
    obtain ⟨n, -, hn⟩ := h.frame_node e.1 e.2 he
    exact List.mem_map.2 ⟨_, hn, rfl⟩

theorem length_list (t : LruTable) (h : WF t) : t.list_.length = UMap.size t.frame_ := by
  rw [UMap.size_eq_length_keys, ← (ids_perm t h).length_eq]
  simp [ids]

theorem lru_inv_new (c : Nat) (hc : 0 < c) :
    new c = some ⟨c, 0, [], 0, []⟩ ∧ Inv ⟨c, 0, [], 0, []⟩ := by
  refine ⟨by simp [new, hc], ⟨?_, hc, by simp [UMap.size]⟩⟩
  exact ⟨by simp [UMap.keys], by simp, by simp [ids], by simp, by simp, by simp⟩

/-- Moving the node of a resident id to the back keeps the table consistent. -/
theorem wf_splice (t : LruTable) (h : WF t) (n : Nat) (id : page_id)
    (hn : (n, (⟨id⟩ : Page)) ∈ t.list_) :
    WF { t with list_ := t.list_.filter (fun e => decide (e.1 ≠ n)) ++ [(n, ⟨id⟩)] } ∧
    ids { t with list_ := t.list_.filter (fun e => decide (e.1 ≠ n)) ++ [(n, ⟨id⟩)] } =
      t.ids.filter (fun x => decide (x ≠ id)) ++ [id] := by
  have hperm := PageList.splice_perm t.list_ n ⟨id⟩ h.nodes_nodup hn
  refine ⟨⟨h.nodup, ?_, ?_, ?_, ?_, ?_⟩, ?_⟩
  · exact (hperm.map Prod.fst).nodup_iff.2 h.nodes_nodup
  · have hid : (t.list_.map (fun e => e.2.id)).Nodup := h.ids_nodup
    exact (hperm.map (fun e : Nat × Page => e.2.id)).nodup_iff.2 hid
  · intro e he
    exact h.alloc_fresh e (hperm.mem_iff.1 he)
  · intro k it hk
    obtain ⟨m, hm, hm'⟩ := h.frame_node k it hk
    exact ⟨m, hm, hperm.mem_iff.2 hm'⟩
  · intro e he
    exact h.list_frame e (hperm.mem_iff.1 he)
  · show List.map (fun e => e.2.id) (t.list_.filter (fun e => decide (e.1 ≠ n)) ++ [(n, ⟨id⟩)]) =
      (t.list_.map (fun e => e.2.id)).filter (fun x => decide (x ≠ id)) ++ [id]
    rw [List.map_append, List.filter_map]
    congr 2
    apply List.filter_congr
    intro e he
    have h1 : e.1 = n → e.2.id = id := fun hen =>
      congrArg (fun e => e.2.id) (List.inj_on_of_nodup_map h.nodes_nodup he hn hen)
    have h2 : e.2.id = id → e.1 = n := fun hen =>
      congrArg Prod.fst (List.inj_on_of_nodup_map h.ids_nodup he hn hen)
    by_cases hen : e.1 = n
    · simp [hen, h1 hen]
    · have : e.2.id ≠ id := fun hh => hen (h2 hh)
      simp [hen, this]

theorem lru_get_impl_hit (P : Placement) (t : LruTable) (id : page_id) (hinv : Inv t)
    (h : resident t.frame_ id) :
    ∃ n, (n, (⟨id⟩ : Page)) ∈ t.list_ ∧
      get_impl P t id = some (fetch_page id,
        { t with list_ := t.list_.filter (fun e => decide (e.1 ≠ n)) ++ [(n, ⟨id⟩)] }) ∧
      Inv { t with list_ := t.list_.filter (fun e => decide (e.1 ≠ n)) ++ [(n, ⟨id⟩)] } ∧
      ids { t with list_ := t.list_.filter (fun e => decide (e.1 ≠ n)) ++ [(n, ⟨id⟩)] } =
        t.ids.filter (fun x => decide (x ≠ id)) ++ [id] := by
  obtain ⟨it, hit⟩ := (UMap.find_isSome_iff t.frame_ id).2 h
  obtain ⟨n, rfl, hn⟩ := hinv.wf.frame_node id it (UMap.find_some_mem _ _ _ hit)
  have hw := wf_splice t hinv.wf n id hn
  refine ⟨n, hn, ?_, ⟨hw.1, hinv.cap_pos, hinv.size_le⟩, hw.2⟩
  unfold get_impl
  rw [hit]
  simp only
  rw [PageList.splice_end_of_mem t.list_ n ⟨id⟩ hinv.wf.nodes_nodup hn]
  simp only
  rw [PageList.deref_of_mem _ n ⟨id⟩ hw.1.nodes_nodup (by simp)]
  rfl

end LruTable

namespace LruTable

/-- Dropping the front node and its key keeps the table consistent. -/
theorem wf_pop (t : LruTable) (h : WF t) (node : Nat × Page) (rest : PageList)
    (hl : t.list_ = node :: rest) :
    WF { t with frame_ := UMap.erase t.frame_ node.2.id, list_ := rest } := by
  have hnodes := h.nodes_nodup
  have hids : (t.list_.map (fun e => e.2.id)).Nodup := h.ids_nodup
  rw [hl, List.map_cons] at hnodes hids
  have hnodes' := List.nodup_cons.1 hnodes
  have hids' := List.nodup_cons.1 hids
  refine ⟨UMap.nodup_keys_erase _ _ h.nodup, hnodes'.2, hids'.2, ?_, ?_, ?_⟩
  · intro e he
    exact h.alloc_fresh e (by rw [hl]; exact List.mem_cons_of_mem _ he)
  · intro k it hk
    obtain ⟨hk1, hk2⟩ := (UMap.mem_erase_iff _ _ _).1 hk
    obtain ⟨n, hn, hmem⟩ := h.frame_node k it hk1
    refine ⟨n, hn, ?_⟩
    rw [hl] at hmem
    rcases List.mem_cons.1 hmem with hm | hm
    · exact absurd (by rw [← hm]) hk2
    · exact hm
  · intro e he
    refine (UMap.mem_erase_iff _ _ _).2 ⟨h.list_frame e (by rw [hl]; exact List.mem_cons_of_mem _ he), ?_⟩
    intro heq
    exact hids'.1 (heq ▸ List.mem_map_of_mem (fun e : Nat × Page => e.2.id) he)

/-- Appending a fresh node for a non-resident id keeps the table consistent. -/
theorem wf_push (P : Placement) (t : LruTable) (h : WF t) (id : page_id)
    (hid : id ∉ UMap.keys t.frame_) :
    WF { t with list_ := t.list_ ++ [(t.alloc_, fetch_page id)], alloc_ := t.alloc_ + 1,
                frame_ := UMap.assign P t.frame_ id (some t.alloc_) } := by
  have hperm := UMap.keys_assign_of_not_mem P t.frame_ id (some t.alloc_) hid
  refine ⟨?_, ?_, ?_, ?_, ?_, ?_⟩
  · exact hperm.nodup_iff.2 (List.nodup_cons.2 ⟨hid, h.nodup⟩)
  · show ((t.list_ ++ [(t.alloc_, fetch_page id)]).map Prod.fst).Nodup
    rw [List.map_append]
    refine List.Nodup.append h.nodes_nodup (by simp) ?_
    intro a ha hb
    obtain ⟨e, he, rfl⟩ := List.mem_map.1 ha
    have := h.alloc_fresh e he
    simp at hb
    omega
  · show ((t.list_ ++ [(t.alloc_, fetch_page id)]).map (fun e => e.2.id)).Nodup
    rw [List.map_append]
    refine List.Nodup.append h.ids_nodup (by simp) ?_
    intro a ha hb
    simp only [List.map_cons, List.map_nil, List.mem_singleton, fetch_page] at hb
    subst hb
    exact hid ((ids_perm t h).mem_iff.1 ha)
  · intro e he
    rcases List.mem_append.1 he with he | he
    · exact Nat.lt_succ_of_lt (h.alloc_fresh e he)
    · simp only [List.mem_singleton] at he
      subst he
      exact Nat.lt_succ_self _
  · intro k it hk
    rcases (UMap.mem_assign_iff P _ _ _ _).1 hk with hk | ⟨hk, -⟩
    · have h1 : k = id := congrArg Prod.fst hk
      have h2 : it = some t.alloc_ := congrArg Prod.snd hk
      subst h1 h2
      exact ⟨t.alloc_, rfl, List.mem_append_right _ (by simp [fetch_page])⟩
    · obtain ⟨n, hn, hmem⟩ := h.frame_node k it hk
      exact ⟨n, hn, List.mem_append_left _ hmem⟩
  · intro e he
    refine (UMap.mem_assign_iff P _ _ _ _).2 ?_
    rcases List.mem_append.1 he with he | he
    · right
      refine ⟨h.list_frame e he, ?_⟩
      intro heq
      exact hid (heq ▸ UMap.mem_keys_of_mem _ _ (h.list_frame e he))
    · simp only [List.mem_singleton] at he
      subst he
      exact Or.inl rfl

theorem lru_add_page_eq (P : Placement) (t t1 : LruTable) (id : page_id)
    (h : (if t.full_impl then t.remove_page else some t) = some t1) :
    add_page P t id =
      some { t1 with list_ := t1.list_ ++ [(t1.alloc_, fetch_page id)],
                     alloc_ := t1.alloc_ + 1,
                     frame_ := UMap.assign P t1.frame_ id (some t1.alloc_) } := by
  unfold add_page
  rw [h]

/-- The tail of `get_impl` after a successful `add_page` on a consistent table. -/
theorem lru_get_impl_of_add_page (P : Placement) (t t1 : LruTable) (id : page_id)
    (hf : ¬ resident t.frame_ id)
    (h : (if full_impl { t with faults_ := t.faults_ + 1 }
          then remove_page { t with faults_ := t.faults_ + 1 }
          else some { t with faults_ := t.faults_ + 1 }) = some t1)
    (hwf : WF t1) (hid : id ∉ UMap.keys t1.frame_) :
    get_impl P t id = some (fetch_page id,
      { t1 with list_ := t1.list_ ++ [(t1.alloc_, fetch_page id)], alloc_ := t1.alloc_ + 1,
                frame_ := UMap.assign P t1.frame_ id (some t1.alloc_) }) := by
  have hnone := (UMap.find_eq_none_iff t.frame_ id).2 hf
  have hw := wf_push P t1 hwf id hid
  unfold get_impl
  rw [hnone]
  simp only
  rw [lru_add_page_eq P _ t1 id h]
  simp only [UMap.subscript_assign]
  rw [PageList.deref_of_mem _ t1.alloc_ (fetch_page id) hw.nodes_nodup
    (List.mem_append_right _ (List.mem_singleton_self _))]
  rfl

theorem lru_get_impl_miss (P : Placement) (t : LruTable) (id : page_id) (hinv : Inv t)
    (h : ¬ resident t.frame_ id) :
    ∃ t2, get_impl P t id = some (fetch_page id, t2) ∧ Inv t2 ∧ t2.capacity_ = t.capacity_ ∧
      t2.faults_ = t.faults_ + 1 ∧
      ((t.full_impl = false ∧ t2.ids = t.ids ++ [id] ∧
          List.Perm (UMap.keys t2.frame_) (id :: UMap.keys t.frame_)) ∨
       (t.full_impl = true ∧ ∃ v rest, t.ids = v :: rest ∧ t2.ids = rest ++ [id] ∧
          List.Perm (UMap.keys t2.frame_)
            (id :: (UMap.keys t.frame_).filter (fun x => decide (x ≠ v))))) := by
  have hid : id ∉ UMap.keys t.frame_ := h
  cases hfull : t.full_impl with
  | false =>
    have hlt : UMap.size t.frame_ < t.capacity_ := by
      simpa [full_impl, size_impl] using hfull
    have hperm := UMap.keys_assign_of_not_mem P t.frame_ id (some t.alloc_) hid
    have hw := wf_push P { t with faults_ := t.faults_ + 1 } ⟨hinv.wf.1, hinv.wf.2, hinv.wf.3,
      hinv.wf.4, hinv.wf.5, hinv.wf.6⟩ id hid
    refine ⟨_, lru_get_impl_of_add_page P t { t with faults_ := t.faults_ + 1 } id h
      (by
        have hf2 : full_impl { t with faults_ := t.faults_ + 1 } = false := hfull
        rw [hf2]; rfl)
      ⟨hinv.wf.1, hinv.wf.2, hinv.wf.3, hinv.wf.4, hinv.wf.5, hinv.wf.6⟩ hid,
      ⟨hw, hinv.cap_pos, ?_⟩, rfl, rfl, Or.inl ⟨rfl, ?_, hperm⟩⟩
    · show UMap.size (UMap.assign P t.frame_ id (some t.alloc_)) ≤ t.capacity_
      rw [UMap.size_eq_length_keys, hperm.length_eq, List.length_cons,
        ← UMap.size_eq_length_keys]
      omega
    · simp [ids, fetch_page]
  | true =>
    have hge : t.capacity_ ≤ UMap.size t.frame_ := by
      simpa [full_impl, size_impl] using hfull
    have hlen := length_list t hinv.wf
    cases hl : t.list_ with
    | nil =>
      rw [hl] at hlen
      have := hinv.cap_pos
      simp at hlen
      omega
    | cons node rest =>
      have hv : node.2.id ∈ UMap.keys t.frame_ :=
        UMap.mem_keys_of_mem _ _ (hinv.wf.list_frame node (by rw [hl]; exact List.mem_cons_self _ _))
      have hnot : id ∉ UMap.keys (UMap.erase t.frame_ node.2.id) := by
        rw [UMap.mem_keys_erase]; exact fun hh => hid hh.1
      have hperm := UMap.keys_assign_of_not_mem P (UMap.erase t.frame_ node.2.id) id
        (some t.alloc_) hnot
      have hperm2 : List.Perm
          (UMap.keys (UMap.assign P (UMap.erase t.frame_ node.2.id) id (some t.alloc_)))
          (id :: (UMap.keys t.frame_).filter (fun x => decide (x ≠ node.2.id))) := by
        rw [← UMap.keys_erase]; exact hperm
      have hwp := wf_pop t hinv.wf node rest hl
      have hwp' : WF ⟨t.capacity_, t.faults_ + 1, rest, t.alloc_,
          UMap.erase t.frame_ node.2.id⟩ :=
        ⟨hwp.1, hwp.2, hwp.3, hwp.4, hwp.5, hwp.6⟩
      have hw := wf_push P _ hwp' id hnot
      refine ⟨_, lru_get_impl_of_add_page P t ⟨t.capacity_, t.faults_ + 1, rest, t.alloc_,
          UMap.erase t.frame_ node.2.id⟩ id h
        (by rw [if_pos (by exact hfull)]; simp [remove_page, hl]) hwp' hnot,
        ⟨hw, hinv.cap_pos, ?_⟩, rfl, rfl,
        Or.inr ⟨rfl, node.2.id, rest.map (fun e => e.2.id), ?_, ?_, hperm2⟩⟩
      · show UMap.size (UMap.assign P (UMap.erase t.frame_ node.2.id) id (some t.alloc_)) ≤
          t.capacity_
        have h2 := UMap.size_erase_of_mem t.frame_ node.2.id hinv.wf.nodup hv
        have h3 := hinv.size_le
        rw [UMap.size_eq_length_keys, hperm.length_eq, List.length_cons,
          ← UMap.size_eq_length_keys]
        omega
      · simp [ids, hl]
      · simp [ids, fetch_page]

end LruTable

/-! ## The binary search of `next_request_distance` -/

theorem upper_bound_loop_spec (idxs : List Nat) (val : Nat)
    (hmono : ∀ i j, i ≤ j → j < idxs.length → idxs.getD i 0 ≤ idxs.getD j 0) :
    ∀ fuel first len, len ≤ fuel → first + len ≤ idxs.length →
      (∀ i, i < first → idxs.getD i 0 ≤ val) →
      (∀ i, first + len ≤ i → i < idxs.length → val < idxs.getD i 0) →
      upper_bound_loop idxs val fuel first len ≤ idxs.length ∧
      (∀ i, i < upper_bound_loop idxs val fuel first len → idxs.getD i 0 ≤ val) ∧
      (∀ i, upper_bound_loop idxs val fuel first len ≤ i → i < idxs.length →
        val < idxs.getD i 0) := by
  intro fuel
  induction fuel with
  | zero =>
    intro first len hlen hbound hlo hhi
    have hl : len = 0 := by omega
    subst hl
    simp only [upper_bound_loop]
    exact ⟨by omega, hlo, fun i hi hil => hhi i (by omega) hil⟩
  | succ fuel ih =>
    intro first len hlen hbound hlo hhi
    by_cases hl : len = 0
    · subst hl
      simp only [upper_bound_loop, if_true]
      exact ⟨by omega, hlo, fun i hi hil => hhi i (by omega) hil⟩
    · have hhalf : len / 2 < len := Nat.div_lt_self (by omega) (by omega)
      simp only [upper_bound_loop, if_neg hl]
      by_cases hv : val < idxs.getD (first + len / 2) 0
      · rw [if_pos hv]
        apply ih first (len / 2) (by omega) (by omega) hlo
        intro i hi hil
        exact lt_of_lt_of_le hv (hmono _ _ hi hil)
      · rw [if_neg hv]
        apply ih (first + len / 2 + 1) (len - len / 2 - 1) (by omega) (by omega)
        · intro i hi
          exact le_trans (hmono i (first + len / 2) (by omega) (by omega)) (not_lt.1 hv)
        · intro i hi hil
          exact hhi i (by omega) hil

theorem upper_bound_spec (idxs : List Nat) (val : Nat)
    (hmono : ∀ i j, i ≤ j → j < idxs.length → idxs.getD i 0 ≤ idxs.getD j 0) :
    upper_bound idxs val ≤ idxs.length ∧
    (∀ i, i < upper_bound idxs val → idxs.getD i 0 ≤ val) ∧
    (∀ i, upper_bound idxs val ≤ i → i < idxs.length → val < idxs.getD i 0) := by
  unfold upper_bound
  apply upper_bound_loop_spec idxs val hmono idxs.length 0 idxs.length (le_refl _) (by omega)
  · intro i hi; omega
  · intro i hi hil; omega

theorem getD_mono_of_sorted (idxs : List Nat) (hs : idxs.Sorted (· < ·)) :
    ∀ i j, i ≤ j → j < idxs.length → idxs.getD i 0 ≤ idxs.getD j 0 := by
  intro i j hij hj
  have hi : i < idxs.length := by omega
  rw [List.getD_eq_getElem _ _ hi, List.getD_eq_getElem _ _ hj]
  rcases Nat.lt_or_eq_of_le hij with h | h
  · exact le_of_lt (List.pairwise_iff_getElem.1 hs i j hi hj h)
  · subst h; exact le_refl _

theorem request_sub_eq (a b : Nat) (hab : b ≤ a) (ha : a < 2 ^ 64) :
    request_sub a b = a - b := by
  unfold request_sub
  have hb : b % 2 ^ 64 = b := Nat.mod_eq_of_lt (by omega)
  rw [hb]
  have : a + 2 ^ 64 - b = (a - b) + 2 ^ 64 := by omega
  rw [this, Nat.add_mod_right]
  exact Nat.mod_eq_of_lt (by omega)

theorem request_sub_le (a b : Nat) : request_sub a b ≤ request_max := by
  unfold request_sub request_max
  have := Nat.mod_lt (a + 2 ^ 64 - b % 2 ^ 64) (show 0 < 2 ^ 64 by norm_num)
  omega

namespace OptTable

theorem next_request_distance_le (t : OptTable) (idxs : List Nat) :
    t.next_request_distance idxs ≤ request_max := by
  unfold next_request_distance
  simp only
  split
  · exact le_refl _
  · exact request_sub_le _ _

/-- On an ascending list of positions below `2 ^ 64 - 1`, the distance is the
maximum exactly when no position lies after the cursor, and otherwise the gap
to the first position after the cursor. -/
theorem next_request_distance_spec (t : OptTable) (idxs : List Nat)
    (hs : idxs.Sorted (· < ·)) (hb : ∀ q ∈ idxs, q < 2 ^ 64 - 1) :
    (t.next_request_distance idxs = request_max ∧ ∀ q ∈ idxs, q ≤ t.request_) ∨
    (∃ q ∈ idxs, t.request_ < q ∧ (∀ q' ∈ idxs, t.request_ < q' → q ≤ q') ∧
      t.next_request_distance idxs = q - t.request_ ∧
      t.next_request_distance idxs < request_max) := by
  have hmono := getD_mono_of_sorted idxs hs
  obtain ⟨h1, h2, h3⟩ := upper_bound_spec idxs t.request_ hmono
  by_cases hu : upper_bound idxs t.request_ = idxs.length
  · left
    refine ⟨by simp [next_request_distance, hu], ?_⟩
    intro q hq
    obtain ⟨i, hi, rfl⟩ := List.getElem_of_mem hq
    have := h2 i (by omega)
    rwa [List.getD_eq_getElem _ _ hi] at this
  · right
    have hlt : upper_bound idxs t.request_ < idxs.length := lt_of_le_of_ne h1 hu
    have hq := h3 _ (le_refl _) hlt
    rw [List.getD_eq_getElem _ _ hlt] at hq
    have hqb := hb _ (List.getElem_mem hlt)
    have hd : t.next_request_distance idxs = idxs[upper_bound idxs t.request_] - t.request_ := by
      simp only [next_request_distance, if_neg hu, List.getD_eq_getElem _ _ hlt]
      exact request_sub_eq _ _ (le_of_lt hq) (by omega)
    refine ⟨_, List.getElem_mem hlt, hq, ?_, hd, ?_⟩
    · intro q' hq' hlt'
      obtain ⟨j, hj, rfl⟩ := List.getElem_of_mem hq'
      by_contra hcon
      have hju : j < upper_bound idxs t.request_ := by
        by_contra hge
        have := hmono _ j (not_lt.1 hge) hj
        rw [List.getD_eq_getElem _ _ hlt, List.getD_eq_getElem _ _ hj] at this
        omega
      have := h2 j hju
      rw [List.getD_eq_getElem _ _ hj] at this
      omega
    · rw [hd]; unfold request_max; omega

end OptTable

/-! ## The future-occurrence index -/

namespace UMap

variable {V : Type}

theorem find_perm (m1 m2 : UMap V) (k : page_id) (hnd : (keys m1).Nodup)
    (hp : List.Perm m1 m2) : find m1 k = find m2 k := by
  have hnd2 : (keys m2).Nodup := (hp.map Prod.fst).nodup_iff.1 hnd
  cases h : find m2 k with
  | none =>
    rw [find_eq_none_iff] at h ⊢
    exact fun hk => h ((hp.map Prod.fst).mem_iff.1 hk)
  | some v =>
    rw [find_eq_some_iff _ _ _ hnd2] at h
    rw [find_eq_some_iff _ _ _ hnd]
    exact hp.mem_iff.2 h

theorem find_set_ne (m : UMap V) (k k' : page_id) (v : V) (h : k' ≠ k) :
    find (set m k v) k' = find m k' := by
  induction m with
  | nil => rfl
  | cons e m ih =>
    obtain ⟨a, w⟩ := e
    show find ((if a = k then (a, v) else (a, w)) :: set m k v) k' = find ((a, w) :: m) k'
    by_cases hk : a = k
    · have : a ≠ k' := fun h' => h (h' ▸ hk)
      rw [if_pos hk]
      simp only [find, if_neg this]
      exact ih
    · rw [if_neg hk]
      by_cases hk' : a = k'
      · simp only [find, if_pos hk']
      · simp only [find, if_neg hk']
        exact ih

theorem subscript_fst [Inhabited V] (P : Placement) (m : UMap V) (k : page_id) :
    (subscript P m k).1 = read m k := by
  unfold subscript read
  cases find m k <;> rfl

theorem nodup_subscript [Inhabited V] (P : Placement) (m : UMap V) (k : page_id)
    (hnd : (keys m).Nodup) : (keys (subscript P m k).2).Nodup := by
  by_cases h : k ∈ keys m
  · rw [(subscript_of_mem P m k h).1]; exact hnd
  · rw [subscript_of_not_mem P m k h]
    exact (keys_place P m (k, default)).nodup_iff.2 (List.nodup_cons.2 ⟨h, hnd⟩)

theorem mem_keys_subscript [Inhabited V] (P : Placement) (m : UMap V) (k : page_id) :
    k ∈ keys (subscript P m k).2 := by
  by_cases h : k ∈ keys m
  · rw [(subscript_of_mem P m k h).1]; exact h
  · rw [subscript_of_not_mem P m k h]
    exact (keys_place P m (k, default)).mem_iff.2 (List.mem_cons_self _ _)

theorem read_subscript [Inhabited V] (P : Placement) (m : UMap V) (k k' : page_id)
    (hnd : (keys m).Nodup) : read (subscript P m k).2 k' = read m k' := by
  by_cases h : k ∈ keys m
  · rw [(subscript_of_mem P m k h).1]
  · rw [subscript_of_not_mem P m k h]
    have hnd' : (keys (P.place m (k, default))).Nodup :=
      (keys_place P m (k, default)).nodup_iff.2 (List.nodup_cons.2 ⟨h, hnd⟩)
    unfold read
    rw [find_perm _ _ k' hnd' (P.perm m (k, default))]
    by_cases hk : k = k'
    · subst hk
      simp [find, (find_eq_none_iff m k).2 h]
    · simp only [find, if_neg hk]

theorem read_set [Inhabited V] (m : UMap V) (k k' : page_id) (v : V) (hk : k ∈ keys m) :
    read (set m k v) k' = if k' = k then v else read m k' := by
  unfold read
  by_cases h : k' = k
  · subst h
    rw [find_set_self m k' v hk, if_pos rfl]
    rfl
  · rw [find_set_ne m k k' v h, if_neg h]

end UMap

theorem occurrences_cons (ch : Char) (rest : List Char) (i : Nat) (d : page_id) :
    occurrences (ch :: rest) i d =
      if char_id ch = d then i :: occurrences rest (i + 1) d else occurrences rest (i + 1) d :=
  rfl

theorem occurrences_ge (rest : List Char) (i : Nat) (d : page_id) :
    ∀ q ∈ occurrences rest i d, i ≤ q := by
  induction rest generalizing i with
  | nil => intro q hq; simp [occurrences] at hq
  | cons ch rest ih =>
    intro q hq
    unfold occurrences at hq
    split at hq
    · rcases List.mem_cons.1 hq with h | h
      · omega
      · have := ih (i + 1) q h; omega
    · have := ih (i + 1) q hq; omega

theorem occurrences_sorted (rest : List Char) (i : Nat) (d : page_id) :
    (occurrences rest i d).Sorted (· < ·) := by
  induction rest generalizing i with
  | nil => simp [occurrences]
  | cons ch rest ih =>
    unfold occurrences
    split
    · refine List.sorted_cons.2 ⟨?_, ih (i + 1)⟩
      intro q hq
      have := occurrences_ge rest (i + 1) d q hq
      omega
    · exact ih (i + 1)

theorem mem_occurrences (rest : List Char) (i : Nat) (d : page_id) (q : Nat) :
    q ∈ occurrences rest i d ↔ i ≤ q ∧ (rest[q - i]?).map char_id = some d := by
  induction rest generalizing i with
  | nil => simp [occurrences]
  | cons ch rest ih =>
    unfold occurrences
    by_cases hq : q = i
    · subst hq
      by_cases hc : char_id ch = d
      · simp [hc]
      · rw [if_neg hc, ih]
        simp [hc]
    · have key : (i ≤ q ∧ ((ch :: rest)[q - i]?).map char_id = some d) ↔
          (i + 1 ≤ q ∧ (rest[q - (i + 1)]?).map char_id = some d) := by
        constructor
        · rintro ⟨h1, h2⟩
          have h3 : q - i = (q - (i + 1)) + 1 := by omega
          rw [h3, List.getElem?_cons_succ] at h2
          exact ⟨by omega, h2⟩
        · rintro ⟨h1, h2⟩
          have h3 : q - i = (q - (i + 1)) + 1 := by omega
          rw [h3, List.getElem?_cons_succ]
          exact ⟨by omega, h2⟩
      rw [key]
      split
      · rw [List.mem_cons, ih]
        simp [hq]
      · exact ih (i + 1)

namespace OptTable

theorem build_future_spec (P : Placement) (rest : List Char) :
    ∀ (i : Nat) (m : UMap (List Nat)), (UMap.keys m).Nodup →
      (UMap.keys (build_future P rest i m)).Nodup ∧
      ∀ d, UMap.read (build_future P rest i m) d = UMap.read m d ++ occurrences rest i d := by
  induction rest with
  | nil =>
    intro i m hnd
    exact ⟨hnd, fun d => by simp [build_future, occurrences]⟩
  | cons ch rest ih =>
    intro i m hnd
    have hnd1 := UMap.nodup_subscript P m (char_id ch) hnd
    have hmem := UMap.mem_keys_subscript P m (char_id ch)
    have hnd2 : (UMap.keys (UMap.set (UMap.subscript P m (char_id ch)).2 (char_id ch)
        ((UMap.subscript P m (char_id ch)).1 ++ [i]))).Nodup := by
      rw [UMap.keys_set]; exact hnd1
    obtain ⟨h1, h2⟩ := ih (i + 1) _ hnd2
    refine ⟨h1, ?_⟩
    intro d
    show UMap.read (build_future P rest (i + 1) _) d = _
    rw [h2 d, UMap.read_set _ _ _ _ hmem, UMap.subscript_fst, UMap.read_subscript P m _ _ hnd]
    rw [occurrences_cons]
    by_cases hd : d = char_id ch
    · subst hd
      simp
    · have hd' : ¬ char_id ch = d := fun h => hd h.symm
      rw [if_neg hd, if_neg hd']

end OptTable

/-! ## OptTable: eviction -/

namespace OptTable

theorem distance_congr (t t' : OptTable) (hr : t'.request_ = t.request_)
    (hf : ∀ d, UMap.read t'.future_ d = UMap.read t.future_ d) (k : page_id) :
    t'.distance k = t.distance k := by
  unfold distance next_request_distance
  rw [hr, hf]

theorem remove_scan_spec (P : Placement) (L : UMap Page) :
    ∀ (t : OptTable) (far_id : page_id) (far_req : Nat),
      (UMap.keys t.future_).Nodup → far_req = t.distance far_id →
      ((remove_scan P t L far_id far_req).1 = far_id ∨
        (remove_scan P t L far_id far_req).1 ∈ UMap.keys L) ∧
      t.distance far_id ≤ t.distance (remove_scan P t L far_id far_req).1 ∧
      (∀ k ∈ UMap.keys L, t.distance k ≤ t.distance (remove_scan P t L far_id far_req).1) ∧
      (remove_scan P t L far_id far_req).2.capacity_ = t.capacity_ ∧
      (remove_scan P t L far_id far_req).2.faults_ = t.faults_ ∧
      (remove_scan P t L far_id far_req).2.max_requests_ = t.max_requests_ ∧
      (remove_scan P t L far_id far_req).2.request_ = t.request_ ∧
      (remove_scan P t L far_id far_req).2.frame_ = t.frame_ ∧
      (UMap.keys (remove_scan P t L far_id far_req).2.future_).Nodup ∧
      ∀ d, UMap.read (remove_scan P t L far_id far_req).2.future_ d = UMap.read t.future_ d := by
  induction L with
  | nil =>
    intro t far_id far_req hnd hreq
    exact ⟨Or.inl rfl, le_refl _, by simp [UMap.keys], rfl, rfl, rfl, rfl, rfl, hnd, fun _ => rfl⟩
  | cons e L ih =>
    intro t far_id far_req hnd hreq
    obtain ⟨id, pg⟩ := e
    have hnd1 := UMap.nodup_subscript P t.future_ id hnd
    have hread1 : ∀ d, UMap.read (UMap.subscript P t.future_ id).2 d = UMap.read t.future_ d :=
      fun d => UMap.read_subscript P t.future_ id d hnd
    have hdist1 : ∀ k, distance { t with future_ := (UMap.subscript P t.future_ id).2 } k =
        t.distance k :=
      fun k => distance_congr t { t with future_ := (UMap.subscript P t.future_ id).2 } rfl hread1 k
    have hd : next_request_distance { t with future_ := (UMap.subscript P t.future_ id).2 }
        (UMap.subscript P t.future_ id).1 = t.distance id := by
      rw [UMap.subscript_fst]
      rfl
    simp only [remove_scan, hd]
    by_cases hgt : t.distance id > far_req
    · rw [if_pos hgt]
      by_cases hmax : t.distance id = request_max
      · rw [if_pos hmax]
        refine ⟨Or.inr (List.mem_cons_self _ _), ?_, ?_, rfl, rfl, rfl, rfl, rfl, hnd1, hread1⟩
        · rw [hmax]; exact next_request_distance_le _ _
        · intro k _
          rw [hmax]; exact next_request_distance_le _ _
      · rw [if_neg hmax]
        obtain ⟨h1, h2, h3, h4, h5, h6, h7, h8, h9, h10⟩ :=
          ih { t with future_ := (UMap.subscript P t.future_ id).2 } id (t.distance id) hnd1
            (hdist1 id).symm
        simp only [hdist1] at h2 h3
        refine ⟨?_, ?_, ?_, h4, h5, h6, h7, h8, h9, fun d => (h10 d).trans (hread1 d)⟩
        · rcases h1 with h1 | h1
          · exact Or.inr (by rw [h1]; exact List.mem_cons_self _ _)
          · exact Or.inr (List.mem_cons_of_mem _ h1)
        · rw [← hreq]; exact le_trans (le_of_lt hgt) h2
        · intro k hk
          rcases List.mem_cons.1 hk with hk | hk
          · rw [hk]; exact h2
          · exact h3 k hk
    · rw [if_neg hgt]
      obtain ⟨h1, h2, h3, h4, h5, h6, h7, h8, h9, h10⟩ :=
        ih { t with future_ := (UMap.subscript P t.future_ id).2 } far_id far_req hnd1
          (hreq.trans (hdist1 far_id).symm)
      simp only [hdist1] at h2 h3
      refine ⟨?_, h2, ?_, h4, h5, h6, h7, h8, h9, fun d => (h10 d).trans (hread1 d)⟩
      · rcases h1 with h1 | h1
        · exact Or.inl h1
        · exact Or.inr (List.mem_cons_of_mem _ h1)
      · intro k hk
        rcases List.mem_cons.1 hk with hk | hk
        · rw [hk]
          exact le_trans (not_lt.1 hgt) (hreq ▸ h2)
        · exact h3 k hk

/-- `remove_page` on a non-empty frame erases a resident id whose distance is
maximal among the resident ids, and leaves what `future_` records unchanged. -/
theorem remove_page_spec (P : Placement) (t : OptTable) (hnd : (UMap.keys t.future_).Nodup)
    (hne : t.frame_ ≠ []) :
    ∃ v t', remove_page P t = some t' ∧ v ∈ UMap.keys t.frame_ ∧
      (∀ k ∈ UMap.keys t.frame_, t.distance k ≤ t.distance v) ∧
      t'.frame_ = UMap.erase t.frame_ v ∧ t'.capacity_ = t.capacity_ ∧
      t'.faults_ = t.faults_ ∧ t'.max_requests_ = t.max_requests_ ∧
      t'.request_ = t.request_ ∧ (UMap.keys t'.future_).Nodup ∧
      ∀ d, UMap.read t'.future_ d = UMap.read t.future_ d := by
  obtain ⟨cap, faults, maxr, req, fut, frame⟩ := t
  cases frame with
  | nil => exact absurd rfl hne
  | cons e L =>
    obtain ⟨first, pg⟩ := e
    have hnd1 := UMap.nodup_subscript P fut first hnd
    have hread1 : ∀ d, UMap.read (UMap.subscript P fut first).2 d = UMap.read fut d :=
      fun d => UMap.read_subscript P fut first d hnd
    have hdist1 : ∀ k, distance ⟨cap, faults, maxr, req, (UMap.subscript P fut first).2,
        (first, pg) :: L⟩ k = distance ⟨cap, faults, maxr, req, fut, (first, pg) :: L⟩ k :=
      fun k => distance_congr ⟨cap, faults, maxr, req, fut, (first, pg) :: L⟩
        ⟨cap, faults, maxr, req, (UMap.subscript P fut first).2, (first, pg) :: L⟩ rfl hread1 k
    have hd : next_request_distance ⟨cap, faults, maxr, req, (UMap.subscript P fut first).2,
        (first, pg) :: L⟩ (UMap.subscript P fut first).1 =
        distance ⟨cap, faults, maxr, req, fut, (first, pg) :: L⟩ first := by
      rw [UMap.subscript_fst]
      rfl
    by_cases hmax : distance ⟨cap, faults, maxr, req, fut, (first, pg) :: L⟩ first = request_max
    · refine ⟨first, ⟨cap, faults, maxr, req, (UMap.subscript P fut first).2,
        UMap.erase ((first, pg) :: L) first⟩, ?_, List.mem_cons_self _ _, ?_, rfl, rfl, rfl, rfl,
        rfl, hnd1, hread1⟩
      · simp only [remove_page, hd, if_pos hmax]
      · intro k _
        rw [hmax]; exact next_request_distance_le _ _
    · obtain ⟨h1, h2, h3, h4, h5, h6, h7, h8, h9, h10⟩ :=
        remove_scan_spec P ((first, pg) :: L)
          ⟨cap, faults, maxr, req, (UMap.subscript P fut first).2, (first, pg) :: L⟩ first
          (distance ⟨cap, faults, maxr, req, fut, (first, pg) :: L⟩ first) hnd1
          (hdist1 first).symm
      simp only [hdist1] at h2 h3
      have hrp : remove_page P ⟨cap, faults, maxr, req, fut, (first, pg) :: L⟩ =
          some { (remove_scan P ⟨cap, faults, maxr, req, (UMap.subscript P fut first).2,
                    (first, pg) :: L⟩ ((first, pg) :: L) first
                    (distance ⟨cap, faults, maxr, req, fut, (first, pg) :: L⟩ first)).2 with
                 frame_ := UMap.erase
                  (remove_scan P ⟨cap, faults, maxr, req, (UMap.subscript P fut first).2,
                    (first, pg) :: L⟩ ((first, pg) :: L) first
                    (distance ⟨cap, faults, maxr, req, fut, (first, pg) :: L⟩ first)).2.frame_
                  (remove_scan P ⟨cap, faults, maxr, req, (UMap.subscript P fut first).2,
                    (first, pg) :: L⟩ ((first, pg) :: L) first
                    (distance ⟨cap, faults, maxr, req, fut, (first, pg) :: L⟩ first)).1 } := by
        simp only [remove_page, hd, if_neg hmax]
      generalize remove_scan P ⟨cap, faults, maxr, req, (UMap.subscript P fut first).2,
        (first, pg) :: L⟩ ((first, pg) :: L) first
        (distance ⟨cap, faults, maxr, req, fut, (first, pg) :: L⟩ first) = sc at *
      refine ⟨sc.1, { sc.2 with frame_ := UMap.erase sc.2.frame_ sc.1 }, hrp, ?_, h3, ?_, h4, h5,
        h6, h7, h9, fun d => (h10 d).trans (hread1 d)⟩
      · rcases h1 with h1 | h1
        · rw [h1]; exact List.mem_cons_self _ _
        · exact h1
      · show UMap.erase sc.2.frame_ sc.1 = _
        rw [h8]

end OptTable

/-! ## OptTable: one call of `get` -/

namespace OptTable

theorem opt_inv_new (P : Placement) (c : Nat) (ref_str : List Char) (hc : 0 < c) :
    Inv ref_str (new P c ref_str) := by
  obtain ⟨h1, h2⟩ := build_future_spec P ref_str 0 [] (by simp [UMap.keys])
  refine ⟨hc, by simp [new, UMap.keys], by simp [new, UMap.size], by simp [new], h1, ?_, rfl⟩
  intro d
  show UMap.read (build_future P ref_str 0 []) d = _
  rw [h2 d]
  simp only [UMap.read, UMap.find, Option.getD_none]
  exact List.nil_append _

theorem opt_get_impl_hit (P : Placement) (ref_str : List Char) (t : OptTable) (id : page_id)
    (hinv : Inv ref_str t) (hreq : t.request_ < t.max_requests_) (h : resident t.frame_ id) :
    get_impl P t id = some (fetch_page id, { t with request_ := t.request_ + 1 }) ∧
    Inv ref_str { t with request_ := t.request_ + 1 } := by
  obtain ⟨page, hp⟩ := (UMap.find_isSome_iff t.frame_ id).2 h
  have hid := hinv.page_id _ (UMap.find_some_mem _ _ _ hp)
  have : page = fetch_page id := by
    cases page
    simp only [fetch_page] at hid ⊢
    simpa using hid
  refine ⟨by simp [get_impl, hreq, hp, this], ?_⟩
  exact ⟨hinv.cap_pos, hinv.nodup, hinv.size_le, hinv.page_id, hinv.future_nodup,
    hinv.future_read, hinv.max_eq⟩

theorem opt_add_page_eq (P : Placement) (t t1 : OptTable) (id : page_id)
    (h : (if t.full_impl then t.remove_page P else some t) = some t1) :
    add_page P t id =
      some { t1 with frame_ := UMap.assign P t1.frame_ id (fetch_page id) } := by
  unfold add_page
  rw [h]

/-- The tail of `get_impl` once the eviction step of `add_page` succeeded. -/
theorem opt_get_impl_of_add_page (P : Placement) (t t1 : OptTable) (id : page_id)
    (hreq : t.request_ < t.max_requests_) (hf : ¬ resident t.frame_ id)
    (h : (if full_impl { t with faults_ := t.faults_ + 1 }
          then remove_page P { t with faults_ := t.faults_ + 1 }
          else some { t with faults_ := t.faults_ + 1 }) = some t1) :
    get_impl P t id = some (fetch_page id,
      { t1 with frame_ := UMap.assign P t1.frame_ id (fetch_page id),
                request_ := t1.request_ + 1 }) := by
  have hnone := (UMap.find_eq_none_iff t.frame_ id).2 hf
  unfold get_impl
  rw [if_pos hreq, hnone]
  simp only
  rw [opt_add_page_eq P _ t1 id h]
  simp only [UMap.subscript_assign]

theorem opt_get_impl_miss (P : Placement) (ref_str : List Char) (t : OptTable) (id : page_id)
    (hinv : Inv ref_str t) (hreq : t.request_ < t.max_requests_) (h : ¬ resident t.frame_ id) :
    ∃ t2, get_impl P t id = some (fetch_page id, t2) ∧ Inv ref_str t2 ∧
      t2.capacity_ = t.capacity_ ∧ t2.faults_ = t.faults_ + 1 ∧
      t2.request_ = t.request_ + 1 ∧ t2.max_requests_ = t.max_requests_ ∧
      ((t.full_impl = false ∧ List.Perm (UMap.keys t2.frame_) (id :: UMap.keys t.frame_)) ∨
       (t.full_impl = true ∧ ∃ v, v ∈ UMap.keys t.frame_ ∧
          (∀ k ∈ UMap.keys t.frame_, t.distance k ≤ t.distance v) ∧
          List.Perm (UMap.keys t2.frame_)
            (id :: (UMap.keys t.frame_).filter (fun x => decide (x ≠ v))))) := by
  have hid : id ∉ UMap.keys t.frame_ := h
  cases hfull : t.full_impl with
  | false =>
    have hlt : UMap.size t.frame_ < t.capacity_ := by
      simpa [full_impl, size_impl] using hfull
    have hperm := UMap.keys_assign_of_not_mem P t.frame_ id (fetch_page id) hid
    refine ⟨_, opt_get_impl_of_add_page P t { t with faults_ := t.faults_ + 1 } id hreq h
      (by
        have hf2 : full_impl { t with faults_ := t.faults_ + 1 } = false := hfull
        rw [hf2]; rfl), ?_, rfl, rfl, rfl, rfl, Or.inl ⟨rfl, hperm⟩⟩
    refine ⟨hinv.cap_pos, ?_, ?_, ?_, hinv.future_nodup, hinv.future_read, hinv.max_eq⟩
    · exact hperm.nodup_iff.2 (List.nodup_cons.2 ⟨hid, hinv.nodup⟩)
    · show UMap.size (UMap.assign P t.frame_ id (fetch_page id)) ≤ t.capacity_
      rw [UMap.size_eq_length_keys, hperm.length_eq, List.length_cons,
        ← UMap.size_eq_length_keys]
      omega
    · intro e he
      rcases UMap.mem_assign P _ _ _ e he with rfl | ⟨he, -⟩
      · rfl
      · exact hinv.page_id e he
  | true =>
    have hge : t.capacity_ ≤ UMap.size t.frame_ := by
      simpa [full_impl, size_impl] using hfull
    have hne : t.frame_ ≠ [] := by
      intro hnil
      have := hinv.cap_pos
      rw [hnil] at hge
      simp [UMap.size] at hge
      omega
    obtain ⟨v, t', hrp, hv, hmaxd, hfr0, hcap, hfa, hmx, hrq, hfnd, hfread⟩ :=
      remove_page_spec P { t with faults_ := t.faults_ + 1 } hinv.future_nodup hne
    have hfr : t'.frame_ = UMap.erase t.frame_ v := hfr0
    have hv : v ∈ UMap.keys t.frame_ := hv
    have hnot : id ∉ UMap.keys t'.frame_ := by
      rw [hfr, UMap.mem_keys_erase]; exact fun hh => hid hh.1
    have hperm := UMap.keys_assign_of_not_mem P t'.frame_ id (fetch_page id) hnot
    have hperm2 : List.Perm (UMap.keys (UMap.assign P t'.frame_ id (fetch_page id)))
        (id :: (UMap.keys t.frame_).filter (fun x => decide (x ≠ v))) := by
      rw [← UMap.keys_erase, ← hfr]
      exact hperm
    refine ⟨_, opt_get_impl_of_add_page P t t' id hreq h
      (by rw [if_pos (by exact hfull)]; exact hrp), ?_, hcap, hfa,
      by simp only [hrq], hmx, Or.inr ⟨rfl, v, hv, hmaxd, hperm2⟩⟩
    refine ⟨by simp only [hcap]; exact hinv.cap_pos, ?_, ?_, ?_, hfnd, ?_, ?_⟩
    · refine hperm.nodup_iff.2 (List.nodup_cons.2 ⟨hnot, ?_⟩)
      rw [hfr]; exact UMap.nodup_keys_erase _ _ hinv.nodup
    · show UMap.size (UMap.assign P t'.frame_ id (fetch_page id)) ≤ t'.capacity_
      have h2 := UMap.size_erase_of_mem t.frame_ v hinv.nodup hv
      have h3 := hinv.size_le
      rw [UMap.size_eq_length_keys, hperm.length_eq, List.length_cons,
        ← UMap.size_eq_length_keys, hfr, hcap]
      show UMap.size (UMap.erase t.frame_ v) + 1 ≤ t.capacity_
      omega
    · intro e he
      rcases UMap.mem_assign P _ _ _ e he with rfl | ⟨he, -⟩
      · rfl
      · rw [hfr] at he
        exact hinv.page_id e (UMap.mem_erase _ _ _ he).1
    · intro d
      exact (hfread d).trans (hinv.future_read d)
    · exact hmx.trans hinv.max_eq

end OptTable

/-! ## Sequences of `get` calls -/

namespace FifoTable

theorem fifo_get_impl_spec (P : Placement) (t : FifoTable) (id : page_id) (hinv : Inv t) :
    ∃ t2, get_impl P t id = some (fetch_page id, t2) ∧ Inv t2 ∧ t2.capacity_ = t.capacity_ := by
  by_cases h : resident t.frame_ id
  · exact ⟨t, fifo_get_impl_hit P t id hinv h, hinv, rfl⟩
  · obtain ⟨t2, h1, h2, h3, -⟩ := fifo_get_impl_miss P t id hinv h
    exact ⟨t2, h1, h2, h3⟩

theorem fifo_run_append (P : Placement) (a b : List page_id) :
    ∀ t, run P t (a ++ b) = (run P t a).bind (fun t1 => run P t1 b) := by
  induction a with
  | nil => intro t; rfl
  | cons x a ih =>
    intro t
    simp only [List.cons_append, run]
    cases get_impl P t x with
    | none => rfl
    | some r => exact ih r.2

theorem fifo_run_inv (P : Placement) (ids : List page_id) :
    ∀ t, Inv t → ∃ t2, run P t ids = some t2 ∧ Inv t2 ∧ t2.capacity_ = t.capacity_ := by
  induction ids with
  | nil => intro t h; exact ⟨t, rfl, h, rfl⟩
  | cons x ids ih =>
    intro t h
    obtain ⟨t1, h1, h2, h3⟩ := fifo_get_impl_spec P t x h
    obtain ⟨t2, h4, h5, h6⟩ := ih t1 h2
    exact ⟨t2, by simp only [run, h1, h4], h5, h6.trans h3⟩

theorem fifo_after_inv (P : Placement) (c : Nat) (hc : 0 < c) (ids : List page_id) :
    ∃ t, after P c ids = some t ∧ Inv t ∧ t.capacity_ = c := by
  obtain ⟨h1, h2⟩ := fifo_inv_new c hc
  obtain ⟨t, h3, h4, h5⟩ := fifo_run_inv P ids _ h2
  exact ⟨t, by simp only [after, h1, h3], h4, h5⟩

theorem fifo_run_single (P : Placement) (t : FifoTable) (id : page_id) :
    run P t [id] = (get_impl P t id).map Prod.snd := by
  simp only [run]
  cases get_impl P t id <;> rfl

theorem fifo_after_snoc (P : Placement) (c : Nat) (ids : List page_id) (id : page_id) :
    after P c (ids ++ [id]) =
      (after P c ids).bind (fun t => (get_impl P t id).map Prod.snd) := by
  unfold after
  cases new c with
  | none => rfl
  | some t0 => simp only [fifo_run_append, fifo_run_single]

end FifoTable

namespace LruTable

theorem lru_get_impl_spec (P : Placement) (t : LruTable) (id : page_id) (hinv : Inv t) :
    ∃ t2, get_impl P t id = some (fetch_page id, t2) ∧ Inv t2 ∧ t2.capacity_ = t.capacity_ := by
  by_cases h : resident t.frame_ id
  · obtain ⟨n, -, h1, h2, -⟩ := lru_get_impl_hit P t id hinv h
    exact ⟨_, h1, h2, rfl⟩
  · obtain ⟨t2, h1, h2, h3, -⟩ := lru_get_impl_miss P t id hinv h
    exact ⟨t2, h1, h2, h3⟩

theorem lru_run_append (P : Placement) (a b : List page_id) :
    ∀ t, run P t (a ++ b) = (run P t a).bind (fun t1 => run P t1 b) := by
  induction a with
  | nil => intro t; rfl
  | cons x a ih =>
    intro t
    simp only [List.cons_append, run]
    cases get_impl P t x with
    | none => rfl
    | some r => exact ih r.2

theorem lru_run_inv (P : Placement) (ids : List page_id) :
    ∀ t, Inv t → ∃ t2, run P t ids = some t2 ∧ Inv t2 ∧ t2.capacity_ = t.capacity_ := by
  induction ids with
  | nil => intro t h; exact ⟨t, rfl, h, rfl⟩
  | cons x ids ih =>
    intro t h
    obtain ⟨t1, h1, h2, h3⟩ := lru_get_impl_spec P t x h
    obtain ⟨t2, h4, h5, h6⟩ := ih t1 h2
    exact ⟨t2, by simp only [run, h1, h4], h5, h6.trans h3⟩

theorem lru_after_inv (P : Placement) (c : Nat) (hc : 0 < c) (ids : List page_id) :
    ∃ t, after P c ids = some t ∧ Inv t ∧ t.capacity_ = c := by
  obtain ⟨h1, h2⟩ := lru_inv_new c hc
  obtain ⟨t, h3, h4, h5⟩ := lru_run_inv P ids _ h2
  exact ⟨t, by simp only [after, h1, h3], h4, h5⟩

theorem lru_run_single (P : Placement) (t : LruTable) (id : page_id) :
    run P t [id] = (get_impl P t id).map Prod.snd := by
  simp only [run]
  cases get_impl P t id <;> rfl

theorem lru_after_snoc (P : Placement) (c : Nat) (ids : List page_id) (id : page_id) :
    after P c (ids ++ [id]) =
      (after P c ids).bind (fun t => (get_impl P t id).map Prod.snd) := by
  unfold after
  cases new c with
  | none => rfl
  | some t0 => simp only [lru_run_append, lru_run_single]

end LruTable

namespace OptTable

theorem opt_get_impl_spec (P : Placement) (ref_str : List Char) (t : OptTable) (id : page_id)
    (hinv : Inv ref_str t) (hreq : t.request_ < t.max_requests_) :
    ∃ t2, get_impl P t id = some (fetch_page id, t2) ∧ Inv ref_str t2 ∧
      t2.capacity_ = t.capacity_ ∧ t2.request_ = t.request_ + 1 ∧
      t2.max_requests_ = t.max_requests_ := by
  by_cases h : resident t.frame_ id
  · obtain ⟨h1, h2⟩ := opt_get_impl_hit P ref_str t id hinv hreq h
    exact ⟨_, h1, h2, rfl, rfl, rfl⟩
  · obtain ⟨t2, h1, h2, h3, -, h4, h5, -⟩ := opt_get_impl_miss P ref_str t id hinv hreq h
    exact ⟨t2, h1, h2, h3, h4, h5⟩

theorem opt_run_append (P : Placement) (a b : List page_id) :
    ∀ t, run P t (a ++ b) = (run P t a).bind (fun t1 => run P t1 b) := by
  induction a with
  | nil => intro t; rfl
  | cons x a ih =>
    intro t
    simp only [List.cons_append, run]
    cases get_impl P t x with
    | none => rfl
    | some r => exact ih r.2

theorem opt_run_inv (P : Placement) (ref_str : List Char) (ids : List page_id) :
    ∀ t, Inv ref_str t → t.request_ + ids.length ≤ t.max_requests_ →
      ∃ t2, run P t ids = some t2 ∧ Inv ref_str t2 ∧ t2.capacity_ = t.capacity_ ∧
        t2.request_ = t.request_ + ids.length ∧ t2.max_requests_ = t.max_requests_ := by
  induction ids with
  | nil => intro t h _; exact ⟨t, rfl, h, rfl, rfl, rfl⟩
  | cons x ids ih =>
    intro t h hlen
    simp only [List.length_cons] at hlen
    obtain ⟨t1, h1, h2, h3, h3', h3''⟩ := opt_get_impl_spec P ref_str t x h (by omega)
    obtain ⟨t2, h4, h5, h6, h7, h8⟩ := ih t1 h2 (by omega)
    refine ⟨t2, by simp only [run, h1, h4], h5, h6.trans h3, ?_, h8.trans h3''⟩
    simp only [List.length_cons]
    omega

theorem opt_after_inv (P : Placement) (c : Nat) (hc : 0 < c) (ref_str : List Char)
    (ids : List page_id) (hlen : ids.length ≤ ref_str.length) :
    ∃ t, after P c ref_str ids = some t ∧ Inv ref_str t ∧ t.capacity_ = c ∧
      t.request_ = ids.length ∧ t.max_requests_ = ref_str.length := by
  obtain ⟨t, h3, h4, h5, h6, h7⟩ :=
    opt_run_inv P ref_str ids _ (opt_inv_new P c ref_str hc) (by simpa [new] using hlen)
  exact ⟨t, h3, h4, h5, by simpa [new] using h6, h7⟩

theorem opt_run_single (P : Placement) (t : OptTable) (id : page_id) :
    run P t [id] = (get_impl P t id).map Prod.snd := by
  simp only [run]
  cases get_impl P t id <;> rfl

theorem opt_after_snoc (P : Placement) (c : Nat) (ref_str : List Char) (ids : List page_id)
    (id : page_id) :
    after P c ref_str (ids ++ [id]) =
      (after P c ref_str ids).bind (fun t => (get_impl P t id).map Prod.snd) := by
  unfold after
  simp only [opt_run_append, opt_run_single]

end OptTable

/-! ## Contract of `get`: fault count, residency, capacity -/

theorem FifoTable.fifo_get_impl_facts (P : Placement) (t : FifoTable) (id : page_id) (hinv : Inv t) :
    ∃ t2, get_impl P t id = some (fetch_page id, t2) ∧
      t2.faults_ = t.faults_ + (if resident t.frame_ id then 0 else 1) ∧
      resident t2.frame_ id := by
  by_cases h : resident t.frame_ id
  · exact ⟨t, fifo_get_impl_hit P t id hinv h, by simp [h], h⟩
  · obtain ⟨t2, h1, -, -, h4, h5⟩ := fifo_get_impl_miss P t id hinv h
    refine ⟨t2, h1, by simp [h, h4], ?_⟩
    rcases h5 with ⟨-, -, hp⟩ | ⟨-, v, rest, -, -, hp⟩
    · exact hp.mem_iff.2 (List.mem_cons_self _ _)
    · exact hp.mem_iff.2 (List.mem_cons_self _ _)

theorem LruTable.lru_get_impl_facts (P : Placement) (t : LruTable) (id : page_id) (hinv : Inv t) :
    ∃ t2, get_impl P t id = some (fetch_page id, t2) ∧
      t2.faults_ = t.faults_ + (if resident t.frame_ id then 0 else 1) ∧
      resident t2.frame_ id := by
  by_cases h : resident t.frame_ id
  · obtain ⟨n, -, h1, -, -⟩ := lru_get_impl_hit P t id hinv h
    exact ⟨_, h1, by simp [h], h⟩
  · obtain ⟨t2, h1, -, -, h4, h5⟩ := lru_get_impl_miss P t id hinv h
    refine ⟨t2, h1, by simp [h, h4], ?_⟩
    rcases h5 with ⟨-, -, hp⟩ | ⟨-, v, rest, -, -, hp⟩
    · exact hp.mem_iff.2 (List.mem_cons_self _ _)
    · exact hp.mem_iff.2 (List.mem_cons_self _ _)

theorem OptTable.opt_get_impl_facts (P : Placement) (ref_str : List Char) (t : OptTable)
    (id : page_id) (hinv : Inv ref_str t) (hreq : t.request_ < t.max_requests_) :
    ∃ t2, get_impl P t id = some (fetch_page id, t2) ∧
      t2.faults_ = t.faults_ + (if resident t.frame_ id then 0 else 1) ∧
      resident t2.frame_ id := by
  by_cases h : resident t.frame_ id
  · obtain ⟨h1, -⟩ := opt_get_impl_hit P ref_str t id hinv hreq h
    exact ⟨_, h1, by simp [h], h⟩
  · obtain ⟨t2, h1, -, -, h4, -, -, h5⟩ := opt_get_impl_miss P ref_str t id hinv hreq h
    refine ⟨t2, h1, by simp [h, h4], ?_⟩
    rcases h5 with ⟨-, hp⟩ | ⟨-, v, -, -, hp⟩
    · exact hp.mem_iff.2 (List.mem_cons_self _ _)
    · exact hp.mem_iff.2 (List.mem_cons_self _ _)

/-- C1: for each of the three tables with positive capacity (for OPT, within
the declared sequence length), after any sequence of `get` calls a further
`get(id)` returns and changes `faults()` by exactly 1 when `id` was not
resident and by exactly 0 when it was; so `faults()` never decreases and
grows by at most 1 per call. -/
theorem C1_faults_change (P : Placement) (c : Nat) (hc : 0 < c) (ids : List page_id)
    (id : page_id) :
    (∃ t r, FifoTable.after P c ids = some t ∧ FifoTable.get_impl P t id = some r ∧
      r.2.faults_impl = t.faults_impl + (if resident t.frame_ id then 0 else 1) ∧
      t.faults_impl ≤ r.2.faults_impl ∧ r.2.faults_impl ≤ t.faults_impl + 1) ∧
    (∃ t r, LruTable.after P c ids = some t ∧ LruTable.get_impl P t id = some r ∧
      r.2.faults_impl = t.faults_impl + (if resident t.frame_ id then 0 else 1) ∧
      t.faults_impl ≤ r.2.faults_impl ∧ r.2.faults_impl ≤ t.faults_impl + 1) ∧
    (∀ ref_str : List Char, ids.length < ref_str.length →
      ∃ t r, OptTable.after P c ref_str ids = some t ∧ OptTable.get_impl P t id = some r ∧
        r.2.faults_impl = t.faults_impl + (if resident t.frame_ id then 0 else 1) ∧
        t.faults_impl ≤ r.2.faults_impl ∧ r.2.faults_impl ≤ t.faults_impl + 1) := by
  refine ⟨?_, ?_, ?_⟩
  · obtain ⟨t, h1, h2, -⟩ := FifoTable.fifo_after_inv P c hc ids
    obtain ⟨t2, h3, h4, -⟩ := FifoTable.fifo_get_impl_facts P t id h2
    refine ⟨t, _, h1, h3, h4, ?_, ?_⟩
    · show t.faults_ ≤ t2.faults_
      rw [h4]; exact Nat.le_add_right _ _
    · show t2.faults_ ≤ t.faults_ + 1
      rw [h4]; split <;> omega
  · obtain ⟨t, h1, h2, -⟩ := LruTable.lru_after_inv P c hc ids
    obtain ⟨t2, h3, h4, -⟩ := LruTable.lru_get_impl_facts P t id h2
    refine ⟨t, _, h1, h3, h4, ?_, ?_⟩
    · show t.faults_ ≤ t2.faults_
      rw [h4]; exact Nat.le_add_right _ _
    · show t2.faults_ ≤ t.faults_ + 1
      rw [h4]; split <;> omega
  · intro ref_str hlen
    obtain ⟨t, h1, h2, -, h5, h6⟩ := OptTable.opt_after_inv P c hc ref_str ids (le_of_lt hlen)
    obtain ⟨t2, h3, h4, -⟩ := OptTable.opt_get_impl_facts P ref_str t id h2 (by omega)
    refine ⟨t, _, h1, h3, h4, ?_, ?_⟩
    · show t.faults_ ≤ t2.faults_
      rw [h4]; exact Nat.le_add_right _ _
    · show t2.faults_ ≤ t.faults_ + 1
      rw [h4]; split <;> omega

/-- Witness of C1: capacity 2, the calls 1, 2, 3 followed by `get(1)`; the
`OptTable` is built from "1231". -/
theorem C1_faults_change_witness :
    (∃ t r, FifoTable.after Placement.front 2 [1, 2, 3] = some t ∧
      FifoTable.get_impl Placement.front t 1 = some r ∧
      r.2.faults_impl = t.faults_impl + (if resident t.frame_ 1 then 0 else 1) ∧
      t.faults_impl ≤ r.2.faults_impl ∧ r.2.faults_impl ≤ t.faults_impl + 1) ∧
    (∃ t r, OptTable.after Placement.front 2 "1231".toList [1, 2, 3] = some t ∧
      OptTable.get_impl Placement.front t 1 = some r ∧
      r.2.faults_impl = t.faults_impl + (if resident t.frame_ 1 then 0 else 1) ∧
      t.faults_impl ≤ r.2.faults_impl ∧ r.2.faults_impl ≤ t.faults_impl + 1) :=
  ⟨(C1_faults_change Placement.front 2 (by decide) [1, 2, 3] 1).1,
   (C1_faults_change Placement.front 2 (by decide) [1, 2, 3] 1).2.2 "1231".toList (by decide)⟩

/-- C2: for each of the three tables with positive capacity, after any
sequence of `get` calls a further `get(id)` returns a page whose id is `id`,
leaves `id` resident, and any id it evicted differs from `id`. -/
theorem C2_get_resident (P : Placement) (c : Nat) (hc : 0 < c) (ids : List page_id)
    (id : page_id) :
    (∃ t r, FifoTable.after P c ids = some t ∧ FifoTable.get_impl P t id = some r ∧
      r.1.id = id ∧ resident r.2.frame_ id ∧
      ∀ v, resident t.frame_ v → ¬ resident r.2.frame_ v → v ≠ id) ∧
    (∃ t r, LruTable.after P c ids = some t ∧ LruTable.get_impl P t id = some r ∧
      r.1.id = id ∧ resident r.2.frame_ id ∧
      ∀ v, resident t.frame_ v → ¬ resident r.2.frame_ v → v ≠ id) ∧
    (∀ ref_str : List Char, ids.length < ref_str.length →
      ∃ t r, OptTable.after P c ref_str ids = some t ∧ OptTable.get_impl P t id = some r ∧
        r.1.id = id ∧ resident r.2.frame_ id ∧
        ∀ v, resident t.frame_ v → ¬ resident r.2.frame_ v → v ≠ id) := by
  refine ⟨?_, ?_, ?_⟩
  · obtain ⟨t, h1, h2, -⟩ := FifoTable.fifo_after_inv P c hc ids
    obtain ⟨t2, h3, -, h5⟩ := FifoTable.fifo_get_impl_facts P t id h2
    exact ⟨t, _, h1, h3, rfl, h5, fun v _ hv hvid => hv (hvid ▸ h5)⟩
  · obtain ⟨t, h1, h2, -⟩ := LruTable.lru_after_inv P c hc ids
    obtain ⟨t2, h3, -, h5⟩ := LruTable.lru_get_impl_facts P t id h2
    exact ⟨t, _, h1, h3, rfl, h5, fun v _ hv hvid => hv (hvid ▸ h5)⟩
  · intro ref_str hlen
    obtain ⟨t, h1, h2, -, h5, h6⟩ := OptTable.opt_after_inv P c hc ref_str ids (le_of_lt hlen)
    obtain ⟨t2, h3, -, h7⟩ := OptTable.opt_get_impl_facts P ref_str t id h2 (by omega)
    exact ⟨t, _, h1, h3, rfl, h7, fun v _ hv hvid => hv (hvid ▸ h7)⟩

/-- Witness of C2: capacity 2, the calls 1, 2 followed by `get(3)`, which
evicts; the `OptTable` is built from "1231". -/
theorem C2_get_resident_witness :
    (∃ t r, LruTable.after Placement.front 2 [1, 2] = some t ∧
      LruTable.get_impl Placement.front t 3 = some r ∧
      r.1.id = 3 ∧ resident r.2.frame_ 3 ∧
      ∀ v, resident t.frame_ v → ¬ resident r.2.frame_ v → v ≠ 3) ∧
    (∃ t r, OptTable.after Placement.front 2 "1231".toList [1, 2] = some t ∧
      OptTable.get_impl Placement.front t 3 = some r ∧
      r.1.id = 3 ∧ resident r.2.frame_ 3 ∧
      ∀ v, resident t.frame_ v → ¬ resident r.2.frame_ v → v ≠ 3) :=
  ⟨(C2_get_resident Placement.front 2 (by decide) [1, 2] 3).2.1,
   (C2_get_resident Placement.front 2 (by decide) [1, 2] 3).2.2 "1231".toList (by decide)⟩

/-- C3: for each of the three tables constructed with positive capacity and
starting empty, every sequence of `get` calls runs to completion and leaves
`size()` at most the capacity (for OPT, within the declared length). -/
theorem C3_size_le_capacity (P : Placement) (c : Nat) (hc : 0 < c) (ids : List page_id) :
    (∃ t, FifoTable.after P c ids = some t ∧ t.size_impl ≤ c) ∧
    (∃ t, LruTable.after P c ids = some t ∧ t.size_impl ≤ c) ∧
    (∀ ref_str : List Char, ids.length ≤ ref_str.length →
      ∃ t, OptTable.after P c ref_str ids = some t ∧ t.size_impl ≤ c) := by
  refine ⟨?_, ?_, ?_⟩
  · obtain ⟨t, h1, h2, h3⟩ := FifoTable.fifo_after_inv P c hc ids
    exact ⟨t, h1, h3 ▸ h2.size_le⟩
  · obtain ⟨t, h1, h2, h3⟩ := LruTable.lru_after_inv P c hc ids
    exact ⟨t, h1, h3 ▸ h2.size_le⟩
  · intro ref_str hlen
    obtain ⟨t, h1, h2, h3, -⟩ := OptTable.opt_after_inv P c hc ref_str ids hlen
    exact ⟨t, h1, h3 ▸ h2.size_le⟩

/-- Witness of C3: capacity 2 and the calls 1, 2, 3, 1; the `OptTable` is
built from "1231". -/
theorem C3_size_le_capacity_witness :
    (∃ t, FifoTable.after Placement.back 2 [1, 2, 3, 1] = some t ∧ t.size_impl ≤ 2) ∧
    (∃ t, LruTable.after Placement.back 2 [1, 2, 3, 1] = some t ∧ t.size_impl ≤ 2) ∧
    (∃ t, OptTable.after Placement.back 2 "1231".toList [1, 2, 3, 1] = some t ∧
      t.size_impl ≤ 2) :=
  ⟨(C3_size_le_capacity Placement.back 2 (by decide) [1, 2, 3, 1]).1,
   (C3_size_le_capacity Placement.back 2 (by decide) [1, 2, 3, 1]).2.1,
   (C3_size_le_capacity Placement.back 2 (by decide) [1, 2, 3, 1]).2.2 "1231".toList
     (by decide)⟩

theorem FifoTable.fifo_inv_of_after (P : Placement) (c : Nat) (hc : 0 < c) (ids : List page_id)
    (t : FifoTable) (h : after P c ids = some t) : Inv t ∧ t.capacity_ = c := by
  obtain ⟨t', h1, h2, h3⟩ := fifo_after_inv P c hc ids
  rw [h] at h1
  cases h1
  exact ⟨h2, h3⟩

theorem LruTable.lru_inv_of_after (P : Placement) (c : Nat) (hc : 0 < c) (ids : List page_id)
    (t : LruTable) (h : after P c ids = some t) : Inv t ∧ t.capacity_ = c := by
  obtain ⟨t', h1, h2, h3⟩ := lru_after_inv P c hc ids
  rw [h] at h1
  cases h1
  exact ⟨h2, h3⟩

theorem OptTable.opt_inv_of_after (P : Placement) (c : Nat) (hc : 0 < c) (ref_str : List Char)
    (ids : List page_id) (hlen : ids.length ≤ ref_str.length)
    (t : OptTable) (h : after P c ref_str ids = some t) :
    Inv ref_str t ∧ t.capacity_ = c ∧ t.request_ = ids.length ∧
      t.max_requests_ = ref_str.length := by
  obtain ⟨t', h1, h2, h3⟩ := opt_after_inv P c hc ref_str ids hlen
  rw [h] at h1
  cases h1
  exact ⟨h2, h3⟩

/-- C4: when `id` is resident before `get(id)`, the call is not a fault and
leaves `size()` and the set of resident ids unchanged; a `FifoTable` keeps its
queue as well, and an `OptTable` changes only by its cursor advancing by 1. -/
theorem C4_hit_frame (P : Placement) (c : Nat) (hc : 0 < c) (ids : List page_id)
    (id : page_id) :
    (∀ t, FifoTable.after P c ids = some t → resident t.frame_ id →
      ∃ r, FifoTable.get_impl P t id = some r ∧ r.2.faults_impl = t.faults_impl ∧
        r.2.size_impl = t.size_impl ∧ (∀ k, resident r.2.frame_ k ↔ resident t.frame_ k) ∧
        r.2.queue_ = t.queue_) ∧
    (∀ t, LruTable.after P c ids = some t → resident t.frame_ id →
      ∃ r, LruTable.get_impl P t id = some r ∧ r.2.faults_impl = t.faults_impl ∧
        r.2.size_impl = t.size_impl ∧ (∀ k, resident r.2.frame_ k ↔ resident t.frame_ k)) ∧
    (∀ ref_str : List Char, ids.length < ref_str.length →
      ∀ t, OptTable.after P c ref_str ids = some t → resident t.frame_ id →
      ∃ r, OptTable.get_impl P t id = some r ∧ r.2.faults_impl = t.faults_impl ∧
        r.2.size_impl = t.size_impl ∧ (∀ k, resident r.2.frame_ k ↔ resident t.frame_ k) ∧
        r.2 = { t with request_ := t.request_ + 1 }) := by
  refine ⟨?_, ?_, ?_⟩
  · intro t ht hres
    have hinv := (FifoTable.fifo_inv_of_after P c hc ids t ht).1
    exact ⟨_, FifoTable.fifo_get_impl_hit P t id hinv hres, rfl, rfl, fun _ => Iff.rfl, rfl⟩
  · intro t ht hres
    have hinv := (LruTable.lru_inv_of_after P c hc ids t ht).1
    obtain ⟨n, -, h1, -, -⟩ := LruTable.lru_get_impl_hit P t id hinv hres
    exact ⟨_, h1, rfl, rfl, fun _ => Iff.rfl⟩
  · intro ref_str hlen t ht hres
    obtain ⟨hinv, -, hr, hm⟩ := OptTable.opt_inv_of_after P c hc ref_str ids (le_of_lt hlen) t ht
    obtain ⟨h1, -⟩ := OptTable.opt_get_impl_hit P ref_str t id hinv (by omega) hres
    exact ⟨_, h1, rfl, rfl, fun _ => Iff.rfl, rfl⟩

/-- Witness of C4: capacity 2, the calls 1, 2 followed by `get(1)`, a hit. -/
theorem C4_hit_frame_witness :
    (∃ r, FifoTable.get_impl Placement.front ⟨2, 2, [1, 2], [(2, ⟨2⟩), (1, ⟨1⟩)]⟩ 1 = some r ∧
      r.2.faults_impl = 2 ∧ r.2.size_impl = 2 ∧
      (∀ k, resident r.2.frame_ k ↔ resident [(2, (⟨2⟩ : Page)), (1, ⟨1⟩)] k) ∧
      r.2.queue_ = [1, 2]) ∧
    (∃ r, OptTable.get_impl Placement.front
        ⟨2, 2, 4, 2, [(3, [2]), (2, [1]), (1, [0, 3])], [(2, ⟨2⟩), (1, ⟨1⟩)]⟩ 1 = some r ∧
      r.2.faults_impl = 2 ∧ r.2.size_impl = 2 ∧
      (∀ k, resident r.2.frame_ k ↔ resident [(2, (⟨2⟩ : Page)), (1, ⟨1⟩)] k) ∧
      r.2 = ⟨2, 2, 4, 3, [(3, [2]), (2, [1]), (1, [0, 3])], [(2, ⟨2⟩), (1, ⟨1⟩)]⟩) :=
  ⟨(C4_hit_frame Placement.front 2 (by decide) [1, 2] 1).1
      ⟨2, 2, [1, 2], [(2, ⟨2⟩), (1, ⟨1⟩)]⟩ (by decide) (by decide),
   (C4_hit_frame Placement.front 2 (by decide) [1, 2] 1).2.2 "1231".toList (by decide)
      ⟨2, 2, 4, 2, [(3, [2]), (2, [1]), (1, [0, 3])], [(2, ⟨2⟩), (1, ⟨1⟩)]⟩ (by decide)
      (by decide)⟩

/-! ## FIFO eviction order -/

namespace FifoTable

theorem fifo_mem_queue_iff (t : FifoTable) (hinv : Inv t) (k : page_id) :
    k ∈ t.queue_ ↔ resident t.frame_ k :=
  hinv.queue_perm.mem_iff

theorem fifo_length_queue (t : FifoTable) (hinv : Inv t) :
    t.queue_.length = UMap.size t.frame_ := by
  rw [UMap.size_eq_length_keys]; exact hinv.queue_perm.length_eq

theorem fifo_full_iff (t : FifoTable) (hinv : Inv t) :
    t.full_impl = true ↔ t.capacity_ ≤ t.queue_.length := by
  rw [fifo_length_queue t hinv]
  simp [full_impl, size_impl]

/-- One call of `get` acts on the queue by the FIFO rule. -/
theorem fifo_step_queue (P : Placement) (t : FifoTable) (id : page_id) (hinv : Inv t) :
    ∃ t2, get_impl P t id = some (fetch_page id, t2) ∧ Inv t2 ∧ t2.capacity_ = t.capacity_ ∧
      t2.queue_ = fifo_touch t.capacity_ t.queue_ id := by
  by_cases h : resident t.frame_ id
  · refine ⟨t, fifo_get_impl_hit P t id hinv h, hinv, rfl, ?_⟩
    rw [fifo_touch, if_pos ((fifo_mem_queue_iff t hinv id).2 h)]
  · have hq : id ∉ t.queue_ := fun hh => h ((fifo_mem_queue_iff t hinv id).1 hh)
    obtain ⟨t2, h1, h2, h3, -, h5⟩ := fifo_get_impl_miss P t id hinv h
    refine ⟨t2, h1, h2, h3, ?_⟩
    rw [fifo_touch, if_neg hq]
    rcases h5 with ⟨hf, hq2, -⟩ | ⟨hf, v, rest, hq1, hq2, -⟩
    · have : ¬ t.capacity_ ≤ t.queue_.length := by
        rw [← fifo_full_iff t hinv, hf]; simp
      rw [if_neg this, hq2]
    · have : t.capacity_ ≤ t.queue_.length := (fifo_full_iff t hinv).1 hf
      rw [if_pos this, hq2, hq1]
      rfl

theorem fifo_queue_after (P : Placement) (c : Nat) (hc : 0 < c) (ids : List page_id) :
    ∃ t, after P c ids = some t ∧ Inv t ∧ t.capacity_ = c ∧
      t.queue_ = ids.foldl (fifo_touch c) [] := by
  induction ids using List.reverseRecOn with
  | nil =>
    obtain ⟨h1, h2⟩ := fifo_inv_new c hc
    exact ⟨_, by simp only [after, h1, run], h2, rfl, rfl⟩
  | append_singleton ids id ih =>
    obtain ⟨t, h1, h2, h3, h4⟩ := ih
    obtain ⟨t2, h5, h6, h7, h8⟩ := fifo_step_queue P t id h2
    refine ⟨t2, ?_, h6, h7.trans h3, ?_⟩
    · rw [fifo_after_snoc, h1]
      show (get_impl P t id).map Prod.snd = some t2
      rw [h5]
      rfl
    · rw [h8, h3, h4, List.foldl_append]
      rfl

end FifoTable

namespace FifoTable

theorem fifo_is_miss_snoc_lt (P : Placement) (c : Nat) (ids : List page_id) (id : page_id)
    (k : Nat) (hk : k < ids.length) : is_miss P c (ids ++ [id]) k = is_miss P c ids k := by
  unfold is_miss
  rw [List.take_append_of_le_length (le_of_lt hk), List.getElem?_append_left hk]

theorem fifo_is_miss_snoc_last (P : Placement) (c : Nat) (ids : List page_id) (id : page_id)
    (t : FifoTable) (h : after P c ids = some t) :
    is_miss P c (ids ++ [id]) ids.length = decide (¬ resident t.frame_ id) := by
  unfold is_miss
  rw [List.take_left' rfl, h]
  simp

theorem fifo_insert_time_snoc (P : Placement) (c : Nat) (ids : List page_id) (id w : page_id) :
    insert_time P c (ids ++ [id]) w =
      if id = w ∧ is_miss P c (ids ++ [id]) ids.length = true then some ids.length
      else insert_time P c ids w := by
  unfold insert_time
  rw [List.length_append, List.length_singleton, List.range_succ, List.filter_append]
  have hcongr : (List.range ids.length).filter
      (fun k => decide ((ids ++ [id])[k]? = some w) && is_miss P c (ids ++ [id]) k) =
      (List.range ids.length).filter
      (fun k => decide (ids[k]? = some w) && is_miss P c ids k) := by
    apply List.filter_congr
    intro k hk
    have hk' : k < ids.length := List.mem_range.1 hk
    rw [fifo_is_miss_snoc_lt P c ids id k hk', List.getElem?_append_left hk']
  rw [hcongr]
  have hlast : (ids ++ [id])[ids.length]? = some id := by simp
  by_cases hc : id = w ∧ is_miss P c (ids ++ [id]) ids.length = true
  · rw [if_pos hc, List.filter_cons_of_pos (by
      rw [hlast, hc.2, hc.1]
      simp)]
    simp
  · rw [if_neg hc, List.filter_cons_of_neg (by
      rw [hlast]
      intro hh
      simp only [Bool.and_eq_true, decide_eq_true_eq, Option.some.injEq] at hh
      exact hc hh)]
    simp

theorem fifo_insert_time_lt (P : Placement) (c : Nat) (ids : List page_id) (w : page_id)
    (k : Nat) (h : insert_time P c ids w = some k) : k < ids.length := by
  unfold insert_time at h
  have := List.mem_of_getLast?_eq_some h
  exact List.mem_range.1 (List.mem_filter.1 this).1

end FifoTable

namespace FifoTable

theorem fifo_eq_of_after_snoc (P : Placement) (c : Nat) (ids : List page_id) (id : page_id)
    (t t2 t3 : FifoTable) (pg : Page) (h1 : after P c ids = some t)
    (h2 : get_impl P t id = some (pg, t2)) (h3 : after P c (ids ++ [id]) = some t3) :
    t3 = t2 := by
  rw [fifo_after_snoc, h1] at h3
  change (get_impl P t id).map Prod.snd = some t3 at h3
  rw [h2] at h3
  exact (Option.some.inj h3).symm

/-- The queue lists the resident ids by increasing time of last insertion. -/
theorem fifo_queue_times (P : Placement) (c : Nat) (hc : 0 < c) (ids : List page_id) :
    ∀ t, after P c ids = some t →
      (∀ w ∈ t.queue_, ∃ k, insert_time P c ids w = some k) ∧
      t.queue_.Pairwise (inserted_before P c ids) := by
  induction ids using List.reverseRecOn with
  | nil =>
    intro t ht
    obtain ⟨t', h1, -, -, h4⟩ := fifo_queue_after P c hc []
    rw [ht] at h1
    cases h1
    rw [h4]
    simp
  | append_singleton ids id ih =>
    intro t3 ht3
    obtain ⟨t, h1, hinv, hcap⟩ := fifo_after_inv P c hc ids
    obtain ⟨ih1, ih2⟩ := ih t h1
    have hlast := fifo_is_miss_snoc_last P c ids id t h1
    by_cases hres : resident t.frame_ id
    · have heq := fifo_eq_of_after_snoc P c ids id t t t3 _ h1
        (fifo_get_impl_hit P t id hinv hres) ht3
      subst heq
      have htime : ∀ w, insert_time P c (ids ++ [id]) w = insert_time P c ids w := by
        intro w
        rw [fifo_insert_time_snoc, hlast, if_neg]
        simp [hres]
      refine ⟨fun w hw => by rw [htime]; exact ih1 w hw, ?_⟩
      refine ih2.imp ?_
      rintro a b ⟨ka, kb, h5, h6, h7⟩
      exact ⟨ka, kb, by rw [htime]; exact h5, by rw [htime]; exact h6, h7⟩
    · obtain ⟨t2, h5, -, -, -, h9⟩ := fifo_get_impl_miss P t id hinv hres
      have heq := fifo_eq_of_after_snoc P c ids id t t2 t3 _ h1 h5 ht3
      subst heq
      have hq : id ∉ t.queue_ := fun hh => hres ((fifo_mem_queue_iff t hinv id).1 hh)
      have hmiss : is_miss P c (ids ++ [id]) ids.length = true := by
        rw [hlast]; simp [hres]
      have htime_id : insert_time P c (ids ++ [id]) id = some ids.length := by
        rw [fifo_insert_time_snoc, if_pos ⟨rfl, hmiss⟩]
      have htime : ∀ w, w ≠ id → insert_time P c (ids ++ [id]) w = insert_time P c ids w := by
        intro w hw
        rw [fifo_insert_time_snoc, if_neg]
        exact fun hh => hw hh.1.symm
      have key : ∀ base : List page_id, base.Sublist t.queue_ →
          (∀ w ∈ base ++ [id], ∃ k, insert_time P c (ids ++ [id]) w = some k) ∧
          (base ++ [id]).Pairwise (inserted_before P c (ids ++ [id])) := by
        intro base hsub
        have hne : ∀ w ∈ base, w ≠ id := fun w hw hwid => hq (hwid ▸ hsub.subset hw)
        refine ⟨?_, ?_⟩
        · intro w hw
          rcases List.mem_append.1 hw with hw | hw
          · rw [htime w (hne w hw)]; exact ih1 w (hsub.subset hw)
          · rw [List.mem_singleton] at hw
            subst hw
            exact ⟨_, htime_id⟩
        · refine List.pairwise_append.2 ⟨?_, List.pairwise_singleton _ _, ?_⟩
          · refine (ih2.sublist hsub).imp_of_mem ?_
            rintro a b ha hb ⟨ka, kb, h5, h6, h7⟩
            exact ⟨ka, kb, by rw [htime a (hne a ha)]; exact h5,
              by rw [htime b (hne b hb)]; exact h6, h7⟩
          · intro a ha b hb
            rw [List.mem_singleton] at hb
            subst hb
            obtain ⟨ka, hka⟩ := ih1 a (hsub.subset ha)
            exact ⟨ka, ids.length, by rw [htime a (hne a ha)]; exact hka, htime_id,
              fifo_insert_time_lt P c ids a ka hka⟩
      rcases h9 with ⟨-, hq2, -⟩ | ⟨-, v, rest, hq1, hq2, -⟩
      · rw [hq2]
        exact key t.queue_ (List.Sublist.refl _)
      · rw [hq2]
        exact key rest (by rw [hq1]; exact List.sublist_cons_self _ _)

theorem fifo_foldl_nodup (c : Nat) (ids : List page_id) (hnd : ids.Nodup)
    (hlen : ids.length ≤ c) : ids.foldl (fifo_touch c) [] = ids := by
  induction ids using List.reverseRecOn with
  | nil => rfl
  | append_singleton ids x ih =>
    have hnd' := List.nodup_append.1 hnd
    have hx : x ∉ ids := fun hx => hnd'.2.2 hx (List.mem_singleton_self x)
    rw [List.length_append, List.length_singleton] at hlen
    rw [List.foldl_append, ih hnd'.1 (by omega)]
    simp only [List.foldl_cons, List.foldl_nil, fifo_touch, if_neg hx]
    rw [if_neg (by omega)]

theorem fifo_foldl_overflow (c : Nat) (hc : 0 < c) (ids : List page_id) (hnd : ids.Nodup)
    (hlen : ids.length = c + 1) : ids.foldl (fifo_touch c) [] = ids.tail := by
  rcases List.eq_nil_or_concat ids with h | ⟨init, x, h⟩
  · rw [h] at hlen; simp at hlen
  · rw [List.concat_eq_append] at h
    subst h
    have hnd' := List.nodup_append.1 hnd
    have hx : x ∉ init := fun hx => hnd'.2.2 hx (List.mem_singleton_self x)
    rw [List.length_append, List.length_singleton] at hlen
    rw [List.foldl_append, fifo_foldl_nodup c init hnd'.1 (by omega)]
    simp only [List.foldl_cons, List.foldl_nil, fifo_touch, if_neg hx]
    rw [if_pos (by omega)]
    cases init with
    | nil => simp at hlen; omega
    | cons a init => rfl

end FifoTable

/-- C5: in a `FifoTable` of positive capacity, a `get` that misses while the
table is full evicts exactly one id, the resident id whose last insertion is
the earliest, whatever hits it received since; and after `c + 1` pairwise
distinct ids the first of them is no longer resident, so accessing it again
is a fault. -/
theorem C5_fifo_evicts_oldest (P : Placement) (c : Nat) (hc : 0 < c) :
    (∀ (ids : List page_id) (id : page_id) (t : FifoTable),
      FifoTable.after P c ids = some t → t.full_impl = true → ¬ resident t.frame_ id →
      ∃ r v, FifoTable.get_impl P t id = some r ∧ resident t.frame_ v ∧
        ¬ resident r.2.frame_ v ∧
        ∀ w, resident t.frame_ w → w ≠ v →
          resident r.2.frame_ w ∧ FifoTable.inserted_before P c ids v w) ∧
    (∀ ids : List page_id, ids.Nodup → ids.length = c + 1 →
      ∃ t r first, ids.head? = some first ∧ FifoTable.after P c ids = some t ∧
        ¬ resident t.frame_ first ∧ FifoTable.get_impl P t first = some r ∧
        r.2.faults_impl = t.faults_impl + 1) := by
  refine ⟨?_, ?_⟩
  · intro ids id t ht hfull hres
    have hinv := (FifoTable.fifo_inv_of_after P c hc ids t ht).1
    obtain ⟨-, hpw⟩ := FifoTable.fifo_queue_times P c hc ids t ht
    obtain ⟨t2, h1, -, -, -, h5⟩ := FifoTable.fifo_get_impl_miss P t id hinv hres
    rcases h5 with ⟨hf, -, -⟩ | ⟨-, v, rest, hq1, -, hperm⟩
    · rw [hfull] at hf; cases hf
    · have hv : resident t.frame_ v :=
        (FifoTable.fifo_mem_queue_iff t hinv v).1 (by rw [hq1]; exact List.mem_cons_self _ _)
      refine ⟨_, v, h1, hv, ?_, ?_⟩
      · intro hv2
        rcases List.mem_cons.1 (hperm.mem_iff.1 hv2) with h | h
        · exact hres (h ▸ hv)
        · simp at h
      · intro w hw hwv
        refine ⟨hperm.mem_iff.2 (List.mem_cons_of_mem _ ?_), ?_⟩
        · exact List.mem_filter.2 ⟨hw, by simpa using hwv⟩
        · have hwq : w ∈ t.queue_ := (FifoTable.fifo_mem_queue_iff t hinv w).2 hw
          rw [hq1] at hwq hpw
          rcases List.mem_cons.1 hwq with h | h
          · exact absurd h hwv
          · exact (List.pairwise_cons.1 hpw).1 w h
  · intro ids hnd hlen
    obtain ⟨t, h1, hinv, -, hq⟩ := FifoTable.fifo_queue_after P c hc ids
    rw [FifoTable.fifo_foldl_overflow c hc ids hnd hlen] at hq
    cases ids with
    | nil => simp at hlen
    | cons first rest =>
      have hnot : ¬ resident t.frame_ first := by
        intro hh
        have := (FifoTable.fifo_mem_queue_iff t hinv first).2 hh
        rw [hq] at this
        exact (List.nodup_cons.1 hnd).1 this
      obtain ⟨t2, h3, h4, -⟩ := FifoTable.fifo_get_impl_facts P t first hinv
      refine ⟨t, _, first, rfl, h1, hnot, h3, ?_⟩
      show t2.faults_ = t.faults_ + 1
      rw [h4, if_neg hnot]

/-- Witness of C5: capacity 2; after the calls 1, 2, 1 the call `get(3)`
evicts, and after 1, 2, 3 the id 1 is gone. -/
theorem C5_fifo_evicts_oldest_witness :
    (∃ r v, FifoTable.get_impl Placement.front ⟨2, 2, [1, 2], [(2, ⟨2⟩), (1, ⟨1⟩)]⟩ 3 = some r ∧
      resident [(2, (⟨2⟩ : Page)), (1, ⟨1⟩)] v ∧ ¬ resident r.2.frame_ v ∧
      ∀ w, resident [(2, (⟨2⟩ : Page)), (1, ⟨1⟩)] w → w ≠ v →
        resident r.2.frame_ w ∧ FifoTable.inserted_before Placement.front 2 [1, 2, 1] v w) ∧
    (∃ t r first, [(1 : page_id), 2, 3].head? = some first ∧
      FifoTable.after Placement.front 2 [1, 2, 3] = some t ∧
      ¬ resident t.frame_ first ∧ FifoTable.get_impl Placement.front t first = some r ∧
      r.2.faults_impl = t.faults_impl + 1) :=
  ⟨(C5_fifo_evicts_oldest Placement.front 2 (by decide)).1 [1, 2, 1] 3
      ⟨2, 2, [1, 2], [(2, ⟨2⟩), (1, ⟨1⟩)]⟩ (by decide) (by decide) (by decide),
   (C5_fifo_evicts_oldest Placement.front 2 (by decide)).2 [1, 2, 3] (by decide) (by decide)⟩

/-! ## LRU eviction order -/

theorem last_access_snoc (ids : List page_id) (id w : page_id) :
    last_access (ids ++ [id]) w = if id = w then some ids.length else last_access ids w := by
  unfold last_access
  rw [List.length_append, List.length_singleton, List.range_succ, List.filter_append]
  have hcongr : (List.range ids.length).filter
      (fun k => decide ((ids ++ [id])[k]? = some w)) =
      (List.range ids.length).filter (fun k => decide (ids[k]? = some w)) := by
    apply List.filter_congr
    intro k hk
    have hk' : k < ids.length := List.mem_range.1 hk
    rw [List.getElem?_append_left hk']
  rw [hcongr]
  have hlast : (ids ++ [id])[ids.length]? = some id := by simp
  by_cases hc : id = w
  · rw [if_pos hc, List.filter_cons_of_pos (by rw [hlast, hc]; simp)]
    simp
  · rw [if_neg hc, List.filter_cons_of_neg (by rw [hlast]; simpa using hc)]
    simp

theorem last_access_lt (ids : List page_id) (w : page_id) (k : Nat)
    (h : last_access ids w = some k) : k < ids.length := by
  unfold last_access at h
  have := List.mem_of_getLast?_eq_some h
  exact List.mem_range.1 (List.mem_filter.1 this).1

/-- The recency order produced by the LRU rule lists ids by increasing time
of last access. -/
theorem lru_order_times (c : Nat) (ids : List page_id) :
    (∀ w ∈ ids.foldl (lru_touch c) [], ∃ k, last_access ids w = some k) ∧
    (ids.foldl (lru_touch c) []).Pairwise (accessed_before ids) := by
  induction ids using List.reverseRecOn with
  | nil => simp
  | append_singleton ids id ih =>
    obtain ⟨ih1, ih2⟩ := ih
    rw [List.foldl_append]
    simp only [List.foldl_cons, List.foldl_nil]
    generalize ids.foldl (lru_touch c) [] = L at ih1 ih2
    have htime_id : last_access (ids ++ [id]) id = some ids.length := by
      rw [last_access_snoc, if_pos rfl]
    have htime : ∀ w, w ≠ id → last_access (ids ++ [id]) w = last_access ids w := by
      intro w hw
      rw [last_access_snoc, if_neg (fun hh => hw hh.symm)]
    have key : ∀ base : List page_id, base.Sublist L → id ∉ base →
        (∀ w ∈ base ++ [id], ∃ k, last_access (ids ++ [id]) w = some k) ∧
        (base ++ [id]).Pairwise (accessed_before (ids ++ [id])) := by
      intro base hsub hq
      have hne : ∀ w ∈ base, w ≠ id := fun w hw hwid => hq (hwid ▸ hw)
      refine ⟨?_, ?_⟩
      · intro w hw
        rcases List.mem_append.1 hw with hw | hw
        · rw [htime w (hne w hw)]; exact ih1 w (hsub.subset hw)
        · rw [List.mem_singleton] at hw
          subst hw
          exact ⟨_, htime_id⟩
      · refine List.pairwise_append.2 ⟨?_, List.pairwise_singleton _ _, ?_⟩
        · refine (ih2.sublist hsub).imp_of_mem ?_
          rintro a b ha hb ⟨ka, kb, h5, h6, h7⟩
          exact ⟨ka, kb, by rw [htime a (hne a ha)]; exact h5,
            by rw [htime b (hne b hb)]; exact h6, h7⟩
        · intro a ha b hb
          rw [List.mem_singleton] at hb
          subst hb
          obtain ⟨ka, hka⟩ := ih1 a (hsub.subset ha)
          exact ⟨ka, ids.length, by rw [htime a (hne a ha)]; exact hka, htime_id,
            last_access_lt ids a ka hka⟩
    unfold lru_touch
    by_cases hmem : id ∈ L
    · rw [if_pos hmem]
      exact key _ (List.filter_sublist _) (by simp)
    · rw [if_neg hmem]
      by_cases hfull : c ≤ L.length
      · rw [if_pos hfull]
        exact key _ (List.tail_sublist L) (fun hh => hmem (List.mem_of_mem_tail hh))
      · rw [if_neg hfull]
        exact key _ (List.Sublist.refl _) hmem

namespace LruTable

theorem lru_mem_ids_iff (t : LruTable) (hwf : WF t) (k : page_id) :
    k ∈ t.ids ↔ resident t.frame_ k :=
  (ids_perm t hwf).mem_iff

theorem lru_full_iff (t : LruTable) (hwf : WF t) :
    t.full_impl = true ↔ t.capacity_ ≤ t.ids.length := by
  rw [(ids_perm t hwf).length_eq, ← UMap.size_eq_length_keys]
  simp [full_impl, size_impl]

/-- One call of `get` acts on the recency order by the LRU rule. -/
theorem lru_step_ids (P : Placement) (t : LruTable) (id : page_id) (hinv : Inv t) :
    ∃ t2, get_impl P t id = some (fetch_page id, t2) ∧ Inv t2 ∧ t2.capacity_ = t.capacity_ ∧
      t2.ids = lru_touch t.capacity_ t.ids id := by
  by_cases h : resident t.frame_ id
  · obtain ⟨n, -, h1, h2, h3⟩ := lru_get_impl_hit P t id hinv h
    refine ⟨_, h1, h2, rfl, ?_⟩
    rw [h3, lru_touch, if_pos ((lru_mem_ids_iff t hinv.wf id).2 h)]
  · have hq : id ∉ t.ids := fun hh => h ((lru_mem_ids_iff t hinv.wf id).1 hh)
    obtain ⟨t2, h1, h2, h3, -, h5⟩ := lru_get_impl_miss P t id hinv h
    refine ⟨t2, h1, h2, h3, ?_⟩
    rw [lru_touch, if_neg hq]
    rcases h5 with ⟨hf, hq2, -⟩ | ⟨hf, v, rest, hq1, hq2, -⟩
    · have : ¬ t.capacity_ ≤ t.ids.length := by
        rw [← lru_full_iff t hinv.wf, hf]; simp
      rw [if_neg this, hq2]
    · have : t.capacity_ ≤ t.ids.length := (lru_full_iff t hinv.wf).1 hf
      rw [if_pos this, hq2, hq1]
      rfl

theorem lru_ids_after (P : Placement) (c : Nat) (hc : 0 < c) (ids : List page_id) :
    ∃ t, after P c ids = some t ∧ Inv t ∧ t.capacity_ = c ∧
      t.ids = ids.foldl (lru_touch c) [] := by
  induction ids using List.reverseRecOn with
  | nil =>
    obtain ⟨h1, h2⟩ := lru_inv_new c hc
    exact ⟨_, by simp only [after, h1, run], h2, rfl, rfl⟩
  | append_singleton ids id ih =>
    obtain ⟨t, h1, h2, h3, h4⟩ := ih
    obtain ⟨t2, h5, h6, h7, h8⟩ := lru_step_ids P t id h2
    refine ⟨t2, ?_, h6, h7.trans h3, ?_⟩
    · rw [lru_after_snoc, h1]
      show (get_impl P t id).map Prod.snd = some t2
      rw [h5]
      rfl
    · rw [h8, h3, h4, List.foldl_append]
      rfl

end LruTable

/-- C6: in an `LruTable` of positive capacity, a `get` that misses while the
table is full evicts exactly one id, the resident id whose most recent access
is the oldest; with capacity 2, after A, B, A the call `get(C)` evicts B and
keeps A. -/
theorem C6_lru_evicts_least_recent (P : Placement) (c : Nat) (hc : 0 < c) :
    (∀ (ids : List page_id) (id : page_id) (t : LruTable),
      LruTable.after P c ids = some t → t.full_impl = true → ¬ resident t.frame_ id →
      ∃ r v, LruTable.get_impl P t id = some r ∧ resident t.frame_ v ∧
        ¬ resident r.2.frame_ v ∧
        ∀ w, resident t.frame_ w → w ≠ v →
          resident r.2.frame_ w ∧ accessed_before ids v w) ∧
    (∀ A B C : page_id, A ≠ B → C ≠ A → C ≠ B →
      ∃ t r, LruTable.after P 2 [A, B, A] = some t ∧ LruTable.get_impl P t C = some r ∧
        resident t.frame_ A ∧ resident t.frame_ B ∧ ¬ resident t.frame_ C ∧
        ¬ resident r.2.frame_ B ∧ resident r.2.frame_ A ∧ resident r.2.frame_ C) := by
  refine ⟨?_, ?_⟩
  · intro ids id t ht hfull hres
    have hinv := (LruTable.lru_inv_of_after P c hc ids t ht).1
    obtain ⟨t', ht', -, -, hids⟩ := LruTable.lru_ids_after P c hc ids
    rw [ht] at ht'
    cases ht'
    have hpw := (lru_order_times c ids).2
    rw [← hids] at hpw
    obtain ⟨t2, h1, -, -, -, h5⟩ := LruTable.lru_get_impl_miss P t id hinv hres
    rcases h5 with ⟨hf, -, -⟩ | ⟨-, v, rest, hq1, -, hperm⟩
    · rw [hfull] at hf; cases hf
    · have hv : resident t.frame_ v :=
        (LruTable.lru_mem_ids_iff t hinv.wf v).1 (by rw [hq1]; exact List.mem_cons_self _ _)
      refine ⟨_, v, h1, hv, ?_, ?_⟩
      · intro hv2
        rcases List.mem_cons.1 (hperm.mem_iff.1 hv2) with h | h
        · exact hres (h ▸ hv)
        · simp at h
      · intro w hw hwv
        refine ⟨hperm.mem_iff.2 (List.mem_cons_of_mem _ ?_), ?_⟩
        · exact List.mem_filter.2 ⟨hw, by simpa using hwv⟩
        · have hwq : w ∈ t.ids := (LruTable.lru_mem_ids_iff t hinv.wf w).2 hw
          rw [hq1] at hwq hpw
          rcases List.mem_cons.1 hwq with h | h
          · exact absurd h hwv
          · exact (List.pairwise_cons.1 hpw).1 w h
  · intro A B C hAB hCA hCB
    obtain ⟨t, h1, hinv, hcap, hids⟩ := LruTable.lru_ids_after P 2 (by decide) [A, B, A]
    have hids' : t.ids = [B, A] := by
      rw [hids]
      simp [lru_touch, hAB, hAB.symm]
    have hA : resident t.frame_ A := (LruTable.lru_mem_ids_iff t hinv.wf A).1 (by simp [hids'])
    have hB : resident t.frame_ B := (LruTable.lru_mem_ids_iff t hinv.wf B).1 (by simp [hids'])
    have hC : ¬ resident t.frame_ C := by
      intro hh
      have := (LruTable.lru_mem_ids_iff t hinv.wf C).2 hh
      rw [hids'] at this
      simp [hCA, hCB] at this
    obtain ⟨t2, h2, -, -, -, h5⟩ := LruTable.lru_get_impl_miss P t C hinv hC
    rcases h5 with ⟨hf, -, -⟩ | ⟨-, v, rest, hq1, -, hperm⟩
    · have := (LruTable.lru_full_iff t hinv.wf).2 (by rw [hcap, hids']; simp)
      rw [this] at hf; cases hf
    · rw [hids'] at hq1
      have hv : v = B := (List.cons.inj hq1).1.symm
      subst hv
      refine ⟨t, _, h1, h2, hA, hB, hC, ?_, ?_, ?_⟩
      · intro hh
        rcases List.mem_cons.1 (hperm.mem_iff.1 hh) with h | h
        · exact hCB h.symm
        · simp at h
      · exact hperm.mem_iff.2 (List.mem_cons_of_mem _
          (List.mem_filter.2 ⟨hA, by simpa using hAB⟩))
      · exact hperm.mem_iff.2 (List.mem_cons_self _ _)

/-- Witness of C6: capacity 2; after the calls 1, 2, 1 the call `get(3)`
evicts 2, and the same with A = 1, B = 2, C = 3. -/
theorem C6_lru_evicts_least_recent_witness :
    (∃ r v, LruTable.get_impl Placement.front
        ⟨2, 2, [(1, ⟨2⟩), (0, ⟨1⟩)], 2, [(2, some 1), (1, some 0)]⟩ 3 = some r ∧
      resident [(2, some 1), ((1 : page_id), (some 0 : iterator))] v ∧
      ¬ resident r.2.frame_ v ∧
      ∀ w, resident [(2, some 1), ((1 : page_id), (some 0 : iterator))] w → w ≠ v →
        resident r.2.frame_ w ∧ accessed_before [1, 2, 1] v w) ∧
    (∃ t r, LruTable.after Placement.front 2 [1, 2, 1] = some t ∧
      LruTable.get_impl Placement.front t 3 = some r ∧
      resident t.frame_ 1 ∧ resident t.frame_ 2 ∧ ¬ resident t.frame_ 3 ∧
      ¬ resident r.2.frame_ 2 ∧ resident r.2.frame_ 1 ∧ resident r.2.frame_ 3) :=
  ⟨(C6_lru_evicts_least_recent Placement.front 2 (by decide)).1 [1, 2, 1] 3
      ⟨2, 2, [(1, ⟨2⟩), (0, ⟨1⟩)], 2, [(2, some 1), (1, some 0)]⟩
      (by decide) (by decide) (by decide),
   (C6_lru_evicts_least_recent Placement.front 2 (by decide)).2 1 2 3
      (by decide) (by decide) (by decide)⟩

/-! ## OPT eviction: the victim is a farthest next occurrence -/

theorem find?_range_spec (f : Nat → Bool) (n : Nat) :
    match (List.range n).find? f with
    | none => ∀ j, j < n → f j = false
    | some q => q < n ∧ f q = true ∧ ∀ j, j < q → f j = false := by
  induction n with
  | zero => simp
  | succ n ih =>
    rw [List.range_succ, List.find?_append]
    cases h : (List.range n).find? f with
    | none =>
      rw [h] at ih
      simp only at ih
      by_cases hn : f n = true
      · simp only [Option.none_or, List.find?_cons, hn]
        exact ⟨Nat.lt_succ_self _, by simp, ih⟩
      · have hn' : f n = false := by simpa using hn
        simp only [Option.none_or, List.find?_cons, hn', List.find?_nil]
        intro j hj
        rcases Nat.lt_succ_iff_lt_or_eq.1 hj with h1 | h1
        · exact ih j h1
        · rw [h1]; exact hn'
    | some q =>
      rw [h] at ih
      simp only at ih
      simp only [Option.or_some]
      exact ⟨Nat.lt_succ_of_lt ih.1, ih.2⟩

theorem next_occurrence_none (ref_str : List Char) (p : Nat) (d : page_id)
    (h : next_occurrence ref_str p d = none) :
    ∀ q ∈ occurrences ref_str 0 d, q ≤ p := by
  intro q hq
  have hspec := find?_range_spec
    (fun q => decide (p < q ∧ (ref_str[q]?).map char_id = some d)) ref_str.length
  unfold next_occurrence at h
  rw [h] at hspec
  simp only at hspec
  obtain ⟨-, hq2⟩ := (mem_occurrences ref_str 0 d q).1 hq
  rw [Nat.sub_zero] at hq2
  have hql : q < ref_str.length := by
    by_contra hcon
    rw [List.getElem?_eq_none (not_lt.1 hcon)] at hq2
    simp at hq2
  have := hspec q hql
  by_contra hcon
  simp [hq2, not_le.1 hcon] at this

theorem next_occurrence_some (ref_str : List Char) (p : Nat) (d : page_id) (q : Nat)
    (h : next_occurrence ref_str p d = some q) :
    q ∈ occurrences ref_str 0 d ∧ p < q ∧ q < ref_str.length ∧
      ∀ q' ∈ occurrences ref_str 0 d, p < q' → q ≤ q' := by
  have hspec := find?_range_spec
    (fun q => decide (p < q ∧ (ref_str[q]?).map char_id = some d)) ref_str.length
  unfold next_occurrence at h
  rw [h] at hspec
  simp only [decide_eq_true_eq, decide_eq_false_iff_not] at hspec
  obtain ⟨h1, ⟨h2, h3⟩, h4⟩ := hspec
  refine ⟨(mem_occurrences ref_str 0 d q).2 ⟨Nat.zero_le _, by rw [Nat.sub_zero]; exact h3⟩,
    h2, h1, ?_⟩
  intro q' hq' hpq'
  obtain ⟨-, hq2⟩ := (mem_occurrences ref_str 0 d q').1 hq'
  rw [Nat.sub_zero] at hq2
  by_contra hcon
  exact h4 q' (not_le.1 hcon) ⟨hpq', hq2⟩

theorem occurrences_lt_length (ref_str : List Char) (d : page_id) :
    ∀ q ∈ occurrences ref_str 0 d, q < ref_str.length := by
  intro q hq
  obtain ⟨-, hq2⟩ := (mem_occurrences ref_str 0 d q).1 hq
  rw [Nat.sub_zero] at hq2
  by_contra hcon
  rw [List.getElem?_eq_none (not_lt.1 hcon)] at hq2
  simp at hq2

namespace OptTable

/-- The distance the code computes for an id agrees with its next occurrence
in the reference string: the maximum when there is none, the gap otherwise. -/
theorem opt_distance_eq (ref_str : List Char) (t : OptTable) (hinv : Inv ref_str t)
    (hlen : ref_str.length < 2 ^ 64) (k : page_id) :
    match next_occurrence ref_str t.request_ k with
    | none => t.distance k = request_max
    | some q => t.distance k = q - t.request_ ∧ t.distance k < request_max ∧ t.request_ < q := by
  have hspec := next_request_distance_spec t (occurrences ref_str 0 k)
    (occurrences_sorted ref_str 0 k)
    (fun q hq => by have := occurrences_lt_length ref_str k q hq; omega)
  have hd : t.distance k = t.next_request_distance (occurrences ref_str 0 k) := by
    unfold distance; rw [hinv.future_read]
  rw [← hd] at hspec
  cases h : next_occurrence ref_str t.request_ k with
  | none =>
    simp only
    rcases hspec with ⟨h1, -⟩ | ⟨q, hq, hpq, -⟩
    · exact h1
    · have := next_occurrence_none ref_str t.request_ k h q hq
      omega
  | some q0 =>
    simp only
    obtain ⟨h1, h2, h3, h4⟩ := next_occurrence_some ref_str t.request_ k q0 h
    rcases hspec with ⟨-, hall⟩ | ⟨q, hq, hpq, hmin, hdist, hlt⟩
    · have := hall q0 h1
      omega
    · have e1 := hmin q0 h1 h2
      have e2 := h4 q hq hpq
      have : q = q0 := le_antisymm e1 e2
      subst this
      exact ⟨hdist, hlt, h2⟩

theorem opt_distance_le (ref_str : List Char) (t : OptTable) (hinv : Inv ref_str t)
    (hlen : ref_str.length < 2 ^ 64) (w v : page_id) (h : t.distance w ≤ t.distance v) :
    occurrence_distance ref_str t.request_ w ≤ occurrence_distance ref_str t.request_ v := by
  have hw := opt_distance_eq ref_str t hinv hlen w
  have hv := opt_distance_eq ref_str t hinv hlen v
  unfold occurrence_distance
  cases h1 : next_occurrence ref_str t.request_ v with
  | none => exact le_top
  | some qv =>
    rw [h1] at hv
    simp only at hv
    cases h2 : next_occurrence ref_str t.request_ w with
    | none =>
      rw [h2] at hw
      simp only at hw
      omega
    | some qw =>
      rw [h2] at hw
      simp only at hw
      simp only
      exact_mod_cast (show qw - t.request_ ≤ qv - t.request_ by omega)

/-- A `get` that misses on a full table evicts exactly one resident id, of
maximal next-occurrence distance at the cursor. -/
theorem opt_evicts_farthest (P : Placement) (ref_str : List Char) (t : OptTable)
    (id : page_id) (hinv : Inv ref_str t) (hlen : ref_str.length < 2 ^ 64)
    (hreq : t.request_ < t.max_requests_) (hfull : t.full_impl = true)
    (hres : ¬ resident t.frame_ id) :
    ∃ r v, get_impl P t id = some r ∧ resident t.frame_ v ∧ ¬ resident r.2.frame_ v ∧
      (∀ w, resident t.frame_ w → w ≠ v → resident r.2.frame_ w) ∧
      ∀ w, resident t.frame_ w →
        occurrence_distance ref_str t.request_ w ≤ occurrence_distance ref_str t.request_ v := by
  obtain ⟨t2, h1, -, -, -, -, -, h5⟩ := opt_get_impl_miss P ref_str t id hinv hreq hres
  rcases h5 with ⟨hf, -⟩ | ⟨-, v, hv, hmax, hperm⟩
  · rw [hfull] at hf; cases hf
  · refine ⟨_, v, h1, hv, ?_, ?_, ?_⟩
    · intro hv2
      rcases List.mem_cons.1 (hperm.mem_iff.1 hv2) with h | h
      · exact hres (h ▸ hv)
      · simp at h
    · intro w hw hwv
      exact hperm.mem_iff.2 (List.mem_cons_of_mem _ (List.mem_filter.2 ⟨hw, by simpa using hwv⟩))
    · intro w hw
      exact opt_distance_le ref_str t hinv hlen w v (hmax w hw)

end OptTable

/-- C7: an `OptTable` of positive capacity built from `ref_str` and fed its
ids in order: when the access at position `p` misses while the table is full,
exactly one id is evicted, it was resident, and its next-occurrence distance
(first position after `p`, minus `p`; infinite when there is none) is at
least that of every resident id.  The length bound holds for every
`std::string`, whose size is a 64-bit `size_t`. -/
theorem C7_opt_evicts_farthest (P : Placement) (c : Nat) (hc : 0 < c) (ref_str : List Char)
    (hlen : ref_str.length < 2 ^ 64) (p : Nat) (id : page_id)
    (hid : (part1b_ids ref_str)[p]? = some id) (t : OptTable)
    (ht : OptTable.after P c ref_str ((part1b_ids ref_str).take p) = some t)
    (hfull : t.full_impl = true) (hres : ¬ resident t.frame_ id) :
    ∃ r v, OptTable.get_impl P t id = some r ∧ resident t.frame_ v ∧
      ¬ resident r.2.frame_ v ∧
      (∀ w, resident t.frame_ w → w ≠ v → resident r.2.frame_ w) ∧
      ∀ w, resident t.frame_ w →
        occurrence_distance ref_str p w ≤ occurrence_distance ref_str p v := by
  have hp : p < (part1b_ids ref_str).length := by
    by_contra hcon
    rw [List.getElem?_eq_none (not_lt.1 hcon)] at hid
    cases hid
  have hl : (part1b_ids ref_str).length = ref_str.length := by simp [part1b_ids]
  have htake : ((part1b_ids ref_str).take p).length = p := by
    rw [List.length_take]; omega
  obtain ⟨hinv, -, hr, hm⟩ := OptTable.opt_inv_of_after P c hc ref_str _
    (by rw [htake]; omega) t ht
  rw [htake] at hr
  have := OptTable.opt_evicts_farthest P ref_str t id hinv hlen (by omega) hfull hres
  rw [hr] at this
  exact this

/-- Witness of C7: capacity 2 and "12313"; the access at position 2 misses on
a full table holding 1 and 2. -/
theorem C7_opt_evicts_farthest_witness :
    ∃ r v, OptTable.get_impl Placement.back
        ⟨2, 2, 5, 2, [(1, [0, 3]), (2, [1]), (3, [2, 4])], [(1, ⟨1⟩), (2, ⟨2⟩)]⟩ 3 = some r ∧
      resident [(1, (⟨1⟩ : Page)), (2, ⟨2⟩)] v ∧ ¬ resident r.2.frame_ v ∧
      (∀ w, resident [(1, (⟨1⟩ : Page)), (2, ⟨2⟩)] w → w ≠ v → resident r.2.frame_ w) ∧
      ∀ w, resident [(1, (⟨1⟩ : Page)), (2, ⟨2⟩)] w →
        occurrence_distance "12313".toList 2 w ≤ occurrence_distance "12313".toList 2 v :=
  C7_opt_evicts_farthest Placement.back 2 (by decide) "12313".toList (by decide) 2 3
    (by decide) ⟨2, 2, 5, 2, [(1, [0, 3]), (2, [1]), (3, [2, 4])], [(1, ⟨1⟩), (2, ⟨2⟩)]⟩
    (by decide) (by decide) (by decide)

/-- C8: when an `OptTable` evicts and some resident id has no occurrence in
the reference string after the cursor, the evicted id has no such occurrence
either, for every placement rule of the resident map (hence every iteration
order) and whatever ids were fed.  The length bound holds for every
`std::string`, whose size is a 64-bit `size_t`. -/
theorem C8_opt_prefers_never_used (P : Placement) (c : Nat) (hc : 0 < c)
    (ref_str : List Char) (hlen : ref_str.length < 2 ^ 64) (ids : List page_id)
    (hids : ids.length < ref_str.length) (id : page_id) (t : OptTable)
    (ht : OptTable.after P c ref_str ids = some t)
    (hfull : t.full_impl = true) (hres : ¬ resident t.frame_ id)
    (hex : ∃ w, resident t.frame_ w ∧ next_occurrence ref_str ids.length w = none) :
    ∃ r v, OptTable.get_impl P t id = some r ∧ resident t.frame_ v ∧
      ¬ resident r.2.frame_ v ∧
      (∀ w, resident t.frame_ w → w ≠ v → resident r.2.frame_ w) ∧
      next_occurrence ref_str ids.length v = none := by
  obtain ⟨hinv, -, hr, hm⟩ := OptTable.opt_inv_of_after P c hc ref_str ids (le_of_lt hids) t ht
  obtain ⟨r, v, h1, h2, h3, h4, h5⟩ :=
    OptTable.opt_evicts_farthest P ref_str t id hinv hlen (by omega) hfull hres
  refine ⟨r, v, h1, h2, h3, h4, ?_⟩
  obtain ⟨w, hw, hnone⟩ := hex
  have hle := h5 w hw
  rw [hr] at hle
  unfold occurrence_distance at hle
  rw [hnone] at hle
  cases hv : next_occurrence ref_str ids.length v with
  | none => rfl
  | some q =>
    rw [hv] at hle
    simp only [top_le_iff] at hle
    exact absurd hle (ENat.coe_ne_top _)

/-- Witness of C8: capacity 2 and "12313"; at position 2 the resident id 2
never occurs again and is the one evicted. -/
theorem C8_opt_prefers_never_used_witness :
    ∃ r v, OptTable.get_impl Placement.front
        ⟨2, 2, 5, 2, [(3, [2, 4]), (2, [1]), (1, [0, 3])], [(2, ⟨2⟩), (1, ⟨1⟩)]⟩ 3 = some r ∧
      resident [(2, (⟨2⟩ : Page)), (1, ⟨1⟩)] v ∧ ¬ resident r.2.frame_ v ∧
      (∀ w, resident [(2, (⟨2⟩ : Page)), (1, ⟨1⟩)] w → w ≠ v → resident r.2.frame_ w) ∧
      next_occurrence "12313".toList 2 v = none :=
  C8_opt_prefers_never_used Placement.front 2 (by decide) "12313".toList (by decide) [1, 2]
    (by decide) 3 ⟨2, 2, 5, 2, [(3, [2, 4]), (2, [1]), (1, [0, 3])], [(2, ⟨2⟩), (1, ⟨1⟩)]⟩
    (by decide) (by decide) (by decide) ⟨2, by decide, by decide⟩

/-! ## The minimal number of faults -/

theorem min_faults_hit (c : Nat) (S : Finset page_id) (x : page_id) (σ : List page_id)
    (h : x ∈ S) : min_faults c S (x :: σ) = min_faults c S σ := by
  rw [min_faults, if_pos h]

theorem min_faults_fill (c : Nat) (S : Finset page_id) (x : page_id) (σ : List page_id)
    (h : x ∉ S) (hc : S.card < c) :
    min_faults c S (x :: σ) = 1 + min_faults c (insert x S) σ := by
  rw [min_faults, if_neg h, if_pos hc]

theorem min_faults_evict (c : Nat) (S : Finset page_id) (x : page_id) (σ : List page_id)
    (h : x ∉ S) (hc : ¬ S.card < c) (hne : S.Nonempty) :
    min_faults c S (x :: σ) =
      1 + S.inf' hne (fun v => min_faults c (insert x (S.erase v)) σ) := by
  rw [min_faults, if_neg h, if_neg hc, dif_pos hne]

/-- On a full set the minimum is attained by some victim. -/
theorem min_faults_evict_exists (c : Nat) (S : Finset page_id) (x : page_id)
    (σ : List page_id) (h : x ∉ S) (hc : ¬ S.card < c) (hne : S.Nonempty) :
    ∃ v ∈ S, min_faults c S (x :: σ) = 1 + min_faults c (insert x (S.erase v)) σ := by
  obtain ⟨v, hv, hmin⟩ := Finset.exists_mem_eq_inf' hne
    (fun v => min_faults c (insert x (S.erase v)) σ)
  exact ⟨v, hv, by rw [min_faults_evict c S x σ h hc hne, hmin]⟩

theorem min_faults_evict_le (c : Nat) (S : Finset page_id) (x : page_id)
    (σ : List page_id) (h : x ∉ S) (hc : ¬ S.card < c) (v : page_id) (hv : v ∈ S) :
    min_faults c S (x :: σ) ≤ 1 + min_faults c (insert x (S.erase v)) σ := by
  rw [min_faults_evict c S x σ h hc ⟨v, hv⟩]
  exact Nat.add_le_add_left (Finset.inf'_le _ hv) 1

/-- Holding more pages never costs more faults. -/
theorem min_faults_mono (c : Nat) (hc : 0 < c) (σ : List page_id) :
    ∀ S T : Finset page_id, S ⊆ T → T.card ≤ c → min_faults c T σ ≤ min_faults c S σ := by
  induction σ with
  | nil => intro S T _ _; simp [min_faults]
  | cons x τ ih =>
    intro S T hST hT
    by_cases hxS : x ∈ S
    · rw [min_faults_hit c S x τ hxS, min_faults_hit c T x τ (hST hxS)]
      exact ih S T hST hT
    · by_cases hxT : x ∈ T
      · have hlt : S.card < T.card :=
          Finset.card_lt_card ⟨hST, fun h => hxS (h hxT)⟩
        rw [min_faults_hit c T x τ hxT, min_faults_fill c S x τ hxS (by omega)]
        have := ih (insert x S) T (Finset.insert_subset hxT hST) hT
        omega
      · by_cases hfull : T.card < c
        · have hle : S.card ≤ T.card := Finset.card_le_card hST
          rw [min_faults_fill c T x τ hxT hfull, min_faults_fill c S x τ hxS (by omega)]
          have := ih (insert x S) (insert x T) (Finset.insert_subset_insert x hST)
            (by rw [Finset.card_insert_of_not_mem hxT]; omega)
          omega
        · by_cases hS : S.card < c
          · have hlt : S.card < T.card := by omega
            have hss : S ⊂ T := ⟨hST, fun h => by
              have := Finset.card_le_card h
              omega⟩
            obtain ⟨v, hvT, hvS⟩ := Finset.exists_of_ssubset hss
            rw [min_faults_fill c S x τ hxS hS]
            have h1 := min_faults_evict_le c T x τ hxT hfull v hvT
            have hsub : insert x S ⊆ insert x (T.erase v) := by
              apply Finset.insert_subset_insert
              intro y hy
              exact Finset.mem_erase.2 ⟨fun hyv => hvS (hyv ▸ hy), hST hy⟩
            have hcard : (insert x (T.erase v)).card ≤ c := by
              rw [Finset.card_insert_of_not_mem (fun h => hxT (Finset.mem_of_mem_erase h)),
                Finset.card_erase_of_mem hvT]
              have := Finset.card_pos.2 ⟨v, hvT⟩
              omega
            have := ih (insert x S) (insert x (T.erase v)) hsub hcard
            omega
          · have hle : S.card ≤ T.card := Finset.card_le_card hST
            have : S = T := Finset.eq_of_subset_of_card_le hST (by omega)
            rw [this]


theorem fs_I1 (S : Finset page_id) (a b : page_id) (ha : a ∈ S) :
    insert a (insert b (S.erase a)) = insert b S := by
  ext y; simp only [Finset.mem_insert, Finset.mem_erase]
  by_cases h : y = a
  · subst h; simp [ha]
  · simp [h]

theorem fs_I2 (S : Finset page_id) (a b : page_id) (ha : a ∈ S) (hb : b ∉ S) :
    insert a ((insert b (S.erase a)).erase b) = S := by
  ext y; simp only [Finset.mem_insert, Finset.mem_erase]
  by_cases h : y = a
  · subst h; simp [ha]
  · by_cases h2 : y = b
    · subst h2; simp [h, hb]
    · simp [h, h2]

theorem fs_I3 (S : Finset page_id) (a x : page_id) (hxa : x ≠ a) :
    insert x (S.erase a) = (insert x S).erase a := by
  ext y; simp only [Finset.mem_insert, Finset.mem_erase]
  by_cases h : y = x
  · subst h; simp [hxa]
  · simp [h]

theorem fs_I4 (S : Finset page_id) (a x v : page_id) (hv : v ∈ S) (hva : v ≠ a) (hxa : x ≠ a) :
    insert x (S.erase a) = insert v ((insert x (S.erase v)).erase a) := by
  ext y; simp only [Finset.mem_insert, Finset.mem_erase]
  by_cases h : y = v
  · subst h; simp [hva, hv]
  · by_cases h2 : y = x
    · subst h2; simp [hxa]
    · simp [h, h2]

theorem fs_I5 (S : Finset page_id) (a b x : page_id) (hxa : x ≠ a) :
    insert x (insert b (S.erase a)) = insert b ((insert x S).erase a) := by
  ext y; simp only [Finset.mem_insert, Finset.mem_erase]
  by_cases h : y = x
  · subst h; simp [hxa]
  · simp [h]

theorem fs_I6 (S : Finset page_id) (b x v : page_id) (hb : b ∉ S) :
    insert x ((insert b (S.erase v)).erase b) = insert x (S.erase v) := by
  ext y; simp only [Finset.mem_insert, Finset.mem_erase]
  by_cases h : y = b
  · subst h; simp [hb]
  · simp [h]

theorem fs_I7 (S : Finset page_id) (a b x v : page_id) (hvb : v ≠ b) (hxa : x ≠ a)
    (hxv : x ≠ v) :
    insert x ((insert b (S.erase a)).erase v) = insert b ((insert x (S.erase v)).erase a) := by
  ext y; simp only [Finset.mem_insert, Finset.mem_erase]
  by_cases h : y = x
  · subst h; simp [hxa]
  · by_cases h2 : y = b
    · subst h2; simp [Ne.symm hvb]
    · simp [h, h2]
      tauto

theorem card_swap (S : Finset page_id) (a b : page_id) (ha : a ∈ S) (hb : b ∉ S) :
    (insert b (S.erase a)).card = S.card := by
  rw [Finset.card_insert_of_not_mem (fun h => hb (Finset.mem_of_mem_erase h)),
    Finset.card_erase_of_mem ha]
  have := Finset.card_pos.2 ⟨a, ha⟩
  omega

/-- Exchange properties of the minimal fault count: replacing one resident id
costs at most one fault, costs nothing when the new id is needed no later than
the old one, and dropping one resident id costs at most one fault. -/
theorem min_faults_exchange (c : Nat) (hc : 0 < c) (σ : List page_id) :
    (∀ (S : Finset page_id) (a b : page_id), a ∈ S → b ∉ S → S.card ≤ c →
      min_faults c (insert b (S.erase a)) σ ≤ min_faults c S σ + 1 ∧
      (σ.indexOf b ≤ σ.indexOf a →
        min_faults c (insert b (S.erase a)) σ ≤ min_faults c S σ)) ∧
    (∀ (T : Finset page_id) (a : page_id), a ∈ T → T.card ≤ c →
      min_faults c (T.erase a) σ ≤ min_faults c T σ + 1) := by
  induction σ with
  | nil => simp [min_faults]
  | cons x τ ih =>
    obtain ⟨ihAB, ihD⟩ := ih
    refine ⟨?_, ?_⟩
    · intro S a b ha hb hS
      have hab : a ≠ b := fun h => hb (h ▸ ha)
      have hcard := card_swap S a b ha hb
      have hbS' : b ∈ insert b (S.erase a) := Finset.mem_insert_self _ _
      have haS' : a ∉ insert b (S.erase a) := by
        simp [hab]
      by_cases hxa : x = a
      · -- the old id is requested: only the first bound applies
        subst hxa
        rw [min_faults_hit c S x τ ha]
        refine ⟨?_, ?_⟩
        · by_cases hfull : (insert b (S.erase x)).card < c
          · rw [min_faults_fill c _ x τ haS' hfull]
            have e : insert x (insert b (S.erase x)) = insert b S := fs_I1 S x b ha
            rw [e]
            have := min_faults_mono c hc τ S (insert b S) (Finset.subset_insert _ _)
              (by rw [Finset.card_insert_of_not_mem hb]; omega)
            omega
          · have h1 := min_faults_evict_le c _ x τ haS' hfull b hbS'
            have e : insert x ((insert b (S.erase x)).erase b) = S := fs_I2 S x b ha hb
            rw [e] at h1
            omega
        · intro hidx
          rw [List.indexOf_cons_self, List.indexOf_cons_ne _ hab] at hidx
          omega
      · by_cases hxb : x = b
        · -- the new id is requested
          subst hxb
          rw [min_faults_hit c _ x τ hbS']
          have key : min_faults c (insert x (S.erase a)) τ ≤ min_faults c S (x :: τ) := by
            by_cases hfull : S.card < c
            · rw [min_faults_fill c S x τ hb hfull]
              have e : insert x (S.erase a) = (insert x S).erase a := fs_I3 S a x hxa
              rw [e]
              have := ihD (insert x S) a (Finset.mem_insert_of_mem ha)
                (by rw [Finset.card_insert_of_not_mem hb]; omega)
              omega
            · obtain ⟨v, hv, hmin⟩ := min_faults_evict_exists c S x τ hb hfull ⟨a, ha⟩
              rw [hmin]
              by_cases hva : v = a
              · subst hva; omega
              · have hvx : v ≠ x := fun h => hb (h ▸ hv)
                have e : insert x (S.erase a) =
                    insert v ((insert x (S.erase v)).erase a) := fs_I4 S a x v hv hva hxa
                rw [e]
                have := (ihAB (insert x (S.erase v)) a v
                  (by simp [ha, Ne.symm hva])
                  (by simp [hvx])
                  (by rw [card_swap S v x hv hb]; exact hS)).1
                omega
          exact ⟨by omega, fun _ => key⟩
        · by_cases hxS : x ∈ S
          · -- a hit on a common id
            have hxS' : x ∈ insert b (S.erase a) := by simp [hxS, hxa]
            rw [min_faults_hit c S x τ hxS, min_faults_hit c _ x τ hxS']
            refine ⟨(ihAB S a b ha hb hS).1, ?_⟩
            intro hidx
            rw [List.indexOf_cons_ne _ hxa, List.indexOf_cons_ne _ hxb] at hidx
            exact (ihAB S a b ha hb hS).2 (by omega)
          · -- a miss on both sides
            have hxS' : x ∉ insert b (S.erase a) := by simp [hxS, hxb]
            have hidx : (x :: τ).indexOf b ≤ (x :: τ).indexOf a →
                τ.indexOf b ≤ τ.indexOf a := by
              intro h
              rw [List.indexOf_cons_ne _ hxa, List.indexOf_cons_ne _ hxb] at h
              omega
            by_cases hfull : S.card < c
            · rw [min_faults_fill c S x τ hxS hfull,
                min_faults_fill c _ x τ hxS' (by rw [hcard]; exact hfull)]
              have e : insert x (insert b (S.erase a)) = insert b ((insert x S).erase a) :=
                fs_I5 S a b x hxa
              rw [e]
              have := ihAB (insert x S) a b (Finset.mem_insert_of_mem ha)
                (by simp [Ne.symm hxb, hb])
                (by rw [Finset.card_insert_of_not_mem hxS]; omega)
              exact ⟨by omega, fun h => by have := this.2 (hidx h); omega⟩
            · obtain ⟨v, hv, hmin⟩ := min_faults_evict_exists c S x τ hxS hfull ⟨a, ha⟩
              rw [hmin]
              have hfull' : ¬ (insert b (S.erase a)).card < c := by rw [hcard]; exact hfull
              by_cases hva : v = a
              · subst hva
                have h1 := min_faults_evict_le c _ x τ hxS' hfull' b hbS'
                have e : insert x ((insert b (S.erase v)).erase b) = insert x (S.erase v) :=
                  fs_I6 S b x v hb
                rw [e] at h1
                exact ⟨by omega, fun _ => h1⟩
              · have hvb : v ≠ b := fun h => hb (h ▸ hv)
                have hvx : v ≠ x := fun h => hxS (h ▸ hv)
                have hvS' : v ∈ insert b (S.erase a) := by simp [hv, hva]
                have h1 := min_faults_evict_le c _ x τ hxS' hfull' v hvS'
                have e : insert x ((insert b (S.erase a)).erase v) =
                    insert b ((insert x (S.erase v)).erase a) :=
                  fs_I7 S a b x v hvb hxa (Ne.symm hvx)
                rw [e] at h1
                have := ihAB (insert x (S.erase v)) a b
                  (by simp [ha, Ne.symm hva])
                  (by simp [Ne.symm hxb, hb])
                  (by rw [card_swap S v x hv hxS]; exact hS)
                exact ⟨by omega, fun h => by have := this.2 (hidx h); omega⟩
    · intro T a ha hT
      have hcard : (T.erase a).card + 1 = T.card := by
        rw [Finset.card_erase_of_mem ha]
        have := Finset.card_pos.2 ⟨a, ha⟩
        omega
      by_cases hxa : x = a
      · subst hxa
        rw [min_faults_hit c T x τ ha,
          min_faults_fill c _ x τ (Finset.not_mem_erase x T) (by omega),
          Finset.insert_erase ha]
        omega
      · by_cases hxT : x ∈ T
        · rw [min_faults_hit c T x τ hxT,
            min_faults_hit c _ x τ (Finset.mem_erase.2 ⟨hxa, hxT⟩)]
          exact ihD T a ha hT
        · have hxT' : x ∉ T.erase a := fun h => hxT (Finset.mem_of_mem_erase h)
          rw [min_faults_fill c _ x τ hxT' (by omega)]
          by_cases hfull : T.card < c
          · rw [min_faults_fill c T x τ hxT hfull]
            have e : insert x (T.erase a) = (insert x T).erase a := fs_I3 T a x hxa
            rw [e]
            have := ihD (insert x T) a (Finset.mem_insert_of_mem ha)
              (by rw [Finset.card_insert_of_not_mem hxT]; omega)
            omega
          · obtain ⟨v, hv, hmin⟩ := min_faults_evict_exists c T x τ hxT hfull ⟨a, ha⟩
            rw [hmin]
            by_cases hva : v = a
            · subst hva; omega
            · have hvx : v ≠ x := fun h => hxT (h ▸ hv)
              have e : insert x (T.erase a) = insert v ((insert x (T.erase v)).erase a) :=
                fs_I4 T a x v hv hva hxa
              rw [e]
              have := (ihAB (insert x (T.erase v)) a v
                (by simp [ha, Ne.symm hva])
                (by simp [hvx])
                (by rw [card_swap T v x hv hxT]; exact hT)).1
              omega

/-! ## FIFO and LRU incur at least the minimal number of faults -/

theorem mem_resident_set {V : Type} (frame : UMap V) (k : page_id) :
    k ∈ resident_set frame ↔ resident frame k := by
  simp [resident_set, resident]

theorem card_resident_set {V : Type} (frame : UMap V) (h : (UMap.keys frame).Nodup) :
    (resident_set frame).card = UMap.size frame := by
  rw [resident_set, List.toFinset_card_of_nodup h, UMap.size_eq_length_keys]

theorem resident_set_fill {V : Type} (f1 f2 : UMap V) (x : page_id)
    (h : List.Perm (UMap.keys f2) (x :: UMap.keys f1)) :
    resident_set f2 = insert x (resident_set f1) := by
  rw [resident_set, List.toFinset_eq_of_perm _ _ h, List.toFinset_cons]
  rfl

theorem resident_set_evict {V : Type} (f1 f2 : UMap V) (x v : page_id)
    (h : List.Perm (UMap.keys f2) (x :: (UMap.keys f1).filter (fun y => decide (y ≠ v)))) :
    resident_set f2 = insert x ((resident_set f1).erase v) := by
  rw [resident_set, List.toFinset_eq_of_perm _ _ h, List.toFinset_cons]
  congr 1
  ext y
  simp [resident_set]
  tauto

theorem not_full_iff_card {V : Type} (frame : UMap V) (c : Nat)
    (h : (UMap.keys frame).Nodup) :
    decide (UMap.size frame ≥ c) = false ↔ (resident_set frame).card < c := by
  rw [card_resident_set frame h]
  simp

theorem FifoTable.fifo_min_faults_le (P : Placement) (ids : List page_id) :
    ∀ t : FifoTable, Inv t → ∃ t2, run P t ids = some t2 ∧
      t.faults_ + min_faults t.capacity_ (resident_set t.frame_) ids ≤ t2.faults_ := by
  induction ids with
  | nil => intro t _; exact ⟨t, rfl, by simp [min_faults]⟩
  | cons x ids ih =>
    intro t hinv
    by_cases hres : resident t.frame_ x
    · obtain ⟨t2, h1, h2⟩ := ih t hinv
      refine ⟨t2, by simp only [run, fifo_get_impl_hit P t x hinv hres, h1], ?_⟩
      rw [min_faults_hit _ _ _ _ ((mem_resident_set _ _).2 hres)]
      exact h2
    · obtain ⟨t1, h1, hinv1, hcap, hfa, h5⟩ := fifo_get_impl_miss P t x hinv hres
      obtain ⟨t2, h6, h7⟩ := ih t1 hinv1
      refine ⟨t2, by simp only [run, h1, h6], ?_⟩
      have hxS : x ∉ resident_set t.frame_ := fun h => hres ((mem_resident_set _ _).1 h)
      rw [hcap, hfa] at h7
      rcases h5 with ⟨hf, -, hperm⟩ | ⟨hf, v, rest, hq, -, hperm⟩
      · have hlt := (not_full_iff_card t.frame_ t.capacity_ hinv.nodup).1 hf
        rw [min_faults_fill _ _ _ _ hxS hlt]
        rw [resident_set_fill _ _ _ hperm] at h7
        omega
      · have hge : ¬ (resident_set t.frame_).card < t.capacity_ := by
          intro hlt
          have := (not_full_iff_card t.frame_ t.capacity_ hinv.nodup).2 hlt
          rw [show decide (UMap.size t.frame_ ≥ t.capacity_) = t.full_impl from rfl, hf] at this
          cases this
        have hv : v ∈ resident_set t.frame_ :=
          (mem_resident_set _ _).2
            ((fifo_mem_queue_iff t hinv v).1 (by rw [hq]; exact List.mem_cons_self _ _))
        have := min_faults_evict_le _ _ x ids hxS hge v hv
        rw [resident_set_evict _ _ _ _ hperm] at h7
        omega

theorem LruTable.lru_min_faults_le (P : Placement) (ids : List page_id) :
    ∀ t : LruTable, Inv t → ∃ t2, run P t ids = some t2 ∧
      t.faults_ + min_faults t.capacity_ (resident_set t.frame_) ids ≤ t2.faults_ := by
  induction ids with
  | nil => intro t _; exact ⟨t, rfl, by simp [min_faults]⟩
  | cons x ids ih =>
    intro t hinv
    by_cases hres : resident t.frame_ x
    · obtain ⟨n, -, h0, hinv1, -⟩ := lru_get_impl_hit P t x hinv hres
      obtain ⟨t2, h1, h2⟩ := ih _ hinv1
      refine ⟨t2, by simp only [run, h0, h1], ?_⟩
      rw [min_faults_hit _ _ _ _ ((mem_resident_set _ _).2 hres)]
      exact h2
    · obtain ⟨t1, h1, hinv1, hcap, hfa, h5⟩ := lru_get_impl_miss P t x hinv hres
      obtain ⟨t2, h6, h7⟩ := ih t1 hinv1
      refine ⟨t2, by simp only [run, h1, h6], ?_⟩
      have hxS : x ∉ resident_set t.frame_ := fun h => hres ((mem_resident_set _ _).1 h)
      rw [hcap, hfa] at h7
      rcases h5 with ⟨hf, -, hperm⟩ | ⟨hf, v, rest, hq, -, hperm⟩
      · have hlt := (not_full_iff_card t.frame_ t.capacity_ hinv.wf.nodup).1 hf
        rw [min_faults_fill _ _ _ _ hxS hlt]
        rw [resident_set_fill _ _ _ hperm] at h7
        omega
      · have hge : ¬ (resident_set t.frame_).card < t.capacity_ := by
          intro hlt
          have := (not_full_iff_card t.frame_ t.capacity_ hinv.wf.nodup).2 hlt
          rw [show decide (UMap.size t.frame_ ≥ t.capacity_) = t.full_impl from rfl, hf] at this
          cases this
        have hv : v ∈ resident_set t.frame_ :=
          (mem_resident_set _ _).2
            ((lru_mem_ids_iff t hinv.wf v).1 (by rw [hq]; exact List.mem_cons_self _ _))
        have := min_faults_evict_le _ _ x ids hxS hge v hv
        rw [resident_set_evict _ _ _ _ hperm] at h7
        omega

/-! ## OPT incurs exactly the minimal number of faults -/

theorem indexOf_eq_of_getElem? (a : page_id) :
    ∀ (l : List page_id) (j : Nat), l[j]? = some a → (∀ i, i < j → l[i]? ≠ some a) →
      l.indexOf a = j := by
  intro l
  induction l with
  | nil => intro j h; simp at h
  | cons b l ih =>
    intro j h hmin
    cases j with
    | zero =>
      simp only [List.getElem?_cons_zero, Option.some.injEq] at h
      rw [h, List.indexOf_cons_self]
    | succ j =>
      have hb : b ≠ a := by
        intro hba
        exact hmin 0 (Nat.succ_pos _) (by simp [hba])
      rw [List.indexOf_cons_ne _ hb]
      simp only [List.getElem?_cons_succ] at h
      rw [ih j h (fun i hi => by
        have := hmin (i + 1) (by omega)
        simpa using this)]

theorem part1b_ids_getElem? (ref_str : List Char) (q : Nat) :
    (part1b_ids ref_str)[q]? = (ref_str[q]?).map char_id := by
  simp [part1b_ids]

/-- The position of an id in the rest of the reference string, in terms of its
next occurrence. -/
theorem indexOf_drop_next_occurrence (ref_str : List Char) (p : Nat) (k : page_id) :
    match next_occurrence ref_str p k with
    | none => ((part1b_ids ref_str).drop (p + 1)).indexOf k =
        ((part1b_ids ref_str).drop (p + 1)).length
    | some q => ((part1b_ids ref_str).drop (p + 1)).indexOf k = q - (p + 1) := by
  cases h : next_occurrence ref_str p k with
  | none =>
    simp only
    rw [List.indexOf_eq_length]
    intro hmem
    obtain ⟨j, hj, hjk⟩ := List.getElem_of_mem hmem
    have h1 : ((part1b_ids ref_str).drop (p + 1))[j]? = some k := by
      rw [List.getElem?_eq_getElem hj, hjk]
    rw [List.getElem?_drop, part1b_ids_getElem?] at h1
    have hocc : p + 1 + j ∈ occurrences ref_str 0 k :=
      (mem_occurrences ref_str 0 k _).2 ⟨Nat.zero_le _, by rw [Nat.sub_zero]; exact h1⟩
    have := next_occurrence_none ref_str p k h _ hocc
    omega
  | some q =>
    simp only
    obtain ⟨h1, h2, h3, h4⟩ := next_occurrence_some ref_str p k q h
    obtain ⟨-, h5⟩ := (mem_occurrences ref_str 0 k q).1 h1
    rw [Nat.sub_zero] at h5
    apply indexOf_eq_of_getElem?
    · rw [List.getElem?_drop, part1b_ids_getElem?]
      have : p + 1 + (q - (p + 1)) = q := by omega
      rw [this]; exact h5
    · intro i hi hcon
      rw [List.getElem?_drop, part1b_ids_getElem?] at hcon
      have hocc : p + 1 + i ∈ occurrences ref_str 0 k :=
        (mem_occurrences ref_str 0 k _).2 ⟨Nat.zero_le _, by rw [Nat.sub_zero]; exact hcon⟩
      have := h4 _ hocc (by omega)
      omega

namespace OptTable

theorem opt_indexOf_le (ref_str : List Char) (t : OptTable) (hinv : Inv ref_str t)
    (hlen : ref_str.length < 2 ^ 64) (w v : page_id) (h : t.distance w ≤ t.distance v) :
    ((part1b_ids ref_str).drop (t.request_ + 1)).indexOf w ≤
      ((part1b_ids ref_str).drop (t.request_ + 1)).indexOf v := by
  have hw := opt_distance_eq ref_str t hinv hlen w
  have hv := opt_distance_eq ref_str t hinv hlen v
  have iw := indexOf_drop_next_occurrence ref_str t.request_ w
  have iv := indexOf_drop_next_occurrence ref_str t.request_ v
  cases h1 : next_occurrence ref_str t.request_ v with
  | none =>
    rw [h1] at iv
    simp only at iv
    rw [iv]
    exact List.indexOf_le_length
  | some qv =>
    rw [h1] at hv iv
    simp only at hv iv
    cases h2 : next_occurrence ref_str t.request_ w with
    | none =>
      rw [h2] at hw
      simp only at hw
      omega
    | some qw =>
      rw [h2] at hw iw
      simp only at hw iw
      rw [iw, iv]
      omega

/-- Fed the rest of its reference string, an `OptTable` faults exactly the
minimal number of times, whatever the placement rule. -/
theorem opt_faults_eq_min (P : Placement) (ref_str : List Char)
    (hlen : ref_str.length < 2 ^ 64) :
    ∀ (rem : List page_id) (t : OptTable), Inv ref_str t →
      rem = (part1b_ids ref_str).drop t.request_ →
      ∃ t2, run P t rem = some t2 ∧
        t2.faults_ = t.faults_ + min_faults t.capacity_ (resident_set t.frame_) rem := by
  intro rem
  induction rem with
  | nil => intro t _ _; exact ⟨t, rfl, by simp [min_faults]⟩
  | cons x rem ih =>
    intro t hinv hrem
    have hl : (part1b_ids ref_str).length = ref_str.length := by simp [part1b_ids]
    have hp : t.request_ < (part1b_ids ref_str).length := by
      by_contra hcon
      rw [List.drop_eq_nil_of_le (not_lt.1 hcon)] at hrem
      cases hrem
    have hreq : t.request_ < t.max_requests_ := by rw [hinv.max_eq, ← hl]; exact hp
    have hrem' : rem = (part1b_ids ref_str).drop (t.request_ + 1) := by
      rw [← List.drop_drop, ← hrem]
      rfl
    by_cases hres : resident t.frame_ x
    · obtain ⟨h0, hinv1⟩ := opt_get_impl_hit P ref_str t x hinv hreq hres
      obtain ⟨t2, h1, h2⟩ := ih _ hinv1 hrem'
      refine ⟨t2, by simp only [run, h0, h1], ?_⟩
      rw [min_faults_hit _ _ _ _ ((mem_resident_set _ _).2 hres)]
      exact h2
    · obtain ⟨t1, h1, hinv1, hcap, hfa, hrq, -, h5⟩ :=
        opt_get_impl_miss P ref_str t x hinv hreq hres
      obtain ⟨t2, h6, h7⟩ := ih t1 hinv1 (by rw [hrq]; exact hrem')
      refine ⟨t2, by simp only [run, h1, h6], ?_⟩
      have hxS : x ∉ resident_set t.frame_ := fun h => hres ((mem_resident_set _ _).1 h)
      rw [hcap, hfa] at h7
      rcases h5 with ⟨hf, hperm⟩ | ⟨hf, v, hv, hmax, hperm⟩
      · have hlt := (not_full_iff_card t.frame_ t.capacity_ hinv.nodup).1 hf
        rw [min_faults_fill _ _ _ _ hxS hlt]
        rw [resident_set_fill _ _ _ hperm] at h7
        omega
      · have hge : ¬ (resident_set t.frame_).card < t.capacity_ := by
          intro hlt
          have := (not_full_iff_card t.frame_ t.capacity_ hinv.nodup).2 hlt
          rw [show decide (UMap.size t.frame_ ≥ t.capacity_) = t.full_impl from rfl, hf] at this
          cases this
        have hvS : v ∈ resident_set t.frame_ := (mem_resident_set _ _).2 hv
        have hcardS : (resident_set t.frame_).card ≤ t.capacity_ := by
          rw [card_resident_set _ hinv.nodup]; exact hinv.size_le
        rw [resident_set_evict _ _ _ _ hperm] at h7
        rw [h7, min_faults_evict _ _ _ _ hxS hge ⟨v, hvS⟩]
        have hinf : (resident_set t.frame_).inf' ⟨v, hvS⟩
            (fun u => min_faults t.capacity_ (insert x ((resident_set t.frame_).erase u)) rem) =
            min_faults t.capacity_ (insert x ((resident_set t.frame_).erase v)) rem := by
          apply le_antisymm (Finset.inf'_le _ hvS)
          apply Finset.le_inf'
          intro w hw
          by_cases hwv : w = v
          · rw [hwv]
          · have hwx : w ≠ x := fun h => hxS (h ▸ hw)
            have hvx : x ≠ v := fun h => hxS (h ▸ hvS)
            have e := fs_I4 (resident_set t.frame_) v x w hw hwv hvx
            rw [e]
            refine ((min_faults_exchange t.capacity_ hinv.cap_pos rem).1
              (insert x ((resident_set t.frame_).erase w)) v w
              (by simp [hvS, Ne.symm hwv]) (by simp [hwx])
              (by rw [card_swap _ w x hw hxS]; exact hcardS)).2 ?_
            rw [hrem']
            exact opt_indexOf_le ref_str t hinv hlen w v
              (hmax w ((mem_resident_set _ _).1 hw))
        rw [hinf]
        omega

end OptTable

/-! ## Fault counts do not depend on the placement rule -/

theorem FifoTable.fifo_faults_run (P : Placement) (ids : List page_id) :
    ∀ t : FifoTable, Inv t → ∃ t2, run P t ids = some t2 ∧
      t2.faults_ = t.faults_ + fifo_faults t.capacity_ t.queue_ ids := by
  induction ids with
  | nil => intro t _; exact ⟨t, rfl, rfl⟩
  | cons x ids ih =>
    intro t hinv
    obtain ⟨t1, h1, hinv1, hcap, hq⟩ := fifo_step_queue P t x hinv
    obtain ⟨t1', h1', hfa, -⟩ := fifo_get_impl_facts P t x hinv
    rw [h1] at h1'
    cases h1'
    obtain ⟨t2, h2, h3⟩ := ih t1 hinv1
    refine ⟨t2, by simp only [run, h1, h2], ?_⟩
    rw [h3, hfa, hcap, hq]
    simp only [fifo_faults]
    by_cases hres : resident t.frame_ x
    · rw [if_pos hres, if_pos ((fifo_mem_queue_iff t hinv x).2 hres)]
      omega
    · rw [if_neg hres, if_neg (fun h => hres ((fifo_mem_queue_iff t hinv x).1 h))]
      omega

theorem LruTable.lru_faults_run (P : Placement) (ids : List page_id) :
    ∀ t : LruTable, Inv t → ∃ t2, run P t ids = some t2 ∧
      t2.faults_ = t.faults_ + lru_faults t.capacity_ t.ids ids := by
  induction ids with
  | nil => intro t _; exact ⟨t, rfl, rfl⟩
  | cons x ids ih =>
    intro t hinv
    obtain ⟨t1, h1, hinv1, hcap, hq⟩ := lru_step_ids P t x hinv
    obtain ⟨t1', h1', hfa, -⟩ := lru_get_impl_facts P t x hinv
    rw [h1] at h1'
    cases h1'
    obtain ⟨t2, h2, h3⟩ := ih t1 hinv1
    refine ⟨t2, by simp only [run, h1, h2], ?_⟩
    rw [h3, hfa, hcap, hq]
    simp only [lru_faults]
    by_cases hres : resident t.frame_ x
    · rw [if_pos hres, if_pos ((lru_mem_ids_iff t hinv.wf x).2 hres)]
      omega
    · rw [if_neg hres, if_neg (fun h => hres ((lru_mem_ids_iff t hinv.wf x).1 h))]
      omega

theorem part1b_fifo_eq (P : Placement) (c : Nat) (hc : 0 < c) (ref_str : List Char) :
    part1b_fifo P c ref_str = some (fifo_faults c [] (part1b_ids ref_str)) := by
  obtain ⟨h1, h2⟩ := FifoTable.fifo_inv_new c hc
  obtain ⟨t2, h3, h4⟩ := FifoTable.fifo_faults_run P (part1b_ids ref_str) _ h2
  simp only [part1b_fifo, h1, h3, Option.map_some', FifoTable.faults_impl, h4]
  simp

theorem part1b_lru_eq (P : Placement) (c : Nat) (hc : 0 < c) (ref_str : List Char) :
    part1b_lru P c ref_str = some (lru_faults c [] (part1b_ids ref_str)) := by
  obtain ⟨h1, h2⟩ := LruTable.lru_inv_new c hc
  obtain ⟨t2, h3, h4⟩ := LruTable.lru_faults_run P (part1b_ids ref_str) _ h2
  simp only [part1b_lru, h1, h3, Option.map_some', LruTable.faults_impl, h4]
  simp [LruTable.ids]

theorem part1b_opt_eq (P : Placement) (c : Nat) (hc : 0 < c) (ref_str : List Char)
    (hlen : ref_str.length < 2 ^ 64) :
    part1b_opt P c ref_str = some (min_faults c ∅ (part1b_ids ref_str)) := by
  obtain ⟨t2, h3, h4⟩ := OptTable.opt_faults_eq_min P ref_str hlen (part1b_ids ref_str)
    (OptTable.new P c ref_str) (OptTable.opt_inv_new P c ref_str hc) rfl
  simp only [part1b_opt, h3, Option.map_some', OptTable.faults_impl, h4]
  simp [OptTable.new, resident_set, UMap.keys]

theorem min_faults_le_fifo (P : Placement) (c : Nat) (hc : 0 < c) (ref_str : List Char) :
    ∃ f, part1b_fifo P c ref_str = some f ∧ min_faults c ∅ (part1b_ids ref_str) ≤ f := by
  obtain ⟨h1, h2⟩ := FifoTable.fifo_inv_new c hc
  obtain ⟨t2, h3, h4⟩ := FifoTable.fifo_min_faults_le P (part1b_ids ref_str) _ h2
  refine ⟨t2.faults_, by simp only [part1b_fifo, h1, h3, Option.map_some', FifoTable.faults_impl],
    ?_⟩
  simpa [resident_set, UMap.keys] using h4

theorem min_faults_le_lru (P : Placement) (c : Nat) (hc : 0 < c) (ref_str : List Char) :
    ∃ l, part1b_lru P c ref_str = some l ∧ min_faults c ∅ (part1b_ids ref_str) ≤ l := by
  obtain ⟨h1, h2⟩ := LruTable.lru_inv_new c hc
  obtain ⟨t2, h3, h4⟩ := LruTable.lru_min_faults_le P (part1b_ids ref_str) _ h2
  refine ⟨t2.faults_, by simp only [part1b_lru, h1, h3, Option.map_some', LruTable.faults_impl],
    ?_⟩
  simpa [resident_set, UMap.keys] using h4

/-- C9: for every reference string and every positive capacity, the Part 1b
run of `OptTable` ends with a fault count that is at most that of `FifoTable`
and at most that of `LruTable` on the same ids, whatever the placement rules
of the three resident maps.  The length bound holds for every `std::string`,
whose size is a 64-bit `size_t`. -/
theorem C9_opt_le_fifo_lru (Po Pf Pl : Placement) (c : Nat) (hc : 0 < c)
    (ref_str : List Char) (hlen : ref_str.length < 2 ^ 64) :
    ∃ o f l, part1b_opt Po c ref_str = some o ∧ part1b_fifo Pf c ref_str = some f ∧
      part1b_lru Pl c ref_str = some l ∧ o ≤ f ∧ o ≤ l := by
  obtain ⟨f, hf1, hf2⟩ := min_faults_le_fifo Pf c hc ref_str
  obtain ⟨l, hl1, hl2⟩ := min_faults_le_lru Pl c hc ref_str
  exact ⟨_, f, l, part1b_opt_eq Po c hc ref_str hlen, hf1, hl1, hf2, hl2⟩

/-- Witness of C9: the reference string "70120304230321201701" with frame
size 3. -/
theorem C9_opt_le_fifo_lru_witness :
    ∃ o f l, part1b_opt Placement.front 3 "70120304230321201701".toList = some o ∧
      part1b_fifo Placement.back 3 "70120304230321201701".toList = some f ∧
      part1b_lru Placement.front 3 "70120304230321201701".toList = some l ∧ o ≤ f ∧ o ≤ l :=
  C9_opt_le_fifo_lru Placement.front Placement.back Placement.front 3 (by decide)
    "70120304230321201701".toList (by decide)

/-- C10: on the reference string "453254671" with frame size 4 the Part 1b
runs of `FifoTable`, `LruTable` and `OptTable` all end with `faults()` equal
to 7, whatever the placement rules of the resident maps. -/
theorem C10_example_fault_counts (Pf Pl Po : Placement) :
    part1b_fifo Pf 4 "453254671".toList = some 7 ∧
    part1b_lru Pl 4 "453254671".toList = some 7 ∧
    part1b_opt Po 4 "453254671".toList = some 7 := by
  refine ⟨?_, ?_, ?_⟩
  · rw [part1b_fifo_eq Pf 4 (by decide)]
    decide
  · rw [part1b_lru_eq Pl 4 (by decide)]
    decide
  · have h1 := part1b_opt_eq Po 4 (by decide) "453254671".toList (by decide)
    have h2 := part1b_opt_eq Placement.front 4 (by decide) "453254671".toList (by decide)
    have h3 : part1b_opt Placement.front 4 "453254671".toList = some 7 := by decide
    rw [h1, ← h2, h3]

/-! ## Construction and the bound on the number of calls -/

/-- C11: construction with capacity 0 fails for `FifoTable` and `LruTable`,
whose constructors assert `frame_size > 0`; the `OptTable` constructor has no
such assertion and returns a table of capacity 0, on which the first `get`
stops in `remove_page` after the fault count was incremented. -/
theorem C11_zero_capacity_construction (P : Placement) (ref_str : List Char) :
    FifoTable.new 0 = none ∧ LruTable.new 0 = none ∧
    (OptTable.new P 0 ref_str).capacity_ = 0 ∧
    (OptTable.new P 0 ref_str).full_impl = true ∧
    OptTable.get_impl Placement.front (OptTable.new Placement.front 0 "1".toList) 1 = none ∧
    OptTable.get_impl_abort (OptTable.new Placement.front 0 "1".toList) 1 =
      some { OptTable.new Placement.front 0 "1".toList with faults_ := 1 } :=
  ⟨rfl, rfl, rfl, rfl, by decide, by decide⟩

namespace OptTable

theorem opt_remove_page_isSome (P : Placement) (t : OptTable) (hne : t.frame_ ≠ []) :
    ∃ t1, remove_page P t = some t1 := by
  obtain ⟨cap, faults, maxr, req, fut, frame⟩ := t
  cases frame with
  | nil => exact absurd rfl hne
  | cons e L =>
    obtain ⟨first, pg⟩ := e
    simp only [remove_page]
    split
    · exact ⟨_, rfl⟩
    · exact ⟨_, rfl⟩

theorem opt_remove_page_nil (P : Placement) (t : OptTable) (h : t.frame_ = []) :
    remove_page P t = none := by
  obtain ⟨cap, faults, maxr, req, fut, frame⟩ := t
  simp only at h
  subst h
  rfl

/-- A call `get` returns nothing exactly when one of its assertions fails. -/
theorem opt_get_impl_none_iff (P : Placement) (t : OptTable) (id : page_id) :
    get_impl P t id = none ↔ ∃ t1, get_impl_abort t id = some t1 := by
  obtain ⟨cap, faults, maxr, req, fut, frame⟩ := t
  unfold get_impl get_impl_abort
  by_cases hreq : req < maxr
  · simp only [if_pos hreq]
    cases hfind : UMap.find frame id with
    | some page => simp
    | none =>
      simp only
      cases hfull : full_impl ⟨cap, faults + 1, maxr, req, fut, frame⟩ with
      | false =>
        rw [opt_add_page_eq P _ ⟨cap, faults + 1, maxr, req, fut, frame⟩ id
          (by rw [hfull]; rfl)]
        simp
      | true =>
        cases frame with
        | nil =>
          have hadd : add_page P ⟨cap, faults + 1, maxr, req, fut, []⟩ id = none := by
            unfold add_page
            rw [hfull, if_pos rfl, opt_remove_page_nil P _ rfl]
          rw [hadd]
          simp
        | cons e L =>
          obtain ⟨t1, hrp⟩ := opt_remove_page_isSome P ⟨cap, faults + 1, maxr, req, fut, e :: L⟩
            (List.cons_ne_nil _ _)
          rw [opt_add_page_eq P _ t1 id (by rw [hfull, if_pos rfl]; exact hrp)]
          simp
  · simp only [if_neg hreq]
    simp

end OptTable

/-- C12: an `OptTable` of positive capacity built from a string of length `n`:
after `k ≤ n` completed calls the cursor is `k`; a further `get` advances it by
exactly 1 when `k < n`, and fails exactly when `k = n`, on the assertion at
the top of `get_impl`, so that the table is still the one before the call
(resident set, fault count and cursor unchanged); no sequence of more than `n`
calls completes. -/
theorem C12_opt_cursor_and_bound (P : Placement) (c : Nat) (hc : 0 < c)
    (ref_str : List Char) (ids : List page_id) :
    (ids.length ≤ ref_str.length →
      ∃ t, OptTable.after P c ref_str ids = some t ∧ t.request_ = ids.length ∧
        ∀ id, (OptTable.get_impl P t id = none ↔ ids.length = ref_str.length) ∧
          (ids.length < ref_str.length →
            ∃ r, OptTable.get_impl P t id = some r ∧ r.2.request_ = t.request_ + 1) ∧
          (ids.length = ref_str.length → OptTable.get_impl_abort t id = some t)) ∧
    (ref_str.length < ids.length → OptTable.after P c ref_str ids = none) := by
  have key : ∀ ids : List page_id, ids.length ≤ ref_str.length →
      ∃ t, OptTable.after P c ref_str ids = some t ∧ t.request_ = ids.length ∧
        ∀ id, (OptTable.get_impl P t id = none ↔ ids.length = ref_str.length) ∧
          (ids.length < ref_str.length →
            ∃ r, OptTable.get_impl P t id = some r ∧ r.2.request_ = t.request_ + 1) ∧
          (ids.length = ref_str.length → OptTable.get_impl_abort t id = some t) := by
    intro ids hlen
    obtain ⟨t, h1, hinv, -, hr, hm⟩ := OptTable.opt_after_inv P c hc ref_str ids hlen
    refine ⟨t, h1, hr, ?_⟩
    intro id
    have hfail : ids.length = ref_str.length → OptTable.get_impl P t id = none := by
      intro heq
      unfold OptTable.get_impl
      rw [if_neg (by omega)]
    refine ⟨⟨?_, hfail⟩, ?_, ?_⟩
    · intro hnone
      by_contra hne
      obtain ⟨t2, h2, -⟩ := OptTable.opt_get_impl_spec P ref_str t id hinv (by omega)
      rw [h2] at hnone
      cases hnone
    · intro hlt
      obtain ⟨t2, h2, -, -, h3, -⟩ := OptTable.opt_get_impl_spec P ref_str t id hinv (by omega)
      exact ⟨_, h2, h3⟩
    · intro heq
      unfold OptTable.get_impl_abort
      rw [if_neg (by omega)]
  refine ⟨key ids, ?_⟩
  intro hgt
  obtain ⟨t, h1, -, h3⟩ := key (ids.take ref_str.length) (by simp)
  have hsplit : ids = ids.take ref_str.length ++ ids.drop ref_str.length :=
    (List.take_append_drop _ _).symm
  cases hd : ids.drop ref_str.length with
  | nil =>
    have := congrArg List.length hd
    simp at this
    omega
  | cons x rest =>
    have hnone : OptTable.get_impl P t x = none :=
      ((h3 x).1).2 (by simp; omega)
    rw [hsplit, hd]
    unfold OptTable.after at h1 ⊢
    rw [OptTable.opt_run_append, h1]
    show OptTable.run P t (x :: rest) = none
    simp only [OptTable.run, hnone]

/-- Witness of C12: capacity 2 and "12": after one call a further `get`
advances the cursor, after two calls every `get` fails and leaves the table
as it was, and three calls do not complete. -/
theorem C12_opt_cursor_and_bound_witness :
    (∃ t, OptTable.after Placement.front 2 "12".toList [1] = some t ∧ t.request_ = 1 ∧
      ∃ r, OptTable.get_impl Placement.front t 2 = some r ∧ r.2.request_ = t.request_ + 1) ∧
    (∃ t, OptTable.after Placement.front 2 "12".toList [1, 2] = some t ∧ t.request_ = 2 ∧
      OptTable.get_impl Placement.front t 1 = none ∧
      OptTable.get_impl_abort t 1 = some t) ∧
    OptTable.after Placement.front 2 "12".toList [1, 2, 1] = none := by
  refine ⟨?_, ?_, ?_⟩
  · obtain ⟨t, h1, h2, h3⟩ :=
      (C12_opt_cursor_and_bound Placement.front 2 (by decide) "12".toList [1]).1 (by decide)
    exact ⟨t, h1, h2, (h3 2).2.1 (by decide)⟩
  · obtain ⟨t, h1, h2, h3⟩ :=
      (C12_opt_cursor_and_bound Placement.front 2 (by decide) "12".toList [1, 2]).1
        (by decide)
    exact ⟨t, h1, h2, (h3 1).1.2 (by decide), (h3 1).2.2 (by decide)⟩
  · exact (C12_opt_cursor_and_bound Placement.front 2 (by decide) "12".toList [1, 2, 1]).2
      (by decide)

/-! ## The assertion of `remove_page` -/

theorem ne_nil_of_full {V : Type} (frame : UMap V) (c : Nat) (hc : 0 < c)
    (h : decide (UMap.size frame ≥ c) = true) : frame ≠ [] := by
  intro hnil
  rw [hnil] at h
  simp [UMap.size] at h
  omega

/-- C14: for each of the three tables constructed with positive capacity,
after any sequence of `get` calls a further `get` completes, and whenever the
table is full, so that `add_page` calls `remove_page`, the resident map (and
the queue of FIFO, the list of LRU) is non-empty and `remove_page` passes its
assertion. -/
theorem C14_remove_page_assertion_holds (P : Placement) (c : Nat) (hc : 0 < c)
    (ids : List page_id) (id : page_id) :
    (∃ t r, FifoTable.after P c ids = some t ∧ FifoTable.get_impl P t id = some r ∧
      (t.full_impl = true → t.frame_ ≠ [] ∧ t.queue_ ≠ [] ∧
        ∃ t1, FifoTable.remove_page { t with faults_ := t.faults_ + 1 } = some t1)) ∧
    (∃ t r, LruTable.after P c ids = some t ∧ LruTable.get_impl P t id = some r ∧
      (t.full_impl = true → t.frame_ ≠ [] ∧ t.list_ ≠ [] ∧
        ∃ t1, LruTable.remove_page { t with faults_ := t.faults_ + 1 } = some t1)) ∧
    (∀ ref_str : List Char, ids.length < ref_str.length →
      ∃ t r, OptTable.after P c ref_str ids = some t ∧ OptTable.get_impl P t id = some r ∧
        (t.full_impl = true → t.frame_ ≠ [] ∧
          ∃ t1, OptTable.remove_page P { t with faults_ := t.faults_ + 1 } = some t1)) := by
  refine ⟨?_, ?_, ?_⟩
  · obtain ⟨t, h1, hinv, hcap⟩ := FifoTable.fifo_after_inv P c hc ids
    obtain ⟨t2, h2, -⟩ := FifoTable.fifo_get_impl_spec P t id hinv
    refine ⟨t, _, h1, h2, ?_⟩
    intro hfull
    have hne : t.frame_ ≠ [] := ne_nil_of_full t.frame_ t.capacity_ hinv.cap_pos hfull
    have hlen := FifoTable.fifo_length_queue t hinv
    cases hq : t.queue_ with
    | nil =>
      rw [hq] at hlen
      exact absurd (List.length_eq_zero.1 (by simpa [UMap.size] using hlen.symm)) hne
    | cons v rest =>
      refine ⟨hne, List.cons_ne_nil _ _, ?_⟩
      simp [FifoTable.remove_page, hq]
  · obtain ⟨t, h1, hinv, hcap⟩ := LruTable.lru_after_inv P c hc ids
    obtain ⟨t2, h2, -⟩ := LruTable.lru_get_impl_spec P t id hinv
    refine ⟨t, _, h1, h2, ?_⟩
    intro hfull
    have hne : t.frame_ ≠ [] := ne_nil_of_full t.frame_ t.capacity_ hinv.cap_pos hfull
    have hlen := LruTable.length_list t hinv.wf
    cases hq : t.list_ with
    | nil =>
      rw [hq] at hlen
      exact absurd (List.length_eq_zero.1 (by simpa [UMap.size] using hlen.symm)) hne
    | cons v rest =>
      refine ⟨hne, List.cons_ne_nil _ _, ?_⟩
      simp [LruTable.remove_page, hq]
  · intro ref_str hlen
    obtain ⟨t, h1, hinv, hcap, hr, hm⟩ :=
      OptTable.opt_after_inv P c hc ref_str ids (le_of_lt hlen)
    obtain ⟨t2, h2, -⟩ := OptTable.opt_get_impl_spec P ref_str t id hinv (by omega)
    refine ⟨t, _, h1, h2, ?_⟩
    intro hfull
    have hne : t.frame_ ≠ [] := ne_nil_of_full t.frame_ t.capacity_ hinv.cap_pos hfull
    exact ⟨hne, OptTable.opt_remove_page_isSome P { t with faults_ := t.faults_ + 1 } hne⟩

/-- Witness of C14: capacity 2, the calls 1, 2 fill the table and `get(3)`
evicts; the `OptTable` is built from "1231". -/
theorem C14_remove_page_assertion_holds_witness :
    (∃ t r, FifoTable.after Placement.front 2 [1, 2] = some t ∧
      FifoTable.get_impl Placement.front t 3 = some r ∧ t.full_impl = true ∧
      t.frame_ ≠ [] ∧ t.queue_ ≠ [] ∧
      ∃ t1, FifoTable.remove_page { t with faults_ := t.faults_ + 1 } = some t1) ∧
    (∃ t r, OptTable.after Placement.front 2 "1231".toList [1, 2] = some t ∧
      OptTable.get_impl Placement.front t 3 = some r ∧ t.full_impl = true ∧
      t.frame_ ≠ [] ∧
      ∃ t1, OptTable.remove_page Placement.front
        { t with faults_ := t.faults_ + 1 } = some t1) := by
  refine ⟨?_, ?_⟩
  · obtain ⟨t, r, h1, h2, h3⟩ :=
      (C14_remove_page_assertion_holds Placement.front 2 (by decide) [1, 2] 3).1
    have h0 : FifoTable.after Placement.front 2 [1, 2] =
        some ⟨2, 2, [1, 2], [(2, ⟨2⟩), (1, ⟨1⟩)]⟩ := by decide
    rw [h0] at h1
    cases h1
    exact ⟨_, r, h0, h2, by decide, h3 (by decide)⟩
  · obtain ⟨t, r, h1, h2, h3⟩ :=
      (C14_remove_page_assertion_holds Placement.front 2 (by decide) [1, 2] 3).2.2
        "1231".toList (by decide)
    have h0 : OptTable.after Placement.front 2 "1231".toList [1, 2] =
        some ⟨2, 2, 4, 2, [(3, [2]), (2, [1]), (1, [0, 3])], [(2, ⟨2⟩), (1, ⟨1⟩)]⟩ := by
      decide
    rw [h0] at h1
    cases h1
    exact ⟨_, r, h0, h2, by decide, h3 (by decide)⟩

/-! ## The order structures of FIFO and LRU -/

/-- C15: in a `FifoTable` of positive capacity, after every sequence of `get`
calls the queue has no duplicate ids, holds exactly the keys of the resident
map, and lists them by increasing time of last insertion. -/
theorem C15_fifo_queue_invariant (P : Placement) (c : Nat) (hc : 0 < c)
    (ids : List page_id) :
    ∃ t, FifoTable.after P c ids = some t ∧ t.queue_.Nodup ∧
      (∀ k, k ∈ t.queue_ ↔ resident t.frame_ k) ∧
      (∀ k, k ∈ t.queue_ → ∃ n, FifoTable.insert_time P c ids k = some n) ∧
      t.queue_.Pairwise (FifoTable.inserted_before P c ids) := by
  obtain ⟨t, h1, hinv, -⟩ := FifoTable.fifo_after_inv P c hc ids
  obtain ⟨h2, h3⟩ := FifoTable.fifo_queue_times P c hc ids t h1
  exact ⟨t, h1, hinv.queue_perm.nodup_iff.2 hinv.nodup,
    fun k => FifoTable.fifo_mem_queue_iff t hinv k, h2, h3⟩

/-- Witness of C15: capacity 2 and the calls 1, 2, 1, 3. -/
theorem C15_fifo_queue_invariant_witness :
    ∃ t, FifoTable.after Placement.front 2 [1, 2, 1, 3] = some t ∧ t.queue_.Nodup ∧
      (∀ k, k ∈ t.queue_ ↔ resident t.frame_ k) ∧
      (∀ k, k ∈ t.queue_ →
        ∃ n, FifoTable.insert_time Placement.front 2 [1, 2, 1, 3] k = some n) ∧
      t.queue_.Pairwise (FifoTable.inserted_before Placement.front 2 [1, 2, 1, 3]) :=
  C15_fifo_queue_invariant Placement.front 2 (by decide) [1, 2, 1, 3]

/-- C16: in an `LruTable` of positive capacity, after any sequence of `get`
calls a further `get(id)` leaves `id` at the back of the recency list; when it
hits, the node of `id` itself is moved, and the list of ids becomes the old one
with `id` removed, followed by `id`, so the other entries keep their relative
order. -/
theorem C16_lru_relocates_to_back (P : Placement) (c : Nat) (hc : 0 < c)
    (ids : List page_id) (id : page_id) :
    ∃ t r, LruTable.after P c ids = some t ∧ LruTable.get_impl P t id = some r ∧
      r.2.ids.getLast? = some id ∧
      (resident t.frame_ id →
        r.2.ids = t.ids.filter (fun x => decide (x ≠ id)) ++ [id] ∧
        ∃ n, (n, (⟨id⟩ : Page)) ∈ t.list_ ∧
          r.2.list_ = t.list_.filter (fun e => decide (e.1 ≠ n)) ++ [(n, ⟨id⟩)]) := by
  obtain ⟨t, h1, hinv, -⟩ := LruTable.lru_after_inv P c hc ids
  obtain ⟨t2, h2, -, -, h3⟩ := LruTable.lru_step_ids P t id hinv
  refine ⟨t, _, h1, h2, ?_, ?_⟩
  · show t2.ids.getLast? = some id
    rw [h3]
    unfold lru_touch
    split
    · exact List.getLast?_concat _
    · exact List.getLast?_concat _
  · intro hres
    obtain ⟨n, hn, h4, -, h5⟩ := LruTable.lru_get_impl_hit P t id hinv hres
    rw [h2] at h4
    cases h4
    exact ⟨h5, n, hn, rfl⟩

/-- Witness of C16: capacity 2, the calls 1, 2 followed by `get(1)`, a hit
that moves the node of id 1 behind the node of id 2. -/
theorem C16_lru_relocates_to_back_witness :
    ∃ t r, LruTable.after Placement.front 2 [1, 2] = some t ∧
      LruTable.get_impl Placement.front t 1 = some r ∧
      r.2.ids.getLast? = some 1 ∧ resident t.frame_ 1 ∧
      r.2.ids = t.ids.filter (fun x => decide (x ≠ 1)) ++ [1] ∧
      ∃ n, (n, (⟨1⟩ : Page)) ∈ t.list_ ∧
        r.2.list_ = t.list_.filter (fun e => decide (e.1 ≠ n)) ++ [(n, ⟨1⟩)] := by
  obtain ⟨t, r, h1, h2, h3, h4⟩ :=
    C16_lru_relocates_to_back Placement.front 2 (by decide) [1, 2] 1
  have h0 : LruTable.after Placement.front 2 [1, 2] =
      some ⟨2, 2, [(0, ⟨1⟩), (1, ⟨2⟩)], 2, [(2, some 1), (1, some 0)]⟩ := by decide
  rw [h0] at h1
  cases h1
  have hres : resident [(2, (some 1 : iterator)), ((1 : page_id), some 0)] 1 := by decide
  exact ⟨_, r, h0, h2, h3, hres, (h4 hres).1, (h4 hres).2⟩

/-! ## The future-occurrence index is built once and then only read -/

theorem positions_sorted (ref_str : List Char) (d : page_id) :
    (positions ref_str d).Sorted (· < ·) :=
  (List.sorted_lt_range ref_str.length).filter _

theorem mem_positions (ref_str : List Char) (d : page_id) (i : Nat) :
    i ∈ positions ref_str d ↔ (ref_str[i]?).map char_id = some d := by
  unfold positions
  rw [List.mem_filter, List.mem_range]
  constructor
  · intro h
    simpa using h.2
  · intro h
    refine ⟨?_, by simpa using h⟩
    by_contra hcon
    rw [List.getElem?_eq_none (not_lt.1 hcon)] at h
    simp at h

theorem occurrences_eq_positions (ref_str : List Char) (d : page_id) :
    occurrences ref_str 0 d = positions ref_str d := by
  apply List.eq_of_perm_of_sorted ?_ (occurrences_sorted ref_str 0 d) (positions_sorted ref_str d)
  refine (List.perm_ext_iff_of_nodup (occurrences_sorted ref_str 0 d).nodup
    (positions_sorted ref_str d).nodup).2 ?_
  intro i
  rw [mem_occurrences, mem_positions, Nat.sub_zero]
  simp

namespace OptTable

theorem opt_keys_build_future (P : Placement) (rest : List Char) :
    ∀ (i : Nat) (m : UMap (List Nat)) (k : page_id),
      k ∈ UMap.keys (build_future P rest i m) → k ∈ UMap.keys m ∨ k ∈ rest.map char_id := by
  induction rest with
  | nil => intro i m k hk; exact Or.inl hk
  | cons ch rest ih =>
    intro i m k hk
    rcases ih (i + 1) _ k hk with h | h
    · rw [UMap.keys_set] at h
      by_cases hm : char_id ch ∈ UMap.keys m
      · rw [(UMap.subscript_of_mem P m _ hm).1] at h
        exact Or.inl h
      · rw [UMap.subscript_of_not_mem P m _ hm] at h
        rcases List.mem_cons.1 ((UMap.keys_place P m _).mem_iff.1 h) with h | h
        · exact Or.inr (by rw [h]; exact List.mem_map.2 ⟨ch, List.mem_cons_self _ _, rfl⟩)
        · exact Or.inl h
    · exact Or.inr (by
        rw [List.map_cons]
        exact List.mem_cons_of_mem _ h)

theorem opt_new_future (P : Placement) (c : Nat) (ref_str : List Char) :
    (UMap.keys (new P c ref_str).future_).Nodup ∧
    ∀ d, UMap.read (new P c ref_str).future_ d = positions ref_str d := by
  obtain ⟨h1, h2⟩ := build_future_spec P ref_str 0 [] (by simp [UMap.keys])
  refine ⟨h1, ?_⟩
  intro d
  show UMap.read (build_future P ref_str 0 []) d = _
  rw [h2 d, occurrences_eq_positions]
  simp only [UMap.read, UMap.find, Option.getD_none]
  exact List.nil_append _

/-- A completed `get` leaves unchanged what `future_` records, for any table
whatever its capacity. -/
theorem opt_get_impl_future (P : Placement) (t : OptTable) (id : page_id)
    (r : Page × OptTable) (hnd : (UMap.keys t.future_).Nodup)
    (h : get_impl P t id = some r) :
    (UMap.keys r.2.future_).Nodup ∧ ∀ d, UMap.read r.2.future_ d = UMap.read t.future_ d := by
  unfold get_impl at h
  split at h
  · cases hfind : UMap.find t.frame_ id with
    | some page =>
      rw [hfind] at h
      simp only [Option.some.injEq] at h
      subst h
      exact ⟨hnd, fun _ => rfl⟩
    | none =>
      rw [hfind] at h
      simp only at h
      cases hadd : add_page P { t with faults_ := t.faults_ + 1 } id with
      | none => rw [hadd] at h; cases h
      | some t2 =>
        rw [hadd] at h
        simp only [Option.some.injEq] at h
        subst h
        show (UMap.keys t2.future_).Nodup ∧ ∀ d, UMap.read t2.future_ d = UMap.read t.future_ d
        unfold add_page at hadd
        cases hfull : full_impl { t with faults_ := t.faults_ + 1 } with
        | false =>
          rw [hfull] at hadd
          simp only [Bool.false_eq_true, if_false, Option.some.injEq] at hadd
          subst hadd
          exact ⟨hnd, fun _ => rfl⟩
        | true =>
          rw [hfull, if_pos rfl] at hadd
          cases hrp : remove_page P { t with faults_ := t.faults_ + 1 } with
          | none => rw [hrp] at hadd; cases hadd
          | some t1 =>
            rw [hrp] at hadd
            simp only [Option.some.injEq] at hadd
            subst hadd
            have hne : t.frame_ ≠ [] := by
              intro hnil
              rw [opt_remove_page_nil P { t with faults_ := t.faults_ + 1 } hnil] at hrp
              cases hrp
            obtain ⟨v, t1', hrp', -, -, -, -, -, -, -, h9, h10⟩ :=
              remove_page_spec P { t with faults_ := t.faults_ + 1 } hnd hne
            rw [hrp] at hrp'
            cases hrp'
            exact ⟨h9, h10⟩
  · cases h

theorem opt_run_future (P : Placement) (ids : List page_id) :
    ∀ (t t2 : OptTable), (UMap.keys t.future_).Nodup → run P t ids = some t2 →
      (UMap.keys t2.future_).Nodup ∧ ∀ d, UMap.read t2.future_ d = UMap.read t.future_ d := by
  induction ids with
  | nil =>
    intro t t2 hnd h
    simp only [run, Option.some.injEq] at h
    subst h
    exact ⟨hnd, fun _ => rfl⟩
  | cons x ids ih =>
    intro t t2 hnd h
    simp only [run] at h
    cases hg : get_impl P t x with
    | none => rw [hg] at h; cases h
    | some r =>
      rw [hg] at h
      obtain ⟨h1, h2⟩ := opt_get_impl_future P t x r hnd hg
      obtain ⟨h3, h4⟩ := ih r.2 t2 h1 h
      exact ⟨h3, fun d => (h4 d).trans (h2 d)⟩

end OptTable

/-- C17: the constructor of `OptTable` records for each id `d` exactly the
positions `i` with `ref_str[i] - '0' = d`, in strictly ascending order, with
no entry at all for an id that does not occur; and however many `get` calls
complete afterwards, whatever the capacity, the positions recorded for every
id stay the same. -/
theorem C17_future_index (P : Placement) (c : Nat) (ref_str : List Char) (d : page_id) :
    UMap.read (OptTable.new P c ref_str).future_ d = positions ref_str d ∧
    (positions ref_str d).Sorted (· < ·) ∧
    (∀ i, i ∈ positions ref_str d ↔ (ref_str[i]?).map char_id = some d) ∧
    (d ∉ part1b_ids ref_str → UMap.find (OptTable.new P c ref_str).future_ d = none) ∧
    (∀ (ids : List page_id) (t : OptTable), OptTable.after P c ref_str ids = some t →
      UMap.read t.future_ d = positions ref_str d) := by
  obtain ⟨hnd, hread⟩ := OptTable.opt_new_future P c ref_str
  refine ⟨hread d, positions_sorted ref_str d, mem_positions ref_str d, ?_, ?_⟩
  · intro hd
    rw [UMap.find_eq_none_iff]
    intro hk
    rcases OptTable.opt_keys_build_future P ref_str 0 [] d hk with h | h
    · simp [UMap.keys] at h
    · exact hd h
  · intro ids t ht
    obtain ⟨-, h2⟩ := OptTable.opt_run_future P ids _ t hnd ht
    rw [h2 d, hread d]

/-- Witness of C17: capacity 2 and "1231"; id 9 does not occur, and after
the calls 1, 2, 3 the positions of id 1 are still 0 and 3. -/
theorem C17_future_index_witness :
    UMap.find (OptTable.new Placement.front 2 "1231".toList).future_ 9 = none ∧
    UMap.read
      (⟨2, 3, 4, 3, [(3, [2]), (2, [1]), (1, [0, 3])], [(3, ⟨3⟩), (1, ⟨1⟩)]⟩ :
        OptTable).future_ 1 = positions "1231".toList 1 :=
  ⟨(C17_future_index Placement.front 2 "1231".toList 9).2.2.2.1 (by decide),
   (C17_future_index Placement.front 2 "1231".toList 1).2.2.2.2 [1, 2, 3]
     ⟨2, 3, 4, 3, [(3, [2]), (2, [1]), (1, [0, 3])], [(3, ⟨3⟩), (1, ⟨1⟩)]⟩ (by decide)⟩

/-! ## The ids passed by the driver loops -/

theorem char_id_ne_code (ch : Char) : char_id ch ≠ (ch.toNat : Int) := by
  intro h
  have h2 : (ch.toNat : Int) - 48 = (ch.toNat : Int) := h
  omega

/-- C18: at every position of every reference string the Part 1b loop passes
`page - '0'`, the id under which the constructor recorded that position, but
the Part 3a loop passes the character code `page`, under which the position
is not recorded; on the dataset line "012320123201232012320123201232" with
frame size 3 the Part 3a count of `OptTable` is 24 when new entries go to the
back of the iteration order and 15 when they go to the front, where the ids
of Part 1b give 11, and `LruTable` gives 19. -/
theorem C18_part3a_passes_char_code (P : Placement) (c : Nat) (pre post : List Char)
    (ch : Char) :
    (part1b_ids (pre ++ ch :: post))[pre.length]? = some (char_id ch) ∧
    (part3a_ids (pre ++ ch :: post))[pre.length]? = some (ch.toNat : Int) ∧
    pre.length ∈ UMap.read (OptTable.new P c (pre ++ ch :: post)).future_ (char_id ch) ∧
    pre.length ∉ UMap.read (OptTable.new P c (pre ++ ch :: post)).future_ (ch.toNat : Int) ∧
    part3a_opt Placement.back 3 "012320123201232012320123201232".toList = some 24 ∧
    part3a_opt Placement.front 3 "012320123201232012320123201232".toList = some 15 ∧
    part1b_opt Placement.back 3 "012320123201232012320123201232".toList = some 11 ∧
    part3a_lru Placement.back 3 "012320123201232012320123201232".toList = some 19 := by
  have hget : (pre ++ ch :: post)[pre.length]? = some ch := by
    rw [List.getElem?_append_right (le_refl _)]
    simp
  have hmem : ∀ d, pre.length ∈ UMap.read (OptTable.new P c (pre ++ ch :: post)).future_ d ↔
      char_id ch = d := by
    intro d
    rw [(OptTable.opt_new_future P c (pre ++ ch :: post)).2 d, mem_positions, hget]
    simp
  refine ⟨by rw [part1b_ids_getElem?, hget]; rfl,
    by rw [part3a_ids, List.getElem?_map, hget]; rfl, (hmem _).2 rfl, ?_,
    by decide, by decide, by decide, by decide⟩
  intro h
  exact char_id_ne_code ch ((hmem _).1 h)

/-! ## The range of `next_request_distance` -/

/-- On a strictly ascending list of positions below the maximum of the request
type, `next_request_distance` returns the maximum exactly when no position
lies after the cursor, and otherwise `p - r` for the smallest position `p`
after the cursor `r`, a value that is at least 1 and differs from the
maximum. -/
theorem next_request_distance_iff (t : OptTable) (idxs : List Nat)
    (hs : idxs.Sorted (· < ·)) (hb : ∀ q ∈ idxs, q < request_max) :
    (t.next_request_distance idxs = request_max ↔ ∀ q ∈ idxs, q ≤ t.request_) ∧
    (∀ p ∈ idxs, t.request_ < p → (∀ q ∈ idxs, t.request_ < q → p ≤ q) →
      t.next_request_distance idxs = p - t.request_ ∧
      1 ≤ t.next_request_distance idxs ∧
      t.next_request_distance idxs ≠ request_max) := by
  have hspec := OptTable.next_request_distance_spec t idxs hs hb
  refine ⟨⟨?_, ?_⟩, ?_⟩
  · intro hmax
    rcases hspec with ⟨-, hall⟩ | ⟨q, -, -, -, -, hlt⟩
    · exact hall
    · omega
  · intro hall
    rcases hspec with ⟨hmax, -⟩ | ⟨q, hq, hrq, -⟩
    · exact hmax
    · have := hall q hq
      omega
  · intro p hp hrp hmin
    rcases hspec with ⟨-, hall⟩ | ⟨q, hq, hrq, hqmin, hdist, hlt⟩
    · have := hall p hp
      omega
    · have e1 := hmin q hq hrq
      have e2 := hqmin p hp hrp
      have : q = p := le_antisymm e2 e1
      subst this
      exact ⟨hdist, by omega, by omega⟩

/-- C20: on every list `next_request_distance` is called with, the positions
`future_[d]` of an id `d` in a table reached from the constructor by any run
of `get` calls, and for every cursor value `r`: the list is strictly
ascending; the function returns the maximum of the request type exactly when
the list has no element strictly greater than `r`; and otherwise it returns
`p - r` for the smallest element `p` strictly greater than `r`, a distance
that is at least 1 and never equals that maximum. -/
theorem C20_next_request_distance (P : Placement) (c : Nat) (ref_str : List Char)
    (hlen : ref_str.length < 2 ^ 64) (ids : List page_id) (t : OptTable)
    (hafter : OptTable.after P c ref_str ids = some t) (d : page_id) (r : Nat) :
    (UMap.read t.future_ d).Sorted (· < ·) ∧
    (OptTable.next_request_distance { t with request_ := r } (UMap.read t.future_ d)
        = request_max ↔ ∀ q ∈ UMap.read t.future_ d, q ≤ r) ∧
    (∀ p ∈ UMap.read t.future_ d, r < p →
      (∀ q ∈ UMap.read t.future_ d, r < q → p ≤ q) →
      OptTable.next_request_distance { t with request_ := r } (UMap.read t.future_ d)
        = p - r ∧
      1 ≤ OptTable.next_request_distance { t with request_ := r } (UMap.read t.future_ d) ∧
      OptTable.next_request_distance { t with request_ := r } (UMap.read t.future_ d)
        ≠ request_max) := by
  obtain ⟨hnd, hread⟩ := OptTable.opt_new_future P c ref_str
  obtain ⟨-, h2⟩ := OptTable.opt_run_future P ids _ t hnd hafter
  have he : UMap.read t.future_ d = positions ref_str d := by rw [h2 d, hread d]
  have hs : (UMap.read t.future_ d).Sorted (· < ·) := by
    rw [he]
    exact positions_sorted ref_str d
  have hb : ∀ q ∈ UMap.read t.future_ d, q < request_max := by
    intro q hq
    rw [he, mem_positions] at hq
    have hq2 : q < ref_str.length := by
      by_contra hcon
      rw [List.getElem?_eq_none (not_lt.1 hcon)] at hq
      simp at hq
    unfold request_max
    omega
  have h := next_request_distance_iff { t with request_ := r } _ hs hb
  exact ⟨hs, h.1, h.2⟩

/-- Witness of C20: capacity 2 and "1231" after the calls 1, 2, 3; the
positions of id 1 are 0 and 3, and with the cursor at 1 the distance is
3 - 1. -/
theorem C20_next_request_distance_witness :
    "1231".toList.length < 2 ^ 64 ∧
    OptTable.after Placement.front 2 "1231".toList [1, 2, 3] =
      some ⟨2, 3, 4, 3, [(3, [2]), (2, [1]), (1, [0, 3])], [(3, ⟨3⟩), (1, ⟨1⟩)]⟩ ∧
    (3 : Nat) ∈ UMap.read
      (⟨2, 3, 4, 3, [(3, [2]), (2, [1]), (1, [0, 3])], [(3, ⟨3⟩), (1, ⟨1⟩)]⟩ :
        OptTable).future_ 1 ∧
    OptTable.next_request_distance ⟨2, 3, 4, 1, [(3, [2]), (2, [1]), (1, [0, 3])],
      [(3, ⟨3⟩), (1, ⟨1⟩)]⟩ [0, 3] = 3 - 1 ∧
    1 ≤ OptTable.next_request_distance ⟨2, 3, 4, 1, [(3, [2]), (2, [1]), (1, [0, 3])],
      [(3, ⟨3⟩), (1, ⟨1⟩)]⟩ [0, 3] ∧
    OptTable.next_request_distance ⟨2, 3, 4, 1, [(3, [2]), (2, [1]), (1, [0, 3])],
      [(3, ⟨3⟩), (1, ⟨1⟩)]⟩ [0, 3] ≠ request_max :=
  ⟨by decide, by decide, by decide,
   (C20_next_request_distance Placement.front 2 "1231".toList (by decide) [1, 2, 3]
      ⟨2, 3, 4, 3, [(3, [2]), (2, [1]), (1, [0, 3])], [(3, ⟨3⟩), (1, ⟨1⟩)]⟩ (by decide)
      1 1).2.2 3 (by decide) (by decide) (by decide)⟩

/-! ## LRU with one more frame -/

theorem filter_ne_eq_self (l : List page_id) (x : page_id) (h : x ∉ l) :
    l.filter (fun y => decide (y ≠ x)) = l := by
  apply List.filter_eq_self.2
  intro y hy
  have : y ≠ x := fun hyx => h (hyx ▸ hy)
  simpa using this

theorem not_mem_filter_ne (l : List page_id) (x : page_id) :
    x ∉ l.filter (fun y => decide (y ≠ x)) := by
  simp

theorem tail_append_singleton_suffix (A : List page_id) (x : page_id) :
    A.tail ++ [x] <:+ A ++ [x] := by
  cases A with
  | nil => exact List.suffix_refl _
  | cons a A => exact ⟨[a], rfl⟩

/-- One access keeps the two recency orders nested. -/
theorem lru_nested_step (c : Nat) (hc : 0 < c) (A B : List page_id) (x : page_id)
    (h : lru_nested c A B) : lru_nested c (lru_touch c A x) (lru_touch (c + 1) B x) := by
  obtain ⟨⟨Pre, hB⟩, hnd, hA, hBl, heq⟩ := h
  subst hB
  have hndA : A.Nodup := (List.nodup_append.1 hnd).2.1
  have hdisj : ∀ y, y ∈ Pre → y ∈ A → False := fun y h1 h2 => (List.nodup_append.1 hnd).2.2 h1 h2
  have hlen : Pre.length + A.length ≤ c + 1 := by
    rw [← List.length_append]; exact hBl
  by_cases hxA : x ∈ A
  · -- a hit in both lists
    have hxB : x ∈ Pre ++ A := List.mem_append_right _ hxA
    have hxP : x ∉ Pre := fun hh => hdisj x hh hxA
    have hA' : lru_touch c A x = A.filter (fun y => decide (y ≠ x)) ++ [x] := by
      rw [lru_touch, if_pos hxA]
    have hB' : lru_touch (c + 1) (Pre ++ A) x =
        Pre ++ (A.filter (fun y => decide (y ≠ x)) ++ [x]) := by
      rw [lru_touch, if_pos hxB, List.filter_append, filter_ne_eq_self Pre x hxP,
        List.append_assoc]
    have hlenA := UMap.length_filter_ne A x hndA hxA
    rw [hA', hB']
    refine ⟨⟨Pre, rfl⟩, ?_, ?_, ?_, ?_⟩
    · rw [← List.append_assoc]
      refine List.Nodup.append ?_ (List.nodup_singleton _) ?_
      · have := hnd.filter (fun y => decide (y ≠ x))
        rwa [List.filter_append, filter_ne_eq_self Pre x hxP] at this
      · intro y hy hyx
        rw [List.mem_singleton] at hyx
        subst hyx
        rcases List.mem_append.1 hy with h1 | h1
        · exact hxP h1
        · exact not_mem_filter_ne A y h1
    · rw [List.length_append, List.length_singleton]; omega
    · rw [List.length_append, List.length_append, List.length_singleton]; omega
    · intro hlt
      rw [List.length_append, List.length_singleton] at hlt
      have := heq (by omega)
      have hP : Pre = [] := by
        have h2 := congrArg List.length this
        rw [List.length_append] at h2
        exact List.length_eq_zero.1 (by omega)
      rw [hP]
      rfl
  · by_cases hfull : A.length < c
    · -- neither list is full: both append
      have hAB := heq hfull
      have hP : Pre = [] := by
        have h2 := congrArg List.length hAB
        rw [List.length_append] at h2
        exact List.length_eq_zero.1 (by omega)
      subst hP
      simp only [List.nil_append] at hnd ⊢
      have hA' : lru_touch c A x = A ++ [x] := by
        rw [lru_touch, if_neg hxA, if_neg (by omega)]
      have hB' : lru_touch (c + 1) A x = A ++ [x] := by
        rw [lru_touch, if_neg hxA, if_neg (by omega)]
      rw [hA', hB']
      refine ⟨List.suffix_refl _, ?_, ?_, ?_, fun _ => rfl⟩
      · refine List.Nodup.append hndA (List.nodup_singleton _) ?_
        intro y hy hyx
        rw [List.mem_singleton] at hyx
        exact hxA (hyx ▸ hy)
      · rw [List.length_append, List.length_singleton]; omega
      · rw [List.length_append, List.length_singleton]; omega
    · -- the smaller list is full: it drops its front, the larger one keeps `A`
      have hAc : A.length = c := by omega
      have hA' : lru_touch c A x = A.tail ++ [x] := by
        rw [lru_touch, if_neg hxA, if_pos (by omega)]
      have hPl : Pre.length ≤ 1 := by omega
      have hB' : lru_touch (c + 1) (Pre ++ A) x = A ++ [x] := by
        by_cases hxP : x ∈ Pre
        · have hP : Pre = [x] := by
            cases Pre with
            | nil => simp at hxP
            | cons p rest =>
              have hr : rest = [] := List.length_eq_zero.1 (by
                have h1 := hPl
                rw [List.length_cons] at h1
                omega)
              subst hr
              simp at hxP
              rw [hxP]
          subst hP
          rw [lru_touch, if_pos (List.mem_append_left _ hxP), List.filter_append,
            filter_ne_eq_self A x hxA]
          simp
        · have hxB : x ∉ Pre ++ A := fun hh => by
            rcases List.mem_append.1 hh with h1 | h1
            · exact hxP h1
            · exact hxA h1
          rw [lru_touch, if_neg hxB]
          cases Pre with
          | nil =>
            simp only [List.nil_append]
            rw [if_neg (by omega)]
          | cons p rest =>
            have hr : rest = [] := List.length_eq_zero.1 (by
              have h1 := hPl
              rw [List.length_cons] at h1
              omega)
            subst hr
            rw [if_pos (by simp; omega)]
            rfl
      rw [hA', hB']
      refine ⟨tail_append_singleton_suffix A x, ?_, ?_, ?_, ?_⟩
      · refine List.Nodup.append hndA (List.nodup_singleton _) ?_
        intro y hy hyx
        rw [List.mem_singleton] at hyx
        exact hxA (hyx ▸ hy)
      · rw [List.length_append, List.length_singleton, List.length_tail]; omega
      · rw [List.length_append, List.length_singleton]; omega
      · intro hlt
        rw [List.length_append, List.length_singleton, List.length_tail] at hlt
        omega

theorem lru_nested_foldl (c : Nat) (hc : 0 < c) (ids : List page_id) :
    ∀ A B, lru_nested c A B →
      lru_nested c (ids.foldl (lru_touch c) A) (ids.foldl (lru_touch (c + 1)) B) := by
  induction ids with
  | nil => intro A B h; exact h
  | cons x ids ih =>
    intro A B h
    exact ih _ _ (lru_nested_step c hc A B x h)

theorem lru_nested_faults (c : Nat) (hc : 0 < c) (ids : List page_id) :
    ∀ A B, lru_nested c A B → lru_faults (c + 1) B ids ≤ lru_faults c A ids := by
  induction ids with
  | nil => intro A B _; exact le_refl _
  | cons x ids ih =>
    intro A B h
    have hstep := ih _ _ (lru_nested_step c hc A B x h)
    simp only [lru_faults]
    by_cases hxA : x ∈ A
    · rw [if_pos hxA, if_pos (h.1.subset hxA)]
      omega
    · rw [if_neg hxA]
      split <;> omega

theorem LruTable.lru_after_faults (P : Placement) (c : Nat) (hc : 0 < c)
    (ids : List page_id) :
    ∃ t, after P c ids = some t ∧ Inv t ∧ t.ids = ids.foldl (lru_touch c) [] ∧
      t.faults_ = lru_faults c [] ids := by
  obtain ⟨t, h1, h2, -, h4⟩ := lru_ids_after P c hc ids
  obtain ⟨h5, h6⟩ := lru_inv_new c hc
  obtain ⟨t2, h7, h8⟩ := lru_faults_run P ids _ h6
  have : after P c ids = some t2 := by simp only [after, h5, h7]
  rw [h1] at this
  cases this
  refine ⟨t, h1, h2, h4, ?_⟩
  rw [h8]
  show 0 + lru_faults c [] ids = lru_faults c [] ids
  exact Nat.zero_add _

/-- C19: fed the same access sequence, an `LruTable` of positive capacity `c`
and one of capacity `c + 1` are such that after every access each id resident
in the smaller table is resident in the larger one, and the larger table has
at most as many faults. -/
theorem C19_lru_inclusion (P1 P2 : Placement) (c : Nat) (hc : 0 < c) (ids : List page_id) :
    ∃ t1 t2, LruTable.after P1 c ids = some t1 ∧ LruTable.after P2 (c + 1) ids = some t2 ∧
      (∀ k, resident t1.frame_ k → resident t2.frame_ k) ∧
      t2.faults_impl ≤ t1.faults_impl := by
  obtain ⟨t1, h1, hinv1, hids1, hf1⟩ := LruTable.lru_after_faults P1 c hc ids
  obtain ⟨t2, h2, hinv2, hids2, hf2⟩ := LruTable.lru_after_faults P2 (c + 1) (by omega) ids
  have h0 : lru_nested c [] [] :=
    ⟨List.suffix_refl _, List.nodup_nil, Nat.zero_le _, Nat.zero_le _, fun _ => rfl⟩
  have hn := lru_nested_foldl c hc ids [] [] h0
  refine ⟨t1, t2, h1, h2, ?_, ?_⟩
  · intro k hk
    have hk1 : k ∈ t1.ids := (LruTable.lru_mem_ids_iff t1 hinv1.wf k).2 hk
    rw [hids1] at hk1
    have hk2 := hn.1.subset hk1
    rw [← hids2] at hk2
    exact (LruTable.lru_mem_ids_iff t2 hinv2.wf k).1 hk2
  · show t2.faults_ ≤ t1.faults_
    rw [hf1, hf2]
    exact lru_nested_faults c hc ids [] [] h0

/-- Witness of C19: capacities 2 and 3 on the calls 1, 2, 3, 1, 2. -/
theorem C19_lru_inclusion_witness :
    ∃ t1 t2, LruTable.after Placement.front 2 [1, 2, 3, 1, 2] = some t1 ∧
      LruTable.after Placement.back (2 + 1) [1, 2, 3, 1, 2] = some t2 ∧
      (∀ k, resident t1.frame_ k → resident t2.frame_ k) ∧
      t2.faults_impl ≤ t1.faults_impl :=
  C19_lru_inclusion Placement.front Placement.back 2 (by decide) [1, 2, 3, 1, 2]

/-! ## OPT with the tie left open -/

/-- Evicting a resident id that is needed last attains the minimum. -/
theorem min_faults_farthest (c : Nat) (hc : 0 < c) (S : Finset page_id) (x v : page_id)
    (rem : List page_id) (hxS : x ∉ S) (hfull : ¬ S.card < c) (hcard : S.card ≤ c)
    (hvS : v ∈ S) (hfar : ∀ w ∈ S, rem.indexOf w ≤ rem.indexOf v) :
    min_faults c S (x :: rem) = 1 + min_faults c (insert x (S.erase v)) rem := by
  rw [min_faults_evict c S x rem hxS hfull ⟨v, hvS⟩]
  congr 1
  apply le_antisymm (Finset.inf'_le _ hvS)
  apply Finset.le_inf'
  intro w hw
  by_cases hwv : w = v
  · rw [hwv]
  · have hwx : w ≠ x := fun h => hxS (h ▸ hw)
    have hvx : x ≠ v := fun h => hxS (h ▸ hvS)
    rw [fs_I4 S v x w hw hwv hvx]
    exact ((min_faults_exchange c hc rem).1 (insert x (S.erase w)) v w
      (by simp [hvS, Ne.symm hwv]) (by simp [hwx])
      (by rw [card_swap S w x hw hxS]; exact hcard)).2 (hfar w hw)

theorem indexOf_le_of_occurrence_distance_le (ref_str : List Char) (p : Nat) (w v : page_id)
    (h : occurrence_distance ref_str p w ≤ occurrence_distance ref_str p v) :
    ((part1b_ids ref_str).drop (p + 1)).indexOf w ≤
      ((part1b_ids ref_str).drop (p + 1)).indexOf v := by
  have iw := indexOf_drop_next_occurrence ref_str p w
  have iv := indexOf_drop_next_occurrence ref_str p v
  unfold occurrence_distance at h
  cases h1 : next_occurrence ref_str p v with
  | none =>
    rw [h1] at iv
    simp only at iv
    rw [iv]
    exact List.indexOf_le_length
  | some qv =>
    rw [h1] at iv h
    simp only at iv h
    cases h2 : next_occurrence ref_str p w with
    | none =>
      rw [h2] at h
      simp only [top_le_iff] at h
      exact absurd h (ENat.coe_ne_top _)
    | some qw =>
      rw [h2] at iw h
      simp only at iw h
      have hle : qw - p ≤ qv - p := by exact_mod_cast h
      have hw := (next_occurrence_some ref_str p w qw h2).2.1
      have hv := (next_occurrence_some ref_str p v qv h1).2.1
      rw [iw, iv]
      omega

theorem drop_eq_cons_of_getElem? (l : List page_id) (p : Nat) (x : page_id)
    (h : l[p]? = some x) : l.drop p = x :: l.drop (p + 1) := by
  obtain ⟨hp, hx⟩ := List.getElem?_eq_some.1 h
  rw [List.drop_eq_getElem_cons hp, hx]

/-- Every run of the open-tie OPT policy incurs the minimal number of faults. -/
theorem opt_choice_run_min (c : Nat) (hc : 0 < c) (ref_str : List Char) (p : Nat)
    (S : Finset page_id) (n : Nat) (h : OptChoiceRun c ref_str p S n) :
    S.card ≤ c → n = min_faults c S ((part1b_ids ref_str).drop p) := by
  induction h with
  | done p S hp =>
    intro _
    rw [List.drop_eq_nil_of_le (by simpa [part1b_ids] using hp)]
    rfl
  | hit p S n x hx hxS _ ih =>
    intro hcard
    rw [drop_eq_cons_of_getElem? _ p x hx, min_faults_hit c S x _ hxS]
    exact ih hcard
  | fill p S n x hx hxS hlt _ ih =>
    intro hcard
    rw [drop_eq_cons_of_getElem? _ p x hx, min_faults_fill c S x _ hxS hlt,
      ← ih (by rw [Finset.card_insert_of_not_mem hxS]; omega)]
    omega
  | evict p S n x v hx hxS hge hvS hfar _ ih =>
    intro hcard
    rw [drop_eq_cons_of_getElem? _ p x hx,
      min_faults_farthest c hc S x v _ hxS (by omega) hcard hvS
        (fun w hw => indexOf_le_of_occurrence_distance_le ref_str p w v (hfar w hw)),
      ← ih (by rw [card_swap S v x hvS hxS]; exact hcard)]
    omega

namespace OptTable

/-- Fed the rest of its reference string, an `OptTable` performs a run of the
open-tie OPT policy, whatever the placement rule. -/
theorem opt_run_choice (P : Placement) (ref_str : List Char)
    (hlen : ref_str.length < 2 ^ 64) :
    ∀ (rem : List page_id) (t : OptTable), Inv ref_str t →
      rem = (part1b_ids ref_str).drop t.request_ →
      ∃ t2 n, run P t rem = some t2 ∧ t2.faults_ = t.faults_ + n ∧
        OptChoiceRun t.capacity_ ref_str t.request_ (resident_set t.frame_) n := by
  intro rem
  induction rem with
  | nil =>
    intro t _ hrem
    refine ⟨t, 0, rfl, rfl, OptChoiceRun.done _ _ ?_⟩
    have := List.drop_eq_nil_iff.1 hrem.symm
    simpa [part1b_ids] using this
  | cons x rem ih =>
    intro t hinv hrem
    have hl : (part1b_ids ref_str).length = ref_str.length := by simp [part1b_ids]
    have hp : t.request_ < (part1b_ids ref_str).length := by
      by_contra hcon
      rw [List.drop_eq_nil_of_le (not_lt.1 hcon)] at hrem
      cases hrem
    have hreq : t.request_ < t.max_requests_ := by rw [hinv.max_eq, ← hl]; exact hp
    have hx : (part1b_ids ref_str)[t.request_]? = some x := by
      rw [List.drop_eq_getElem_cons hp] at hrem
      rw [List.getElem?_eq_getElem hp, (List.cons.inj hrem).1]
    have hrem' : rem = (part1b_ids ref_str).drop (t.request_ + 1) := by
      rw [← List.drop_drop, ← hrem]
      rfl
    by_cases hres : resident t.frame_ x
    · obtain ⟨h0, hinv1⟩ := opt_get_impl_hit P ref_str t x hinv hreq hres
      obtain ⟨t2, n, h1, h2, h3⟩ := ih _ hinv1 hrem'
      exact ⟨t2, n, by simp only [run, h0, h1], h2,
        OptChoiceRun.hit _ _ _ x hx ((mem_resident_set _ _).2 hres) h3⟩
    · obtain ⟨t1, h1, hinv1, hcap, hfa, hrq, -, h5⟩ :=
        opt_get_impl_miss P ref_str t x hinv hreq hres
      obtain ⟨t2, n, h6, h7, h8⟩ := ih t1 hinv1 (by rw [hrq]; exact hrem')
      have hxS : x ∉ resident_set t.frame_ := fun h => hres ((mem_resident_set _ _).1 h)
      rw [hcap, hrq] at h8
      refine ⟨t2, n + 1, by simp only [run, h1, h6], by rw [h7, hfa]; omega, ?_⟩
      rcases h5 with ⟨hf, hperm⟩ | ⟨hf, v, hv, hmax, hperm⟩
      · have hlt := (not_full_iff_card t.frame_ t.capacity_ hinv.nodup).1 hf
        rw [resident_set_fill _ _ _ hperm] at h8
        exact OptChoiceRun.fill _ _ _ x hx hxS hlt h8
      · have hge : ¬ (resident_set t.frame_).card < t.capacity_ := by
          intro hlt
          have := (not_full_iff_card t.frame_ t.capacity_ hinv.nodup).2 hlt
          rw [show decide (UMap.size t.frame_ ≥ t.capacity_) = t.full_impl from rfl, hf] at this
          cases this
        rw [resident_set_evict _ _ _ _ hperm] at h8
        exact OptChoiceRun.evict _ _ _ x v hx hxS (not_lt.1 hge)
          ((mem_resident_set _ _).2 hv)
          (fun w hw => opt_distance_le ref_str t hinv hlen w v
            (hmax w ((mem_resident_set _ _).1 hw))) h8

end OptTable

/-- C13: for every positive capacity and every reference string, all runs of
OPT that may differ in which resident id of maximal next-occurrence distance
they evict end with the same fault count; the Part 1b run of `OptTable` is
such a run for every placement rule of its maps, so two runs that iterate the
resident map in different orders print the same `faults()`. -/
theorem C13_opt_tie_independent (c : Nat) (hc : 0 < c) (ref_str : List Char) :
    (∀ n1 n2, OptChoiceRun c ref_str 0 ∅ n1 → OptChoiceRun c ref_str 0 ∅ n2 → n1 = n2) ∧
    (ref_str.length < 2 ^ 64 →
      ∀ P : Placement, ∃ n, part1b_opt P c ref_str = some n ∧ OptChoiceRun c ref_str 0 ∅ n) ∧
    (ref_str.length < 2 ^ 64 →
      ∀ P1 P2 : Placement, part1b_opt P1 c ref_str = part1b_opt P2 c ref_str) := by
  refine ⟨?_, ?_, ?_⟩
  · intro n1 n2 h1 h2
    rw [opt_choice_run_min c hc ref_str 0 ∅ n1 h1 (by simp),
      opt_choice_run_min c hc ref_str 0 ∅ n2 h2 (by simp)]
  · intro hlen P
    obtain ⟨t2, n, h1, h2, h3⟩ := OptTable.opt_run_choice P ref_str hlen (part1b_ids ref_str)
      (OptTable.new P c ref_str) (OptTable.opt_inv_new P c ref_str hc) rfl
    refine ⟨n, ?_, ?_⟩
    · simp only [part1b_opt, h1, Option.map_some', OptTable.faults_impl, h2]
      simp [OptTable.new]
    · simpa [OptTable.new, resident_set, UMap.keys] using h3
  · intro hlen P1 P2
    rw [part1b_opt_eq P1 c hc ref_str hlen, part1b_opt_eq P2 c hc ref_str hlen]

theorem C13_opt_tie_independent_witness :
    (0 < 2) ∧ OptChoiceRun 2 "123".toList 0 ∅ 3 ∧ ("123".toList.length < 2 ^ 64) ∧
    (3 : Nat) = 3 ∧
    (∃ n, part1b_opt Placement.front 2 "123".toList = some n ∧
      OptChoiceRun 2 "123".toList 0 ∅ n) ∧
    part1b_opt Placement.front 2 "123".toList = part1b_opt Placement.back 2 "123".toList := by
  have hd : ∀ v : page_id, occurrence_distance "123".toList 2 v = ⊤ := by
    intro v
    unfold occurrence_distance
    cases hq : next_occurrence "123".toList 2 v with
    | none => rfl
    | some q =>
      have h1 := (next_occurrence_some "123".toList 2 v q hq).2
      have h2 : q < 3 := h1.2.1
      omega
  have hfills : ∀ v : page_id, v ∈ ({1, 2} : Finset page_id) →
      OptChoiceRun 2 "123".toList 0 ∅ 3 := by
    intro v hv
    refine OptChoiceRun.fill 0 ∅ 2 1 (by decide) (by decide) (by decide) ?_
    refine OptChoiceRun.fill 1 _ 1 2 (by decide) (by decide) (by decide) ?_
    refine OptChoiceRun.evict 2 _ 0 3 v (by decide) (by decide) (by decide) ?_ ?_ ?_
    · revert hv; revert v; decide
    · intro w _
      rw [hd v]
      exact le_top
    · exact OptChoiceRun.done 3 _ (by decide)
  have hA := hfills 1 (by decide)
  have hB := hfills 2 (by decide)
  have hlen : "123".toList.length < 2 ^ 64 := by decide
  have h := C13_opt_tie_independent 2 (by decide) "123".toList
  exact ⟨by decide, hA, hlen, h.1 3 3 hA hB, h.2.1 hlen Placement.front,
    h.2.2 hlen Placement.front Placement.back⟩

end proj2
